import Mathlib

/-!
LibreOfficeReformatter: document tree, rewrite, packages and inventories.

A shallow embedding of the programs of the repository:

* `cmd/5_rewrite/libreoffice_style_renamer.go`: the generic XML `Node`,
  `StyleRenamer.isStyleAttribute`, `StyleRenamer.updateStyleReferences`, the
  token-level behaviour of `Node.UnmarshalXML` and `Node.MarshalXML`, and
  `StyleRenamer.RenameStyleInFile`;
* `cmd/write/main.go` and `cmd/read/main.go`: `extractFileFromZip`,
  `ODTEditor.SaveAs` on packages of named entries, and `extractAllText`;
* `cmd/styles/main.go`: the style inventory of `extractFromFile` and
  `extractStyleMapping`;
* `cmd/6_character/charstyles.go`: `LoadStyleMappings`, `processParagraph`,
  `ensureCharacterStyleExists` and `replaceDirectFormattingWithStyle`.

Go strings and byte slices are Lean `String`s, slices are `List`s, and a
method that mutates its receiver returns the new value of the receiver. The
libraries `encoding/xml`, `encoding/csv`, `archive/zip` and `os` are outside
the repository and are modelled where the programs call them.
-/

namespace LibreOfficeReformatter

/-! ## Data model -/

/-- An XML name as `encoding/xml` represents it: namespace and local part. -/
structure Name where
  Space : String
  Local : String
deriving DecidableEq, Repr

/-- An XML attribute as `encoding/xml` represents it. -/
structure Attr where
  Name : Name
  Value : String
deriving DecidableEq, Repr

/-- Go: `type Node struct { XMLName xml.Name; Attrs []xml.Attr; Content []byte; Children []Node }`. -/
structure Node where
  XMLName : Name
  Attrs : List Attr
  Content : String
  Children : List Node
deriving Repr

/-- Go: `type StyleRenamer struct { OldStyleName string; NewStyleName string }`. -/
structure StyleRenamer where
  OldStyleName : String
  NewStyleName : String
deriving DecidableEq, Repr

mutual
/-- Decidable equality of trees. -/
def Node.decEq : (a b : Node) → Decidable (a = b)
  | ⟨n1, a1, c1, ch1⟩, ⟨n2, a2, c2, ch2⟩ =>
    if h1 : n1 = n2 then
      if h2 : a1 = a2 then
        if h3 : c1 = c2 then
          match Node.decEqList ch1 ch2 with
          | isTrue h4 => isTrue (by subst h1 h2 h3 h4; rfl)
          | isFalse h4 => isFalse (by intro h; cases h; exact h4 rfl)
        else isFalse (by intro h; cases h; exact h3 rfl)
      else isFalse (by intro h; cases h; exact h2 rfl)
    else isFalse (by intro h; cases h; exact h1 rfl)
/-- Decidable equality of lists of trees. -/
def Node.decEqList : (a b : List Node) → Decidable (a = b)
  | [], [] => isTrue rfl
  | [], _ :: _ => isFalse (by intro h; cases h)
  | _ :: _, [] => isFalse (by intro h; cases h)
  | x :: xs, y :: ys =>
    match Node.decEq x y with
    | isTrue h1 =>
      match Node.decEqList xs ys with
      | isTrue h2 => isTrue (by subst h1 h2; rfl)
      | isFalse h2 => isFalse (by intro h; cases h; exact h2 rfl)
    | isFalse h1 => isFalse (by intro h; cases h; exact h1 rfl)
end

instance : DecidableEq Node := Node.decEq

/-! ## The rewrite engine -/

/-- The table local to `isStyleAttribute`. -/
def styleAttributes : List String :=
  [ "style-name",
    "parent-style-name",
    "next-style-name",
    "master-page-name",
    "page-layout-name",
    "name" ]

/-- The loop of `isStyleAttribute`: return true at the first table entry equal to `attrName`. -/
def isStyleAttributeLoop (attrName : String) : List String → Bool
  | [] => false
  | styleAttr :: rest =>
    if attrName = styleAttr then true else isStyleAttributeLoop attrName rest

/-- Go: `func (sr *StyleRenamer) isStyleAttribute(attrName string) bool`. -/
def StyleRenamer.isStyleAttribute (_sr : StyleRenamer) (attrName : String) : Bool :=
  isStyleAttributeLoop attrName styleAttributes

/-- One iteration of the attribute loop of `updateStyleReferences`, on the
attribute `attr` read by `range` and the running flag `modified`. The body
holds the same `if` twice; both test the copy `attr` and write the slot. -/
def StyleRenamer.updateAttr (sr : StyleRenamer) (attr : Attr) (modified : Bool) : Attr × Bool :=
  let slot := attr
  let s1 : Attr × Bool :=
    if sr.isStyleAttribute attr.Name.Local && attr.Value == sr.OldStyleName then
      ({ slot with Value := sr.NewStyleName }, true)
    else (slot, modified)
  let s2 : Attr × Bool :=
    if sr.isStyleAttribute attr.Name.Local && attr.Value == sr.OldStyleName then
      ({ s1.1 with Value := sr.NewStyleName }, true)
    else s1
  s2

/-- The loop `for i, attr := range node.Attrs` of `updateStyleReferences`. -/
def StyleRenamer.updateAttrs (sr : StyleRenamer) : List Attr → Bool → List Attr × Bool
  | [], modified => ([], modified)
  | attr :: rest, modified =>
    let s := sr.updateAttr attr modified
    let r := StyleRenamer.updateAttrs sr rest s.2
    (s.1 :: r.1, r.2)

mutual
/-- Go: `func (sr *StyleRenamer) updateStyleReferences(node *Node) bool`;
the result is the node after the call and the returned flag. -/
def StyleRenamer.updateStyleReferences (sr : StyleRenamer) : Node → Node × Bool
  | ⟨name, attrs, content, children⟩ =>
    let a := sr.updateAttrs attrs false
    let c := StyleRenamer.updateChildren sr children a.2
    (⟨name, a.1, content, c.1⟩, c.2)
/-- The loop `for i := range node.Children` of `updateStyleReferences`. -/
def StyleRenamer.updateChildren (sr : StyleRenamer) : List Node → Bool → List Node × Bool
  | [], modified => ([], modified)
  | child :: rest, modified =>
    let r := StyleRenamer.updateStyleReferences sr child
    let r2 := StyleRenamer.updateChildren sr rest (if r.2 then true else modified)
    (r.1 :: r2.1, r2.2)
end

/-! ## Addressing nodes of a tree -/

/-- The node reached from `n` by following child indices. -/
def nodeAt : Node → List Nat → Option Node
  | n, [] => some n
  | n, i :: p =>
    match n.Children[i]? with
    | none => none
    | some c => nodeAt c p

/-- The condition of the two `if`s: the attribute is accepted by `isStyleAttribute` and holds the old name. -/
def StyleRenamer.isRef (sr : StyleRenamer) (a : Attr) : Bool :=
  sr.isStyleAttribute a.Name.Local && a.Value == sr.OldStyleName

/-- What the rewrite does to one attribute. -/
def StyleRenamer.renameAttr (sr : StyleRenamer) (a : Attr) : Attr :=
  if sr.isRef a then { a with Value := sr.NewStyleName } else a

/-- The attribute with its namespace replaced by `g` of it; local name and value kept. -/
def Attr.withSpace (g : String → String) (a : Attr) : Attr :=
  ⟨⟨g a.Name.Space, a.Name.Local⟩, a.Value⟩

mutual
/-- The tree with the namespace of every attribute replaced through `g`. -/
def Node.mapAttrSpace (g : String → String) : Node → Node
  | ⟨name, attrs, content, children⟩ =>
    ⟨name, attrs.map (Attr.withSpace g), content, Node.mapAttrSpaceList g children⟩
/-- The same on a list of trees. -/
def Node.mapAttrSpaceList (g : String → String) : List Node → List Node
  | [] => []
  | c :: rest => Node.mapAttrSpace g c :: Node.mapAttrSpaceList g rest
end

/-! ## Tokens, decoder and encoder

`Node.UnmarshalXML` and `Node.MarshalXML` talk to `encoding/xml` through
tokens only: the first pulls them with `d.Token()`, the second pushes them
with `e.EncodeToken` and `e.Encode`. The library is outside the repository;
it is modelled at this interface. A `Decoder` is the stream it has in store:
the tokens still to be delivered and the error it reports once they are used
up. `deliverTokens` makes this stream from an input by the rules of the
library, which checks every end tag against the open elements and reports the
end of the input inside an element as a syntax error; `NewDecoder` is the
decoder of an input. An `Encoder` is the sequence of tokens written so far
together with its stack of open tags.
-/

/-- Go: `xml.StartElement`. -/
structure StartElement where
  Name : Name
  Attr : List Attr
deriving DecidableEq, Repr

/-- Go: `xml.Token`, one of `StartElement`, `EndElement`, `CharData`, `Comment`,
`ProcInst`, `Directive`. -/
inductive Token where
  | StartElement (Name : Name) (Attr : List Attr)
  | EndElement (Name : Name)
  | CharData (data : String)
  | Comment (data : String)
  | ProcInst (Target : String) (Inst : String)
  | Directive (data : String)
deriving DecidableEq, Repr

/-- The error values that occur: `io.EOF`, a decoder error, an encoder error. -/
inductive XmlError where
  | EOF
  | Syntax (msg : String)
  | Encode (msg : String)
deriving DecidableEq, Repr

/-- Outcome of a call that returns a Go `error`. -/
inductive Result (α : Type) where
  | ok (value : α)
  | error (err : XmlError)
deriving DecidableEq, Repr

/-- The decoder: tokens still to come, and the error `Token` returns after
them. The decoders of the library are those `NewDecoder` makes, and the states
they pass through. -/
structure Decoder where
  pending : List Token
  atEnd : XmlError
deriving DecidableEq, Repr

/-- Go: `d.Token()`, the next token or an error, and the decoder afterwards. -/
def Decoder.Token (d : Decoder) : Result Token × Decoder :=
  match d.pending with
  | [] => (.error d.atEnd, d)
  | t :: rest => (.ok t, { d with pending := rest })

/-- The error `Token` of `encoding/xml` returns at the end of the input while
an element is open: `io.EOF` becomes the syntax error `unexpected EOF`, every
other error is passed on. -/
def unexpectedEnd (inputEnd : XmlError) : XmlError :=
  if inputEnd = XmlError.EOF then .Syntax "unexpected EOF" else inputEnd

/-- The rule by which `(*xml.Decoder).Token` of `encoding/xml` makes its
stream, for the decoders `xml.NewDecoder` makes, which are strict. `input` is
what the input still holds, as the tokens the decoder finds in it, and
`inputEnd` is what ends it: `io.EOF`, or the error of the reader or of the
syntax at that place. `stack` holds the names of the elements that are open,
innermost first: a start tag is pushed, an end tag must name the innermost
open element and pops it, and at the end of the input `io.EOF` is passed on
only when no element is open. The result is the tokens `Token` delivers and
the error it returns after them. -/
def deliverTokens (inputEnd : XmlError) : List Name → List Token → List Token × XmlError
  | [], [] => ([], inputEnd)
  | _ :: _, [] => ([], unexpectedEnd inputEnd)
  | stack, .StartElement name attr :: rest =>
    let r := deliverTokens inputEnd (name :: stack) rest
    (.StartElement name attr :: r.1, r.2)
  | [], .EndElement _ :: _ => ([], .Syntax "unexpected end element")
  | top :: stack, .EndElement name :: rest =>
    if top = name then
      let r := deliverTokens inputEnd stack rest
      (.EndElement name :: r.1, r.2)
    else ([], .Syntax "element closed by the end tag of another")
  | stack, .CharData data :: rest =>
    let r := deliverTokens inputEnd stack rest
    (.CharData data :: r.1, r.2)
  | stack, .Comment data :: rest =>
    let r := deliverTokens inputEnd stack rest
    (.Comment data :: r.1, r.2)
  | stack, .ProcInst target inst :: rest =>
    let r := deliverTokens inputEnd stack rest
    (.ProcInst target inst :: r.1, r.2)
  | stack, .Directive data :: rest =>
    let r := deliverTokens inputEnd stack rest
    (.Directive data :: r.1, r.2)

/-- The decoder of `encoding/xml` with the elements `stack` open, that is,
after it delivered their start tags and none of their end tags, when `input`
is left to read and the input ends with `inputEnd`. -/
def decoderInside (stack : List Name) (input : List Token) (inputEnd : XmlError) : Decoder :=
  ⟨(deliverTokens inputEnd stack input).1, (deliverTokens inputEnd stack input).2⟩

/-- Go: `xml.NewDecoder(r)` on a reader whose input holds the tokens `input`
and ends with `inputEnd`: no element is open. -/
def NewDecoder (input : List Token) (inputEnd : XmlError) : Decoder :=
  decoderInside [] input inputEnd

/-- Whether a token is a start tag or an end tag. -/
def Token.isTag : Token → Bool
  | .StartElement _ _ => true
  | .EndElement _ => true
  | _ => false

/-- The encoder: tokens written, and the names of the open start tags, innermost first. -/
structure Encoder where
  out : List Token
  tags : List Name
deriving DecidableEq, Repr

/-- The attributes `encoding/xml` writes into a start tag: those of the token
in their order, without the ones whose local name is empty, which it skips. -/
def writtenAttrs (attr : List Attr) : List Attr :=
  attr.filter (fun a => decide (a.Name.Local ≠ ""))

/-- Go: `e.EncodeToken(t)` of `encoding/xml` for the tokens `MarshalXML` passes.
A start or end tag without a local name is refused; a start tag is written
with the attributes that have a local name; an end tag must match the
innermost open start tag, and the marker with the empty name that
`e.Encode` puts on the stack closes it off. `out` records each tag with the
name and the attributes it is written with, as pairs of namespace and local
part; how the encoder spells a namespace out in the text, by `xmlns`
declarations and prefixes of its own, is not recorded. The writer below the
encoder takes every write. -/
def Encoder.EncodeToken (e : Encoder) : Token → Result Encoder
  | .StartElement name attr =>
    if name.Local = "" then .error (.Encode "xml: start tag with no name")
    else .ok ⟨e.out ++ [.StartElement name (writtenAttrs attr)], name :: e.tags⟩
  | .EndElement name =>
    if name.Local = "" then .error (.Encode "xml: end tag with no name")
    else
      match e.tags with
      | [] => .error (.Encode "xml: end tag without start tag")
      | top :: rest =>
        if top.Local = "" then .error (.Encode "xml: end tag without start tag")
        else if top = name then .ok ⟨e.out ++ [.EndElement name], rest⟩
        else .error (.Encode "xml: end tag does not match start tag")
  | t => .ok ⟨e.out ++ [t], e.tags⟩

/-- The zero value of `Node`, as in `var child Node`. -/
def Node.zero : Node := ⟨⟨"", ""⟩, [], "", []⟩

/-- The `for` loop of `Node.UnmarshalXML` on the receiver `n` and the builder
`content`. `fuel` bounds the number of loop iterations along one chain of
calls; `none` means the bound was reached. -/
def unmarshalLoop : Nat → Node → String → Decoder → Option (Result Node × Decoder)
  | 0, _, _, _ => none
  | fuel + 1, n, content, d =>
    match d.Token with
    | (.error err, d1) =>
      if err = XmlError.EOF then some (.ok { n with Content := content }, d1)
      else some (.error err, d1)
    | (.ok (.StartElement name attr), d1) =>
      match unmarshalLoop fuel { Node.zero with XMLName := name, Attrs := attr } "" d1 with
      | none => none
      | some (.error err, d2) => some (.error err, d2)
      | some (.ok child, d2) =>
        unmarshalLoop fuel { n with Children := n.Children ++ [child] } content d2
    | (.ok (.EndElement _), d1) => some (.ok { n with Content := content }, d1)
    | (.ok (.CharData t), d1) => unmarshalLoop fuel n (content ++ t) d1
    | (.ok _, d1) => unmarshalLoop fuel n content d1

/-- Go: `func (n *Node) UnmarshalXML(d *xml.Decoder, start xml.StartElement) error`;
the result is the error or the receiver after the call, and the decoder. -/
def Node.UnmarshalXML (fuel : Nat) (n : Node) (d : Decoder) (start : StartElement) :
    Option (Result Node × Decoder) :=
  unmarshalLoop fuel { n with XMLName := start.Name, Attrs := start.Attr } "" d

mutual
/-- Go: `func (n Node) MarshalXML(e *xml.Encoder, start xml.StartElement) error`.
Both fields of `start` are overwritten before it is used, so it is no
parameter here. `len(n.Content) > 0` is `content.length > 0`: a string has a
byte exactly when it has a character. The result is the error or the encoder
after the call. -/
def Node.MarshalXML : Node → Encoder → Result Encoder
  | ⟨name, attrs, content, children⟩, e =>
    match e.EncodeToken (.StartElement name attrs) with
    | .error err => .error err
    | .ok e1 =>
      match (if children.length = 0 ∧ content.length > 0 then
               e1.EncodeToken (.CharData content) else .ok e1) with
      | .error err => .error err
      | .ok e2 =>
        match Node.marshalChildren children e2 with
        | .error err => .error err
        | .ok e3 => e3.EncodeToken (.EndElement name)
/-- The loop `for _, child := range n.Children` with `e.Encode(child)`, which
calls `child.MarshalXML` between a marker on the tag stack and the check that
the tags opened since were closed. -/
def Node.marshalChildren : List Node → Encoder → Result Encoder
  | [], e => .ok e
  | child :: rest, e =>
    match Node.MarshalXML child ⟨e.out, ⟨"", ""⟩ :: e.tags⟩ with
    | .error err => .error err
    | .ok e1 =>
      match e1.tags with
      | [] => .error (.Encode "xml: MarshalXML wrote invalid XML")
      | top :: below =>
        if top = ⟨"", ""⟩ then Node.marshalChildren rest ⟨e1.out, below⟩
        else .error (.Encode "xml: MarshalXML wrote invalid XML: not closed")
end

/-! ## Well-formed input and the parts of a tree -/

/-- The token sequences that can stand between a start tag and its end tag in
a well-formed document: text, comments, instructions and complete elements,
each element closed by the end tag of its own name. -/
inductive Balanced : List Token → Prop where
  | nil : Balanced []
  | charData (t : String) {r : List Token} : Balanced r → Balanced (.CharData t :: r)
  | comment (t : String) {r : List Token} : Balanced r → Balanced (.Comment t :: r)
  | procInst (t i : String) {r : List Token} : Balanced r → Balanced (.ProcInst t i :: r)
  | directive (t : String) {r : List Token} : Balanced r → Balanced (.Directive t :: r)
  | element (name : Name) (attr : List Attr) {body r : List Token} :
      name.Local ≠ "" → Balanced body → Balanced r →
      Balanced (.StartElement name attr :: (body ++ .EndElement name :: r))

mutual
/-- Whether every node of the tree has a non-empty local name. -/
def Node.named : Node → Bool
  | ⟨name, _, _, children⟩ => decide (name.Local ≠ "") && Node.namedList children
/-- The same on a list of trees. -/
def Node.namedList : List Node → Bool
  | [] => true
  | c :: rest => Node.named c && Node.namedList rest
end

mutual
/-- The tokens `MarshalXML` writes for a tree. -/
def Node.tokens : Node → List Token
  | ⟨name, attrs, content, children⟩ =>
    .StartElement name (writtenAttrs attrs) ::
      ((if children.length = 0 ∧ content.length > 0 then [Token.CharData content] else []) ++
        (Node.tokensList children ++ [.EndElement name]))
/-- The same on a list of trees. -/
def Node.tokensList : List Node → List Token
  | [] => []
  | c :: rest => Node.tokens c ++ Node.tokensList rest
end

/-! ## Example documents -/

/-- The OpenDocument text namespace. -/
def textNS : String := "urn:oasis:names:tc:opendocument:xmlns:text:1.0"

/-- The OpenDocument table namespace. -/
def tableNS : String := "urn:oasis:names:tc:opendocument:xmlns:table:1.0"

/-- The OpenDocument style namespace. -/
def styleNS : String := "urn:oasis:names:tc:opendocument:xmlns:style:1.0"

/-- The rename of the package comment: `Header 1` to `headA`. -/
def headerRenamer : StyleRenamer := ⟨"Header 1", "headA"⟩

/-- A table cell that references the style `Header 1`. -/
def headerCell : Node :=
  ⟨⟨tableNS, "table-cell"⟩, [⟨⟨tableNS, "style-name"⟩, "Header 1"⟩, ⟨⟨tableNS, "value-type"⟩, "Header 1"⟩], "x", []⟩

/-- A body with three references to `Header 1` on a heading, a paragraph and a
nested table cell, beside attributes that are no references. -/
def headerDoc : Node :=
  ⟨⟨textNS, "section"⟩, [⟨⟨textNS, "style-name"⟩, "Sect1"⟩], "",
    [ ⟨⟨textNS, "h"⟩, [⟨⟨textNS, "style-name"⟩, "Header 1"⟩, ⟨⟨textNS, "outline-level"⟩, "1"⟩], "Title", []⟩,
      ⟨⟨textNS, "p"⟩, [⟨⟨textNS, "style-name"⟩, "Header 1"⟩], "Header 1",
        [⟨⟨textNS, "span"⟩, [⟨⟨textNS, "style-name"⟩, "T1"⟩], "Header 1", []⟩]⟩,
      ⟨⟨tableNS, "table"⟩, [⟨⟨tableNS, "style-name"⟩, "Table1"⟩], "",
        [⟨⟨tableNS, "table-row"⟩, [], "", [headerCell]⟩]⟩ ]⟩

/-- A style definition whose internal name and display name are both `Old`. -/
def oldStyleDef : Node :=
  ⟨⟨styleNS, "style"⟩,
    [⟨⟨styleNS, "name"⟩, "Old"⟩, ⟨⟨styleNS, "display-name"⟩, "Old"⟩, ⟨⟨styleNS, "family"⟩, "paragraph"⟩], "", []⟩

/-- A styles part holding `oldStyleDef`. -/
def oldStyles : Node := ⟨⟨"", "styles"⟩, [], "", [oldStyleDef]⟩

/-- A body where `style-name="Footer"` is a paragraph-style reference on
`text:p` and a list-style reference on `text:list`. -/
def footerDoc : Node :=
  ⟨⟨textNS, "section"⟩, [], "",
    [ ⟨⟨textNS, "p"⟩, [⟨⟨textNS, "style-name"⟩, "Footer"⟩], "page 1", []⟩,
      ⟨⟨textNS, "list"⟩, [⟨⟨textNS, "style-name"⟩, "Footer"⟩], "", []⟩ ]⟩

/-- A table whose own name, `table:name`, happens to be `Old`. -/
def namedTable : Node :=
  ⟨⟨tableNS, "table"⟩, [⟨⟨tableNS, "name"⟩, "Old"⟩], "", []⟩

/-- The tokens of `<text:p>Hello <text:span>world</text:span></text:p>` between its start tag and its end tag. -/
def mixedBody : List Token :=
  [ .CharData "Hello ", .StartElement ⟨textNS, "span"⟩ [], .CharData "world",
    .EndElement ⟨textNS, "span"⟩ ]

/-- The tokens of `<text:p text:style-name="P1"><text:span>world</text:span><text:s/></text:p>`
between its start tag and its end tag. -/
def plainBody : List Token :=
  [ .StartElement ⟨textNS, "span"⟩ [], .CharData "world", .EndElement ⟨textNS, "span"⟩,
    .StartElement ⟨textNS, "s"⟩ [], .EndElement ⟨textNS, "s"⟩ ]

/-- The start tag `<text:p>`. -/
def paragraphStart : StartElement := ⟨⟨textNS, "p"⟩, []⟩

/-- The tree `UnmarshalXML` builds from `mixedBody` under `paragraphStart`. -/
def mixedParsed : Node :=
  ⟨⟨textNS, "p"⟩, [], "Hello ", [⟨⟨textNS, "span"⟩, [], "world", []⟩]⟩

/-- The tokens `MarshalXML` writes for `mixedParsed`, after the start tag. -/
def mixedMarshalled : List Token :=
  [ .StartElement ⟨textNS, "span"⟩ [], .CharData "world", .EndElement ⟨textNS, "span"⟩,
    .EndElement ⟨textNS, "p"⟩ ]

/-- The tree `UnmarshalXML` builds from `mixedMarshalled`: the text `Hello ` is gone. -/
def mixedReparsed : Node :=
  ⟨⟨textNS, "p"⟩, [], "", [⟨⟨textNS, "span"⟩, [], "world", []⟩]⟩

/-! ## Truncated input and more example documents -/

/-- The token sequences after a start tag that end while the element is still
open: a well-formed body cut off before the end tag of the element, possibly
inside one of its children. -/
inductive Truncated : List Token → Prop where
  | nil : Truncated []
  | charData (t : String) {r : List Token} : Truncated r → Truncated (.CharData t :: r)
  | comment (t : String) {r : List Token} : Truncated r → Truncated (.Comment t :: r)
  | procInst (t i : String) {r : List Token} : Truncated r → Truncated (.ProcInst t i :: r)
  | directive (t : String) {r : List Token} : Truncated r → Truncated (.Directive t :: r)
  | closedChild (name : Name) (attr : List Attr) {body r : List Token} :
      name.Local ≠ "" → Balanced body → Truncated r →
      Truncated (.StartElement name attr :: (body ++ .EndElement name :: r))
  | openChild (name : Name) (attr : List Attr) {r : List Token} :
      Truncated r → Truncated (.StartElement name attr :: r)

/-- The body of `<text:p>Hello <text:s/></text:p>`: the text comes before the child. -/
def textFirstBody : List Token :=
  [ .CharData "Hello ", .StartElement ⟨textNS, "s"⟩ [], .EndElement ⟨textNS, "s"⟩ ]

/-- The body of `<text:p><text:s/>Hello </text:p>`: the text comes after the child. -/
def textLastBody : List Token :=
  [ .StartElement ⟨textNS, "s"⟩ [], .EndElement ⟨textNS, "s"⟩, .CharData "Hello " ]

/-- The one tree `UnmarshalXML` builds from both bodies. -/
def textAndChild : Node :=
  ⟨⟨textNS, "p"⟩, [], "Hello ", [⟨⟨textNS, "s"⟩, [], "", []⟩]⟩

/-- The text this tree is serialized with when it has no children and `Content` is not empty. -/
def Node.textTokens (n : Node) : List Token :=
  if n.Children.length = 0 ∧ n.Content.length > 0 then [Token.CharData n.Content] else []

/-- The body of `<text:p>Hello <text:span>wor`, cut off inside the span. -/
def truncatedBody : List Token :=
  [ .CharData "Hello ", .StartElement ⟨textNS, "span"⟩ [], .CharData "wor" ]

/-! ## Other traversal orders

The two traversals the specification compares the rewrite with. They use the
attribute loop of `updateStyleReferences` and differ from it in the order of
the work only.
-/

mutual
/-- The rewrite in post-order: the children of a node first, then its own attributes. -/
def StyleRenamer.updatePostOrder (sr : StyleRenamer) : Node → Node × Bool
  | ⟨name, attrs, content, children⟩ =>
    let c := StyleRenamer.updateChildrenPostOrder sr children false
    let a := sr.updateAttrs attrs c.2
    (⟨name, a.1, content, c.1⟩, a.2)
/-- The children loop of the post-order rewrite, left to right. -/
def StyleRenamer.updateChildrenPostOrder (sr : StyleRenamer) :
    List Node → Bool → List Node × Bool
  | [], modified => ([], modified)
  | child :: rest, modified =>
    let r := StyleRenamer.updatePostOrder sr child
    let r2 := StyleRenamer.updateChildrenPostOrder sr rest (if r.2 then true else modified)
    (r.1 :: r2.1, r2.2)
end

mutual
/-- The rewrite with the children of every node processed from the last to the first. -/
def StyleRenamer.updateRightToLeft (sr : StyleRenamer) : Node → Node × Bool
  | ⟨name, attrs, content, children⟩ =>
    let a := sr.updateAttrs attrs false
    let c := StyleRenamer.updateChildrenRightToLeft sr children a.2
    (⟨name, a.1, content, c.1⟩, c.2)
/-- The children loop from the right: the children after `child` are done before it. -/
def StyleRenamer.updateChildrenRightToLeft (sr : StyleRenamer) :
    List Node → Bool → List Node × Bool
  | [], modified => ([], modified)
  | child :: rest, modified =>
    let r2 := StyleRenamer.updateChildrenRightToLeft sr rest modified
    let r := StyleRenamer.updateRightToLeft sr child
    (r.1 :: r2.1, if r.2 then true else r2.2)
end

/-! ## Packages

A package is a ZIP archive. The archive library and the file system are
outside the repository; they are modelled where the programs call them. A
source entry carries what `Open` returns and what reading after it delivers
while the program runs. The destination is the list of entries created so
far, each with the bytes written to it, together with the number of calls on
it that succeed before a write to the file below it fails. The entry data are
the bytes after decompression.
-/

/-- Go: the `io.ReadCloser` that `file.Open()` returns: the bytes that reading
delivers, and whether the reading ends with an error in place of `io.EOF`, as
for an entry whose stored data are damaged. -/
structure EntryReader where
  data : String
  fails : Bool
deriving DecidableEq, Repr

/-- Go: `*zip.File` as the programs use it: `Name`, and what `Open` returns,
`none` when it returns an error. -/
structure ZipFile where
  Name : String
  Open : Option EntryReader
deriving DecidableEq, Repr

/-- The bytes of an entry that `Open` and reading to the end deliver; `none`
when `Open` fails or the reading ends with an error. -/
def ZipFile.content (f : ZipFile) : Option String :=
  match f.Open with
  | some ⟨data, false⟩ => some data
  | _ => none

/-- An entry of a written package: name and bytes. -/
structure ZipEntry where
  Name : String
  data : String
deriving DecidableEq, Repr

/-- The errors of the archive and file operations. -/
inductive FileError where
  | notFound (filename : String)
  | cannotOpen (name : String)
  | cannotCreate (name : String)
  | cannotWrite (name : String)
  | cannotRead (name : String)
deriving DecidableEq, Repr

/-- Outcome of an archive read. -/
inductive FileResult (α : Type) where
  | ok (value : α)
  | error (err : FileError)
deriving DecidableEq, Repr

/-- Go: `func extractFileFromZip(reader *zip.ReadCloser, filename string) ([]byte, error)`
of `cmd/read/main.go`: the loop over `reader.File`, with the error of `Open`
and the error of `io.ReadAll` returned as they come. -/
def extractFileFromZip : List ZipFile → String → FileResult String
  | [], filename => .error (.notFound filename)
  | file :: rest, filename =>
    if file.Name = filename then
      match file.Open with
      | none => .error (.cannotOpen file.Name)
      | some rc => if rc.fails then .error (.cannotRead file.Name) else .ok rc.data
    else extractFileFromZip rest filename

/-- Go: `type ODTEditor struct { filename string; contentXML []byte; reader *zip.ReadCloser }`;
`reader` is the list `reader.File` of the archive opened at `filename`. -/
structure ODTEditor where
  filename : String
  contentXML : String
  reader : List ZipFile
deriving DecidableEq, Repr

/-- The loop of `ODTEditor.extractFileFromZip` over `e.reader.File`. -/
def ODTEditor.extractLoop : List ZipFile → String → FileResult String
  | [], filename => .error (.notFound filename)
  | file :: rest, filename =>
    if file.Name = filename then
      match file.Open with
      | none => .error (.cannotOpen file.Name)
      | some rc => if rc.fails then .error (.cannotRead file.Name) else .ok rc.data
    else ODTEditor.extractLoop rest filename

/-- Go: `func (e *ODTEditor) extractFileFromZip(filename string) ([]byte, error)` of
`cmd/write/main.go`. -/
def ODTEditor.extractFileFromZip (e : ODTEditor) (filename : String) : FileResult String :=
  ODTEditor.extractLoop e.reader filename

/-- Go: `*zip.Writer` on the new file: the entries created so far with the
bytes written to them, and `room`, the number of further calls on the writer
(`Create`, a write to an entry, `Close`) that succeed before a write to the
file fails. The library keeps the error of the file: once a call has failed,
`room` is 0 and every later call fails. -/
structure ZipWriter where
  entries : List ZipEntry
  room : Nat
deriving DecidableEq, Repr

/-- Go: `zipWriter.Create(name)`: a new empty entry at the end, or an error. -/
def ZipWriter.Create (zw : ZipWriter) (name : String) : Option ZipWriter :=
  if zw.room = 0 then none else some ⟨zw.entries ++ [⟨name, ""⟩], zw.room - 1⟩

/-- Go: writing to the writer `Create` returned, by `writer.Write(data)` or by
the writes of `io.Copy`: the bytes go to the last entry, or an error. -/
def ZipWriter.Write (zw : ZipWriter) (data : String) : Option ZipWriter :=
  if zw.room = 0 then none
  else
    match zw.entries.reverse with
    | [] => some ⟨zw.entries, zw.room - 1⟩
    | last :: before =>
      some ⟨(⟨last.Name, last.data ++ data⟩ :: before).reverse, zw.room - 1⟩

/-- Go: `func (e *ODTEditor) writeFileToZip(zipWriter *zip.Writer, filename string, data []byte) error`;
the result is the error, if any, and the writer afterwards. -/
def ODTEditor.writeFileToZip (_e : ODTEditor) (zipWriter : ZipWriter) (filename : String)
    (data : String) : Option FileError × ZipWriter :=
  match zipWriter.Create filename with
  | none => (some (.cannotCreate filename), zipWriter)
  | some writer =>
    match writer.Write data with
    | none => (some (.cannotWrite filename), writer)
    | some written => (none, written)

/-- Go: `io.Copy(destWriter, sourceReader)`: what the reader delivers is
written, a failed write ends the copy with its error, and the error that ends
the reading is returned after the bytes read before it were written. -/
def ioCopy (destWriter : ZipWriter) (sourceReader : EntryReader) (name : String) :
    Option FileError × ZipWriter :=
  match destWriter.Write sourceReader.data with
  | none => (some (.cannotWrite name), destWriter)
  | some written =>
    if sourceReader.fails then (some (.cannotRead name), written) else (none, written)

/-- Go: `func (e *ODTEditor) copyFileToZip(zipWriter *zip.Writer, sourceFile *zip.File) error`:
`Open`, then `Create`, then `io.Copy`, each with its error returned. -/
def ODTEditor.copyFileToZip (_e : ODTEditor) (zipWriter : ZipWriter) (sourceFile : ZipFile) :
    Option FileError × ZipWriter :=
  match sourceFile.Open with
  | none => (some (.cannotOpen sourceFile.Name), zipWriter)
  | some sourceReader =>
    match zipWriter.Create sourceFile.Name with
    | none => (some (.cannotCreate sourceFile.Name), zipWriter)
    | some destWriter => ioCopy destWriter sourceReader sourceFile.Name

/-- The errors `SaveAs` returns. -/
inductive SaveError where
  | creatingNewFile
  | writingContent (cause : FileError)
  | copyingFile (name : String) (cause : FileError)
deriving DecidableEq, Repr

/-- The loop `for _, file := range e.reader.File` of `SaveAs`. -/
def ODTEditor.saveLoop (e : ODTEditor) : List ZipFile → ZipWriter → Option SaveError × ZipWriter
  | [], zipWriter => (none, zipWriter)
  | file :: rest, zipWriter =>
    if file.Name = "content.xml" then
      match e.writeFileToZip zipWriter "content.xml" e.contentXML with
      | (some err, zw) => (some (.writingContent err), zw)
      | (none, zw) => ODTEditor.saveLoop e rest zw
    else
      match e.copyFileToZip zipWriter file with
      | (some err, zw) => (some (.copyingFile file.Name err), zw)
      | (none, zw) => ODTEditor.saveLoop e rest zw

/-- What a file holds: a package, the beginning of an archive that was never
completed and is no package, or an XML part, given by the tokens a decoder
finds in it and by what ends it, `io.EOF` for a file that is read to its end. -/
inductive FileData where
  | package (entries : List ZipEntry)
  | incomplete
  | xml (input : List Token) (inputEnd : XmlError)
deriving DecidableEq, Repr

/-- The files of the machine: what each path holds, the paths where `os.Create`
fails, and how many calls on the writer of a new archive succeed before a
write to the disk fails. A path stands for the file it names: two paths are
two files. -/
structure FileSystem where
  files : String → Option FileData
  denied : String → Bool
  room : Nat

/-- Go: the deferred `zipWriter.Close()` and `newFile.Close()`, whose errors
are dropped: when the directory of the archive can be written the file holds
the package of the entries created, otherwise it is left incomplete. -/
def ZipWriter.Close (zw : ZipWriter) : FileData :=
  if zw.room = 0 then .incomplete else .package zw.entries

/-- A source entry after the file of the archive was emptied: its header is
no longer found, and `Open` fails. -/
def ZipFile.emptied (f : ZipFile) : ZipFile := ⟨f.Name, none⟩

/-- The entries as `SaveAs` finds them while it runs. `os.Create` empties the
file at the output path; when that is the file the reader of the editor has
open, its entries can no longer be opened. -/
def ODTEditor.source (e : ODTEditor) (outputFilename : String) : List ZipFile :=
  if outputFilename = e.filename then e.reader.map ZipFile.emptied else e.reader

/-- Go: `func (e *ODTEditor) SaveAs(outputFilename string) error`; the result is
the error, if any, and the files afterwards. `os.Create` puts an empty file at
the output path, the loop writes into it, and the deferred `Close` calls
complete the archive, on every path out of the function. -/
def ODTEditor.SaveAs (e : ODTEditor) (fs : FileSystem) (outputFilename : String) :
    Option SaveError × FileSystem :=
  if fs.denied outputFilename then (some .creatingNewFile, fs)
  else
    let r := e.saveLoop (e.source outputFilename) ⟨[], fs.room⟩
    (r.1,
      { fs with
        files := fun p => if p = outputFilename then some r.2.Close else fs.files p
        room := r.2.room - 1 })

/-- The entry `SaveAs` writes for a source entry. -/
def ODTEditor.written (e : ODTEditor) (f : ZipFile) : ZipEntry :=
  ⟨f.Name, if f.Name = "content.xml" then e.contentXML else f.content.getD ""⟩

/-- An editor on a package of four entries with an edited `content.xml`. -/
def sampleEditor : ODTEditor :=
  ⟨"in.odt", "<office:document-content>new</office:document-content>",
    [ ⟨"mimetype", some ⟨"application/vnd.oasis.opendocument.text", false⟩⟩,
      ⟨"content.xml", some ⟨"<office:document-content>old</office:document-content>", false⟩⟩,
      ⟨"Pictures/img1.png", some ⟨"PNG-bytes", false⟩⟩,
      ⟨"META-INF/manifest.xml", some ⟨"<manifest:manifest/>", false⟩⟩ ]⟩

/-- The same editor when the picture cannot be opened. -/
def brokenEditor : ODTEditor :=
  ⟨"in.odt", "<office:document-content>new</office:document-content>",
    [ ⟨"mimetype", some ⟨"application/vnd.oasis.opendocument.text", false⟩⟩,
      ⟨"Pictures/img1.png", none⟩,
      ⟨"content.xml", some ⟨"<office:document-content>old</office:document-content>", false⟩⟩ ]⟩

/-- The same editor when the picture can be opened and the reading of it ends
with an error after the bytes `PNG-`. -/
def damagedEditor : ODTEditor :=
  ⟨"in.odt", "<office:document-content>new</office:document-content>",
    [ ⟨"mimetype", some ⟨"application/vnd.oasis.opendocument.text", false⟩⟩,
      ⟨"Pictures/img1.png", some ⟨"PNG-", true⟩⟩,
      ⟨"content.xml", some ⟨"<office:document-content>old</office:document-content>", false⟩⟩ ]⟩

/-- Files where `out.odt` already holds a package and nothing is denied. -/
def sampleFiles : FileSystem :=
  ⟨fun p => if p = "out.odt" then some (.package [⟨"mimetype", "earlier"⟩, ⟨"content.xml", "earlier"⟩])
    else none, fun _ => false, 100⟩

/-! ## The style inventory

`cmd/styles/main.go`. The Go map `map[string]StyleInfo` is a list of pairs
with distinct keys. `decoder.DecodeElement(&style, &se)` is a call into
`encoding/xml`; it is modelled by its rule for a struct whose fields are all
attributes: each field receives the value of the attribute with the local
name of its tag, and the decoder is left after the end tag of the element.
-/

/-- Go: `type Style struct`, the three attribute fields. -/
structure Style where
  Name : String
  DisplayName : String
  Family : String
deriving DecidableEq, Repr

/-- Go: `type StyleInfo struct { DisplayName string; Family string }`. -/
structure StyleInfo where
  DisplayName : String
  Family : String
deriving DecidableEq, Repr

/-- Go: `mapping[key] = info` for a map with string keys, on the list of pairs: the entry of the key is
replaced where it stands, or a new entry is added. -/
def mappingSet {β : Type} : List (String × β) → String → β → List (String × β)
  | [], key, info => [(key, info)]
  | (k, v) :: rest, key, info =>
    if k = key then (key, info) :: rest else (k, v) :: mappingSet rest key info

/-- Go: `mapping[key]` with its presence flag. -/
def mappingGet {β : Type} : List (String × β) → String → Option β
  | [], _ => none
  | (k, v) :: rest, key => if k = key then some v else mappingGet rest key

/-- The attribute part of `DecodeElement` into a `Style`: the attributes are
taken in order, and the field tagged with the local name of an attribute
receives its value. -/
def decodeStyleAttrs : List Attr → Style → Style
  | [], style => style
  | a :: rest, style =>
    let s1 : Style := if a.Name.Local = "name" then { style with Name := a.Value } else style
    let s2 : Style :=
      if a.Name.Local = "display-name" then { s1 with DisplayName := a.Value } else s1
    let s3 : Style := if a.Name.Local = "family" then { s2 with Family := a.Value } else s2
    decodeStyleAttrs rest s3

/-- The tokens after the end tag that closes the element the decoder is in,
`depth` further elements being open; `none` when the input ends first. -/
def skipElement : Nat → List Token → Option (List Token)
  | _, [] => none
  | depth, .StartElement _ _ :: rest => skipElement (depth + 1) rest
  | 0, .EndElement _ :: rest => some rest
  | depth + 1, .EndElement _ :: rest => skipElement depth rest
  | depth, .CharData _ :: rest => skipElement depth rest
  | depth, .Comment _ :: rest => skipElement depth rest
  | depth, .ProcInst _ _ :: rest => skipElement depth rest
  | depth, .Directive _ :: rest => skipElement depth rest

/-- Go: `decoder.DecodeElement(&style, &se)` for `var style Style`: the element
must be named `style`; its attributes fill the fields and the rest of the
element is read over. -/
def Decoder.DecodeElement (d : Decoder) (start : StartElement) : Result Style × Decoder :=
  if start.Name.Local ≠ "style" then (.error (.Syntax "expected element type <style>"), d)
  else
    match skipElement 0 d.pending with
    | none => (.error d.atEnd, ⟨[], d.atEnd⟩)
    | some rest => (.ok (decodeStyleAttrs start.Attr ⟨"", "", ""⟩), ⟨rest, d.atEnd⟩)

/-- Lines 97-106 of `extractFromFile`: a style with a name is entered under its
name, with the name as display name when it has none. -/
def recordStyle (mapping : List (String × StyleInfo)) (style : Style) :
    List (String × StyleInfo) :=
  if style.Name ≠ "" then
    let displayName := if style.DisplayName = "" then style.Name else style.DisplayName
    mappingSet mapping style.Name ⟨displayName, style.Family⟩
  else mapping

/-- The `switch` of the loop of `extractFromFile` on one token: the decoder and
the mapping afterwards. -/
def extractStep (token : Token) (decoder : Decoder) (mapping : List (String × StyleInfo)) :
    Decoder × List (String × StyleInfo) :=
  match token with
  | .StartElement name attr =>
    if name.Local = "style" ∧ name.Space ≠ "" then
      match decoder.DecodeElement ⟨name, attr⟩ with
      | (.ok style, d2) => (d2, recordStyle mapping style)
      | (.error _, d2) => (d2, mapping)
    else (decoder, mapping)
  | _ => (decoder, mapping)

/-- The loop `for { token, err := decoder.Token(); if err != nil { break } ... }`
of `extractFromFile`; `fuel` bounds the iterations, `none` means it ran out. -/
def extractLoop : Nat → Decoder → List (String × StyleInfo) → Option (List (String × StyleInfo))
  | 0, _, _ => none
  | fuel + 1, decoder, mapping =>
    match decoder.Token with
    | (.error _, _) => some mapping
    | (.ok token, d1) =>
      let s := extractStep token d1 mapping
      extractLoop fuel s.1 s.2

/-- The loop with fuel for every pending token, which is enough. -/
def extractStyles (decoder : Decoder) (mapping : List (String × StyleInfo)) :
    List (String × StyleInfo) :=
  (extractLoop (decoder.pending.length + 1) decoder mapping).getD mapping

/-- The search of `extractFromFile` for the entry: the first of the name, or nil. -/
def findFile : List ZipFile → String → Option ZipFile
  | [], _ => none
  | f :: rest, filename => if f.Name = filename then some f else findFile rest filename

/-- Go: `func extractFromFile(reader *zip.Reader, filename string, mapping map[string]StyleInfo) error`;
`newDecoder` is `xml.NewDecoder` on the bytes the reader of the entry
delivers; an error that ends the reading ends the loop like every other error
of `decoder.Token()`. The result is the error, if any, and the mapping
afterwards. -/
def extractFromFile (newDecoder : String → Decoder) (reader : List ZipFile) (filename : String)
    (mapping : List (String × StyleInfo)) : Option FileError × List (String × StyleInfo) :=
  match findFile reader filename with
  | none => (some (.notFound filename), mapping)
  | some file =>
    match file.Open with
    | none => (some (.cannotOpen filename), mapping)
    | some rc => (none, extractStyles (newDecoder rc.data) mapping)

/-- The value of the last attribute with the given local name, `dflt` when there is none. -/
def attrValue (attrs : List Attr) (localName : String) (dflt : String) : String :=
  attrs.foldl (fun acc a => if a.Name.Local = localName then a.Value else acc) dflt

/-- The entry `extractFromFile` makes for a style. -/
def styleInfoOf (style : Style) : StyleInfo :=
  ⟨if style.DisplayName = "" then style.Name else style.DisplayName, style.Family⟩

/-- The tokens of a styles part with two style definitions. -/
def stylesTokens : List Token :=
  [ .StartElement ⟨"urn:oasis:names:tc:opendocument:xmlns:office:1.0", "styles"⟩ [],
    .StartElement ⟨styleNS, "style"⟩
      [⟨⟨styleNS, "name"⟩, "Heading_20_1"⟩, ⟨⟨styleNS, "display-name"⟩, "Heading 1"⟩,
        ⟨⟨styleNS, "family"⟩, "paragraph"⟩],
    .StartElement ⟨styleNS, "paragraph-properties"⟩ [],
    .EndElement ⟨styleNS, "paragraph-properties"⟩,
    .EndElement ⟨styleNS, "style"⟩,
    .StartElement ⟨styleNS, "style"⟩
      [⟨⟨styleNS, "name"⟩, "Emphasis"⟩, ⟨⟨styleNS, "family"⟩, "text"⟩],
    .EndElement ⟨styleNS, "style"⟩,
    .EndElement ⟨"urn:oasis:names:tc:opendocument:xmlns:office:1.0", "styles"⟩ ]

/-! ## The mapping file

`cmd/6_character/charstyles.go`, `LoadStyleMappings`. The file is read with
`encoding/csv`, which is outside the repository. A `CsvReader` holds the
records still to come, as the library splits the lines into fields, and the
field `FieldsPerRecord` of the library: `csv.NewReader` leaves it 0, and with 0
`Read` sets it to the number of fields of the first record and refuses every
later record with another number of fields.
-/

/-- Go: the constants `Bold`, `Italic`, `BoldItalic`, `Superscript`, `Subscript`
of type `FormattingType`, a string. -/
def formattingTypes : List String :=
  ["Bold", "Italic", "Bold Italic", "Superscript", "Subscript"]

/-- Go: `func isValidFormattingType(ft FormattingType) bool`. -/
def isValidFormattingType (ft : String) : Bool :=
  if ft = "Bold" ∨ ft = "Italic" ∨ ft = "Bold Italic" ∨ ft = "Superscript" ∨ ft = "Subscript"
  then true else false

/-- The white space of `strings.TrimSpace`. -/
def isSpaceChar (c : Char) : Bool :=
  c = ' ' || c = '\t' || c = '\n' || c = '\r' || c.val = 0x0B || c.val = 0x0C ||
  c.val = 0x85 || c.val = 0xA0 || c.val = 0x1680 || (0x2000 ≤ c.val && c.val ≤ 0x200A) ||
  c.val = 0x2028 || c.val = 0x2029 || c.val = 0x202F || c.val = 0x205F || c.val = 0x3000

/-- Go: `strings.TrimSpace`. -/
def trimSpace (s : String) : String :=
  ⟨((s.data.dropWhile isSpaceChar).reverse.dropWhile isSpaceChar).reverse⟩

/-- Go: `strings.HasPrefix(s, p)`. -/
def startsWith (s p : String) : Bool :=
  p.data.isPrefixOf s.data

/-- What `reader.Read()` returns besides a record. -/
inductive CsvError where
  | EOF
  | FieldCount
deriving DecidableEq, Repr

/-- Go: `*csv.Reader`: the records not yet read and `FieldsPerRecord`. -/
structure CsvReader where
  records : List (List String)
  FieldsPerRecord : Nat
deriving DecidableEq, Repr

/-- Go: `reader.Read()` of `encoding/csv` with `FieldsPerRecord` not negative:
the next record, `io.EOF` after the last, and `ErrFieldCount` for a record
whose number of fields is not `FieldsPerRecord` once that is set. -/
def CsvReader.Read (r : CsvReader) : (Option (List String) × Option CsvError) × CsvReader :=
  match r.records with
  | [] => ((none, some .EOF), r)
  | record :: rest =>
    if r.FieldsPerRecord > 0 then
      if record.length ≠ r.FieldsPerRecord then
        ((some record, some .FieldCount), ⟨rest, r.FieldsPerRecord⟩)
      else ((some record, none), ⟨rest, r.FieldsPerRecord⟩)
    else ((some record, none), ⟨rest, record.length⟩)

/-- Go: `type ChangeTracker struct { TotalChanges int; StyleCounts map[string]int }`. -/
structure ChangeTracker where
  TotalChanges : Nat
  StyleCounts : List (String × Nat)
deriving DecidableEq, Repr

/-- Go: `type LibreOfficeConverter struct`. -/
structure LibreOfficeConverter where
  formattingMap : List (String × String)
  changeTracker : ChangeTracker
deriving DecidableEq, Repr

/-- Go: `func NewLibreOfficeConverter() *LibreOfficeConverter`. -/
def NewLibreOfficeConverter : LibreOfficeConverter := ⟨[], ⟨0, []⟩⟩

/-- The errors `LoadStyleMappings` returns. -/
inductive LoadError where
  | failedToOpen
  | readingLine (line : Nat)
deriving DecidableEq, Repr

/-- The loop of `LoadStyleMappings` on the reader, the line count and the map;
`fuel` bounds the iterations, `none` means it ran out. -/
def loadLoop : Nat → CsvReader → Nat → List (String × String) →
    Option (Option LoadError × List (String × String))
  | 0, _, _, _ => none
  | fuel + 1, reader, lineCount, formattingMap =>
    match reader.Read with
    | ((_, some .EOF), _) => some (none, formattingMap)
    | ((_, some .FieldCount), _) => some (some (.readingLine (lineCount + 1)), formattingMap)
    | ((none, none), r1) => loadLoop fuel r1 (lineCount + 1) formattingMap
    | ((some record, none), r1) =>
      if record.length > 0 ∧ startsWith (record.getD 0 "") "#" then
        loadLoop fuel r1 (lineCount + 1) formattingMap
      else if record.length < 2 then
        loadLoop fuel r1 (lineCount + 1) formattingMap
      else
        let formattingType := trimSpace (record.getD 0 "")
        let characterStyle := trimSpace (record.getD 1 "")
        if !isValidFormattingType formattingType then
          loadLoop fuel r1 (lineCount + 1) formattingMap
        else loadLoop fuel r1 (lineCount + 1) (mappingSet formattingMap formattingType characterStyle)

/-- Go: `func (loc *LibreOfficeConverter) LoadStyleMappings(filename string) error`;
`file` is what `os.Open` and the CSV reader find at `filename`: nothing, or the
records of the file. The result is the error, if any, and the converter
afterwards. -/
def LibreOfficeConverter.LoadStyleMappings (loc : LibreOfficeConverter)
    (file : Option (List (List String))) : Option LoadError × LibreOfficeConverter :=
  match file with
  | none => (some .failedToOpen, loc)
  | some records =>
    match loadLoop (records.length + 1) ⟨records, 0⟩ 0 loc.formattingMap with
    | none => (none, loc)
    | some (err, formattingMap) => (err, { loc with formattingMap := formattingMap })

/-- The records of the file `Bold,Strong Emphasis` / `Italic` / `Superscript, Raised`:
the second line has one column. -/
def shortLineRecords : List (List String) :=
  [["Bold", "Strong Emphasis"], ["Italic"], ["Superscript", " Raised"]]

/-- The records of the file `# character styles` / `Bold,Strong Emphasis`: a
comment line of one column in front of a well-formed line. -/
def commentFirstRecords : List (List String) :=
  [["# character styles"], ["Bold", "Strong Emphasis"]]

/-- The records of a file whose lines all have two columns. -/
def evenRecords : List (List String) :=
  [["# kind", "style"], ["Bold", "Strong Emphasis"], ["Blink", "None"], [" Italic ", " Emphasis "]]
/-! ## Renaming in a file

`RenameStyleInFile` of the style renamer. `decoder.Decode(&root)` of
`encoding/xml` reads up to the first start tag and calls `root.UnmarshalXML`
with it; `encoder.Encode(&root)` calls `root.MarshalXML` and writes nothing
when that fails. The white space `encoder.Indent` adds is left out.
-/

/-- The tokens up to the first start tag are read over: the start tag and the tokens after it. -/
def skipToStart : List Token → Option (StartElement × List Token)
  | [] => none
  | .StartElement name attr :: rest => some (⟨name, attr⟩, rest)
  | _ :: rest => skipToStart rest

/-- Go: `decoder.Decode(&root)` for a `Node`, with fuel for every pending
token. The library reads up to the first start tag, calls `UnmarshalXML`, and
when that returns no error checks that the element was read to its end tag. -/
def Decoder.Decode (d : Decoder) (root : Node) : Result Node × Decoder :=
  match skipToStart d.pending with
  | none => (.error d.atEnd, ⟨[], d.atEnd⟩)
  | some (start, rest) =>
    match root.UnmarshalXML (rest.length + 1) ⟨rest, d.atEnd⟩ start with
    | some (.ok node, d2) =>
      if skipElement 0 rest = some d2.pending then (.ok node, d2)
      else (.error (.Syntax "UnmarshalXML did not consume entire element"), d2)
    | some (.error err, d2) => (.error err, d2)
    | none => (.error d.atEnd, ⟨[], d.atEnd⟩)

/-- Go: `xml.NewDecoder(file)` on an opened file: the decoder of the tokens of
an XML file; an archive is no XML. -/
def FileData.decoder : FileData → Decoder
  | .xml input inputEnd => NewDecoder input inputEnd
  | .package _ => ⟨[], .Syntax "invalid XML"⟩
  | .incomplete => ⟨[], .Syntax "invalid XML"⟩

/-- The XML declaration `RenameStyleInFile` writes, as the decoder reads it back. -/
def xmlDeclaration : List Token :=
  [.ProcInst "xml" "version=\"1.0\" encoding=\"UTF-8\"", .CharData "\n"]

/-- The errors `RenameStyleInFile` returns. -/
inductive RenameError where
  | failedToOpen
  | failedToParse (err : XmlError)
  | styleNotFound (name : String)
  | failedToCreate
  | failedToEncode (err : XmlError)
deriving DecidableEq, Repr

/-- The files with `data` at `path`. -/
def FileSystem.store (fs : FileSystem) (path : String) (data : FileData) : FileSystem :=
  { fs with files := fun p => if p = path then some data else fs.files p }

/-- Go: `func (sr *StyleRenamer) RenameStyleInFile(inputPath, outputPath string) error`;
the result is the error, if any, and the files afterwards. -/
def StyleRenamer.RenameStyleInFile (sr : StyleRenamer) (fs : FileSystem)
    (inputPath outputPath : String) : Option RenameError × FileSystem :=
  match fs.files inputPath with
  | none => (some .failedToOpen, fs)
  | some file =>
    match file.decoder.Decode Node.zero with
    | (.error err, _) => (some (.failedToParse err), fs)
    | (.ok root, _) =>
      let r := sr.updateStyleReferences root
      if !r.2 then (some (.styleNotFound sr.OldStyleName), fs)
      else if fs.denied outputPath then (some .failedToCreate, fs)
      else
        match r.1.MarshalXML ⟨[], []⟩ with
        | .error err =>
          (some (.failedToEncode err), fs.store outputPath (.xml xmlDeclaration .EOF))
        | .ok e => (none, fs.store outputPath (.xml (xmlDeclaration ++ e.out) .EOF))

/-- Files with the tokens of `footerDoc` at `content.xml` and an earlier file at `content.xml.new`. -/
def footerFiles : FileSystem :=
  ⟨fun p =>
      if p = "content.xml" then some (.xml footerDoc.tokens .EOF)
      else if p = "content.xml.new" then some (.xml [.Comment "earlier"] .EOF)
      else none,
    fun _ => false, 100⟩

/-- A leaf with text and without an element name. -/
def unnamedLeaf : Node := ⟨⟨"", ""⟩, [], "text", []⟩

/-- The element `p` with an attribute that has no local name before its attribute `a`. -/
def namelessAttrNode : Node := ⟨⟨"", "p"⟩, [⟨⟨"", ""⟩, "x"⟩, ⟨⟨"", "a"⟩, "1"⟩], "", []⟩

/-! ## Direct formatting

`cmd/6_character/charstyles.go`: the automatic styles of `content.xml`, the
creation of character styles and the replacement of direct formatting. The
functions of `strings` work on the characters of a string; for the valid UTF-8
the programs read that agrees with their work on bytes.
-/

/-- Go: `type ODTTextProperties struct`, the three attribute fields. -/
structure ODTTextProperties where
  FontWeight : String
  FontStyle : String
  TextPosition : String
deriving DecidableEq, Repr

/-- Go: `type ODTStyle struct`; `TextProps` is a pointer, nil is `none`. -/
structure ODTStyle where
  Name : String
  Family : String
  TextProps : Option ODTTextProperties
deriving DecidableEq, Repr

/-- Go: `type ODTAutomaticStyles struct`, the slice `Styles`. -/
structure ODTAutomaticStyles where
  Styles : List ODTStyle
deriving DecidableEq, Repr

/-- Go: `type ODTParagraph struct`, the style name and the inner XML. -/
structure ODTParagraph where
  StyleName : String
  Content : String
deriving DecidableEq, Repr

/-- The loop of `ensureCharacterStyleExists`: whether a style of the name and
of family `text` is in the slice. -/
def characterStyleExists : List ODTStyle → String → Bool
  | [], _ => false
  | style :: rest, styleName =>
    if style.Name = styleName ∧ style.Family = "text" then true
    else characterStyleExists rest styleName

/-- The `switch` of `ensureCharacterStyleExists` on the empty text properties. -/
def textPropsFor (formattingType : String) : ODTTextProperties :=
  let props : ODTTextProperties := ⟨"", "", ""⟩
  if formattingType = "Bold" then { props with FontWeight := "bold" }
  else if formattingType = "Italic" then { props with FontStyle := "italic" }
  else if formattingType = "Bold Italic" then
    { props with FontWeight := "bold", FontStyle := "italic" }
  else if formattingType = "Superscript" then { props with TextPosition := "super 58%" }
  else if formattingType = "Subscript" then { props with TextPosition := "sub 58%" }
  else props

/-- Go: `func (loc *LibreOfficeConverter) ensureCharacterStyleExists(styles *ODTAutomaticStyles,
styleName string, formattingType FormattingType)`; the result is `styles` afterwards. -/
def LibreOfficeConverter.ensureCharacterStyleExists (_loc : LibreOfficeConverter)
    (styles : ODTAutomaticStyles) (styleName : String) (formattingType : String) :
    ODTAutomaticStyles :=
  if characterStyleExists styles.Styles styleName then styles
  else
    let newStyle : ODTStyle := ⟨styleName, "text", some (textPropsFor formattingType)⟩
    ⟨styles.Styles ++ [newStyle]⟩

/-- Automatic styles with a paragraph style and a character style. -/
def sampleStyles : ODTAutomaticStyles :=
  ⟨[⟨"P1", "paragraph", none⟩, ⟨"Strong", "text", some ⟨"bold", "", ""⟩⟩]⟩

/-- The loop of `strings.ReplaceAll` for a non-empty `old`: at a match `new` is
written and the other characters of the match are skipped. -/
def replaceAllAux (old new : List Char) : Nat → List Char → List Char
  | _, [] => []
  | skip + 1, _ :: rest => replaceAllAux old new skip rest
  | 0, c :: rest =>
    if old.isPrefixOf (c :: rest) then new ++ replaceAllAux old new (old.length - 1) rest
    else c :: replaceAllAux old new 0 rest

/-- Go: `strings.ReplaceAll(s, old, new)`: the matches of `old` from left to
right, without overlap; an empty `old` matches before every character and at
the end. -/
def stringsReplaceAll (s old new : String) : String :=
  if old = "" then ⟨new.data ++ (s.data.map (fun c => c :: new.data)).flatten⟩
  else ⟨replaceAllAux old.data new.data 0 s.data⟩

/-- Whether `sub` occurs in the list of characters. -/
def containsSub : List Char → List Char → Bool
  | [], sub => sub.isEmpty
  | c :: rest, sub => sub.isPrefixOf (c :: rest) || containsSub rest sub

/-- Go: `strings.Contains(s, sub)`. -/
def stringsContains (s sub : String) : Bool :=
  containsSub s.data sub.data

/-- The place of the first occurrence of `sub` in the list of characters. -/
def indexOfSub : List Char → List Char → Option Nat
  | [], sub => if sub.isEmpty then some 0 else none
  | c :: rest, sub =>
    if sub.isPrefixOf (c :: rest) then some 0 else (indexOfSub rest sub).map (· + 1)

/-- Go: `strings.Index(s, sub)`; `-1` is `none`. -/
def stringsIndex (s sub : String) : Option Nat :=
  indexOfSub s.data sub.data

/-- Go: `func replaceStyleName(content, newStyleName string) string`. -/
def replaceStyleName (content newStyleName : String) : String :=
  match stringsIndex content "text:style-name=\"" with
  | none => content
  | some found =>
    let start := found + "text:style-name=\"".length
    match stringsIndex ⟨content.data.drop start⟩ "\"" with
    | none => content
    | some stop =>
      ⟨content.data.take start ++ newStyleName.data ++ content.data.drop (start + stop)⟩

/-- Go: `func (loc *LibreOfficeConverter) replaceDirectFormattingWithStyle(content, styleName string,
formattingType FormattingType) string`. -/
def LibreOfficeConverter.replaceDirectFormattingWithStyle (_loc : LibreOfficeConverter)
    (content styleName formattingType : String) : String :=
  let content :=
    if formattingType = "Bold" then
      stringsReplaceAll (stringsReplaceAll content "fo:font-weight=\"bold\"" "")
        "font-weight=\"bold\"" ""
    else if formattingType = "Italic" then
      stringsReplaceAll (stringsReplaceAll content "fo:font-style=\"italic\"" "")
        "font-style=\"italic\"" ""
    else if formattingType = "Bold Italic" then
      stringsReplaceAll
        (stringsReplaceAll
          (stringsReplaceAll (stringsReplaceAll content "fo:font-weight=\"bold\"" "")
            "font-weight=\"bold\"" "")
          "fo:font-style=\"italic\"" "")
        "font-style=\"italic\"" ""
    else if formattingType = "Superscript" ∨ formattingType = "Subscript" then
      stringsReplaceAll (stringsReplaceAll content "text-position=\"super 58%\"" "")
        "text-position=\"sub 58%\"" ""
    else content
  if stringsContains content "text:style-name=\"" then replaceStyleName content styleName
  else content

/-- Lines 287-304 of `processParagraph`: the formatting type of a content, or
none for the early return. -/
def classifyFormatting (content : String) : Option String :=
  let isBold := stringsContains content "font-weight=\"bold\""
  let isItalic := stringsContains content "font-style=\"italic\""
  let isSuper := stringsContains content "text-position=\"super"
  let isSub := stringsContains content "text-position=\"sub"
  if isBold && isItalic then some "Bold Italic"
  else if isBold then some "Bold"
  else if isItalic then some "Italic"
  else if isSuper then some "Superscript"
  else if isSub then some "Subscript"
  else none

/-- Go: `func (ct *ChangeTracker) AddChange(styleName string)`. -/
def ChangeTracker.AddChange (ct : ChangeTracker) (styleName : String) : ChangeTracker :=
  ⟨ct.TotalChanges + 1,
    mappingSet ct.StyleCounts styleName ((mappingGet ct.StyleCounts styleName).getD 0 + 1)⟩

/-- Go: `func (loc *LibreOfficeConverter) processParagraph(paragraph *ODTParagraph,
styles *ODTAutomaticStyles) error`; the error is always nil, the result is the
converter, the paragraph and the styles afterwards. -/
def LibreOfficeConverter.processParagraph (loc : LibreOfficeConverter)
    (paragraph : ODTParagraph) (styles : ODTAutomaticStyles) :
    LibreOfficeConverter × ODTParagraph × ODTAutomaticStyles :=
  let content := paragraph.Content
  if stringsContains content "font-weight=\"bold\"" ||
      stringsContains content "font-style=\"italic\"" ||
      stringsContains content "text-position" then
    match classifyFormatting content with
    | none => (loc, paragraph, styles)
    | some formattingType =>
      match mappingGet loc.formattingMap formattingType with
      | none => (loc, paragraph, styles)
      | some characterStyle =>
        let styles1 := loc.ensureCharacterStyleExists styles characterStyle formattingType
        let modifiedContent :=
          loc.replaceDirectFormattingWithStyle content characterStyle formattingType
        ({ loc with changeTracker := loc.changeTracker.AddChange characterStyle },
          { paragraph with Content := modifiedContent }, styles1)
  else (loc, paragraph, styles)

/-- A span raised by direct formatting with a size of 33%. -/
def raisedSpan : String :=
  "<text:span text:style-name=\"T1\" style:text-position=\"super 33%\">2</text:span>"

/-- A span lowered by direct formatting, without a size. -/
def loweredSpan : String :=
  "<text:span style:text-position=\"sub\">2</text:span>"

/-- A converter that maps Superscript to `Raised` and Subscript to `Lowered`. -/
def positionConverter : LibreOfficeConverter :=
  ⟨[("Superscript", "Raised"), ("Subscript", "Lowered")], ⟨0, []⟩⟩

/-! ## Text extraction

`extractAllText` of `cmd/read/main.go`.
-/

/-- The loop `for _, char := range content` of `extractAllText` with its flag
`inTag`: the characters written to `result`. -/
def stripTags : List Char → Bool → List Char
  | [], _ => []
  | char :: rest, inTag =>
    if char = '<' then stripTags rest true
    else if char = '>' then stripTags rest false
    else if !inTag then char :: stripTags rest inTag
    else stripTags rest inTag

/-- The loop `for strings.Contains(text, "  ") { text = strings.ReplaceAll(text, "  ", " ") }`;
`fuel` bounds the iterations, `none` means it ran out. -/
def collapseSpaces : Nat → String → Option String
  | 0, _ => none
  | fuel + 1, text =>
    if stringsContains text "  " then collapseSpaces fuel (stringsReplaceAll text "  " " ")
    else some text

/-- The text `extractAllText` has before the loop on double spaces: tags
removed, newlines and tabs replaced by spaces. -/
def spacedText (content : String) : String :=
  stringsReplaceAll (stringsReplaceAll ⟨stripTags content.data false⟩ "\n" " ") "\t" " "

/-- Lines 403-433 of `extractAllText`, the clean-up of the content; the loop
gets fuel for every character, which is enough. -/
def cleanText (content : String) : String :=
  let text := spacedText content
  trimSpace ((collapseSpaces (text.length + 1) text).getD text)

/-- The errors `extractAllText` returns. -/
inductive TextError where
  | openingDocument
  | extractingContent (cause : FileError)
deriving DecidableEq, Repr

/-- Go: `func extractAllText(filename string) (string, error)`; `archive` is what
`zip.OpenReader(filename)` gives: nothing, or the entries. -/
def extractAllText (archive : Option (List ZipFile)) : Option TextError × String :=
  match archive with
  | none => (some .openingDocument, "")
  | some reader =>
    match extractFileFromZip reader "content.xml" with
    | .error err => (some (.extractingContent err), "")
    | .ok contentXML => (none, cleanText contentXML)

/-- A content with tags, a newline, a tab and runs of spaces. -/
def sampleContent : String :=
  "<office:text>\n\t<text:p>  Hello   <text:span>big</text:span>\tworld </text:p>\n</office:text>"

/-! ## The style mapping of a document

`extractStyleMapping` of `cmd/styles/main.go`: `styles.xml` is scanned first,
`content.xml` after it, into one mapping.
-/

/-- The result of `extractStyleMapping`: the mapping, or an error. -/
inductive StyleMappingResult where
  | ok (mapping : List (String × StyleInfo))
  | failedToOpen
  | noStylesFound
deriving DecidableEq, Repr

/-- Go: `func extractStyleMapping(odfFile string) (map[string]StyleInfo, error)`;
`archive` is what `zip.OpenReader(odfFile)` gives: nothing, or the entries. An
error of `extractFromFile` is printed as a warning and not returned. -/
def extractStyleMapping (newDecoder : String → Decoder) (archive : Option (List ZipFile)) :
    StyleMappingResult :=
  match archive with
  | none => .failedToOpen
  | some reader =>
    let mapping : List (String × StyleInfo) := []
    let afterStyles := (extractFromFile newDecoder reader "styles.xml" mapping).2
    let afterContent := (extractFromFile newDecoder reader "content.xml" afterStyles).2
    if afterContent.length = 0 then .noStylesFound else .ok afterContent

/-- The token sequences the loop of `extractFromFile` passes through token by
token or element by element: tokens that start no namespaced `style` element,
and namespaced `style` elements with a well-formed body. -/
inductive ScannedPrefix : List Token → Prop where
  | nil : ScannedPrefix []
  | other (tok : Token) {front : List Token} :
      (∀ (n : Name) (a : List Attr), tok = .StartElement n a →
        ¬ (n.Local = "style" ∧ n.Space ≠ "")) →
      ScannedPrefix front → ScannedPrefix (tok :: front)
  | style (space : String) (attrs : List Attr) (endName : Name) {body front : List Token} :
      space ≠ "" → Balanced body → ScannedPrefix front →
      ScannedPrefix (.StartElement ⟨space, "style"⟩ attrs :: (body ++ .EndElement endName :: front))

/-- The decoder of the example package: `styles.xml` defines `Emphasis` as a
paragraph style, `content.xml` defines `Emphasis` as a text style. -/
def emphasisDecoder (data : String) : Decoder :=
  if data = "styles" then
    ⟨[ .StartElement ⟨"urn:oasis:names:tc:opendocument:xmlns:office:1.0", "styles"⟩ [],
        .StartElement ⟨styleNS, "style"⟩
          [⟨⟨styleNS, "name"⟩, "Emphasis"⟩, ⟨⟨styleNS, "display-name"⟩, "Emphasis Para"⟩,
            ⟨⟨styleNS, "family"⟩, "paragraph"⟩],
        .EndElement ⟨styleNS, "style"⟩,
        .EndElement ⟨"urn:oasis:names:tc:opendocument:xmlns:office:1.0", "styles"⟩ ], .EOF⟩
  else
    ⟨[ .StartElement ⟨"urn:oasis:names:tc:opendocument:xmlns:office:1.0", "automatic-styles"⟩ [],
        .StartElement ⟨styleNS, "style"⟩
          [⟨⟨styleNS, "name"⟩, "Emphasis"⟩, ⟨⟨styleNS, "family"⟩, "text"⟩],
        .EndElement ⟨styleNS, "style"⟩,
        .EndElement
          ⟨"urn:oasis:names:tc:opendocument:xmlns:office:1.0", "automatic-styles"⟩ ], .EOF⟩

/-- The entries of the example package. -/
def emphasisPackage : List ZipFile :=
  [ ⟨"mimetype", some ⟨"text", false⟩⟩, ⟨"styles.xml", some ⟨"styles", false⟩⟩,
    ⟨"content.xml", some ⟨"content", false⟩⟩ ]

/-! ## Lemmas on the rewrite -/

theorem Node.induct {P : Node → Prop}
    (step : ∀ n : Node, (∀ c ∈ n.Children, P c) → P n) : ∀ n, P n := by
  intro n
  refine Node.rec (motive_1 := P) (motive_2 := fun l => ∀ c ∈ l, P c) ?_ ?_ ?_ n
  · intro name attrs content children ih
    exact step ⟨name, attrs, content, children⟩ ih
  · intro c hc
    cases hc
  · intro head tail ih1 ih2 c hc
    rcases List.mem_cons.mp hc with h | h
    · exact h ▸ ih1
    · exact ih2 c h

theorem updateAttr_fst (sr : StyleRenamer) (a : Attr) (m : Bool) :
    (sr.updateAttr a m).1 = sr.renameAttr a := by
  unfold StyleRenamer.updateAttr StyleRenamer.renameAttr StyleRenamer.isRef
  by_cases h : (sr.isStyleAttribute a.Name.Local && a.Value == sr.OldStyleName) = true
  · simp [h]
  · simp [h]

theorem updateAttr_snd (sr : StyleRenamer) (a : Attr) (m : Bool) :
    (sr.updateAttr a m).2 = (m || sr.isRef a) := by
  unfold StyleRenamer.updateAttr StyleRenamer.isRef
  by_cases h : (sr.isStyleAttribute a.Name.Local && a.Value == sr.OldStyleName) = true
  · simp [h]
  · simp [h]

theorem updateAttrs_fst (sr : StyleRenamer) (l : List Attr) (m : Bool) :
    (sr.updateAttrs l m).1 = l.map sr.renameAttr := by
  induction l generalizing m with
  | nil => rfl
  | cons a rest ih => simp [StyleRenamer.updateAttrs, ih, updateAttr_fst]

theorem updateAttrs_snd (sr : StyleRenamer) (l : List Attr) (m : Bool) :
    (sr.updateAttrs l m).2 = (m || l.any sr.isRef) := by
  induction l generalizing m with
  | nil => simp [StyleRenamer.updateAttrs]
  | cons a rest ih => simp [StyleRenamer.updateAttrs, ih, updateAttr_snd, Bool.or_assoc]

theorem updateChildren_fst (sr : StyleRenamer) (l : List Node) (m : Bool) :
    (sr.updateChildren l m).1 = l.map (fun c => (sr.updateStyleReferences c).1) := by
  induction l generalizing m with
  | nil => simp [StyleRenamer.updateChildren]
  | cons c rest ih => simp [StyleRenamer.updateChildren, ih]

theorem updateChildren_snd (sr : StyleRenamer) (l : List Node) (m : Bool) :
    (sr.updateChildren l m).2 = (m || l.any (fun c => (sr.updateStyleReferences c).2)) := by
  induction l generalizing m with
  | nil => simp [StyleRenamer.updateChildren]
  | cons c rest ih =>
    simp only [StyleRenamer.updateChildren, ih, List.any_cons]
    cases (sr.updateStyleReferences c).2 <;> cases m <;> simp

theorem update_fst (sr : StyleRenamer) (n : Node) :
    (sr.updateStyleReferences n).1 =
      ⟨n.XMLName, n.Attrs.map sr.renameAttr, n.Content,
        n.Children.map (fun c => (sr.updateStyleReferences c).1)⟩ := by
  cases n
  simp [StyleRenamer.updateStyleReferences, updateAttrs_fst, updateChildren_fst]

theorem update_snd (sr : StyleRenamer) (n : Node) :
    (sr.updateStyleReferences n).2 =
      (n.Attrs.any sr.isRef || n.Children.any (fun c => (sr.updateStyleReferences c).2)) := by
  cases n
  simp [StyleRenamer.updateStyleReferences, updateAttrs_snd, updateChildren_snd]

theorem nodeAt_update (sr : StyleRenamer) (p : List Nat) (t : Node) :
    nodeAt (sr.updateStyleReferences t).1 p =
      (nodeAt t p).map (fun n => (sr.updateStyleReferences n).1) := by
  induction p generalizing t with
  | nil => simp [nodeAt]
  | cons i p ih =>
    rw [update_fst]
    simp only [nodeAt, List.getElem?_map]
    cases h : t.Children[i]? with
    | none => simp
    | some c => simp [ih]

theorem renameAttr_of_not_isRef (sr : StyleRenamer) (a : Attr) (h : sr.isRef a = false) :
    sr.renameAttr a = a := by
  simp [StyleRenamer.renameAttr, h]

theorem renameAttr_name (sr : StyleRenamer) (a : Attr) : (sr.renameAttr a).Name = a.Name := by
  unfold StyleRenamer.renameAttr
  split <;> rfl

theorem isStyleAttribute_iff (sr : StyleRenamer) (s : String) :
    sr.isStyleAttribute s = true ↔
      s = "style-name" ∨ s = "parent-style-name" ∨ s = "next-style-name" ∨
      s = "master-page-name" ∨ s = "page-layout-name" ∨ s = "name" := by
  simp [StyleRenamer.isStyleAttribute, styleAttributes, isStyleAttributeLoop]

theorem isRef_iff (sr : StyleRenamer) (a : Attr) :
    sr.isRef a = true ↔ sr.isStyleAttribute a.Name.Local = true ∧ a.Value = sr.OldStyleName := by
  simp [StyleRenamer.isRef]

/-- The flag is true exactly when some node of the tree carries a matching attribute. -/
theorem update_snd_iff (sr : StyleRenamer) (t : Node) :
    (sr.updateStyleReferences t).2 = true ↔
      ∃ p n a, nodeAt t p = some n ∧ a ∈ n.Attrs ∧ sr.isRef a = true := by
  constructor
  · induction t using Node.induct with
    | step t ih =>
      intro h
      rw [update_snd, Bool.or_eq_true, List.any_eq_true, List.any_eq_true] at h
      rcases h with ⟨a, ha, hr⟩ | ⟨c, hc, hr⟩
      · exact ⟨[], t, a, rfl, ha, hr⟩
      · obtain ⟨p, n, a, hp, ha, hr2⟩ := ih c hc hr
        obtain ⟨i, hi, hget⟩ := List.getElem_of_mem hc
        refine ⟨i :: p, n, a, ?_, ha, hr2⟩
        simp [nodeAt, List.getElem?_eq_getElem hi, hget, hp]
  · rintro ⟨p, n, a, hp, ha, hr⟩
    induction p generalizing t with
    | nil =>
      simp only [nodeAt, Option.some.injEq] at hp
      subst hp
      rw [update_snd, Bool.or_eq_true, List.any_eq_true]
      exact Or.inl ⟨a, ha, hr⟩
    | cons i p ih =>
      simp only [nodeAt] at hp
      cases hc : t.Children[i]? with
      | none => simp [hc] at hp
      | some c =>
        simp only [hc] at hp
        rw [update_snd, Bool.or_eq_true, List.any_eq_true, List.any_eq_true]
        exact Or.inr ⟨c, List.getElem?_mem hc, ih c hp⟩

/-- When the flag is false the tree is returned as it was. -/
theorem update_fst_of_snd_false (sr : StyleRenamer) (t : Node)
    (h : (sr.updateStyleReferences t).2 = false) : (sr.updateStyleReferences t).1 = t := by
  induction t using Node.induct with
  | step t ih =>
    rw [update_snd, Bool.or_eq_false_iff] at h
    obtain ⟨h1, h2⟩ := h
    rw [update_fst]
    have ha : t.Attrs.map sr.renameAttr = t.Attrs := by
      conv_rhs => rw [← List.map_id t.Attrs]
      apply List.map_congr_left
      intro a ha
      have := List.any_eq_false.mp h1 a ha
      simp [renameAttr_of_not_isRef sr a (by simpa using this)]
    have hc : t.Children.map (fun c => (sr.updateStyleReferences c).1) = t.Children := by
      conv_rhs => rw [← List.map_id t.Children]
      apply List.map_congr_left
      intro c hc
      have := List.any_eq_false.mp h2 c hc
      simp [ih c hc (by simpa using this)]
    rw [ha, hc]
    cases t
    rfl

/-- The node at a path after the rewrite, and each of its attributes. -/
theorem attr_after_update (sr : StyleRenamer) (t : Node) (p : List Nat) (n : Node)
    (h : nodeAt t p = some n) :
    nodeAt (sr.updateStyleReferences t).1 p = some (sr.updateStyleReferences n).1 ∧
      (sr.updateStyleReferences n).1.XMLName = n.XMLName ∧
      (sr.updateStyleReferences n).1.Content = n.Content ∧
      (sr.updateStyleReferences n).1.Attrs = n.Attrs.map sr.renameAttr ∧
      (sr.updateStyleReferences n).1.Children.length = n.Children.length := by
  refine ⟨by rw [nodeAt_update, h]; rfl, ?_, ?_, ?_, ?_⟩ <;> rw [update_fst]
  simp

theorem mapAttrSpaceList_eq (g : String → String) (l : List Node) :
    Node.mapAttrSpaceList g l = l.map (Node.mapAttrSpace g) := by
  induction l with
  | nil => simp [Node.mapAttrSpaceList]
  | cons c rest ih => simp [Node.mapAttrSpaceList, ih]

theorem isRef_withSpace (sr : StyleRenamer) (g : String → String) (a : Attr) :
    sr.isRef (a.withSpace g) = sr.isRef a := rfl

theorem renameAttr_withSpace (sr : StyleRenamer) (g : String → String) (a : Attr) :
    sr.renameAttr (a.withSpace g) = (sr.renameAttr a).withSpace g := by
  unfold StyleRenamer.renameAttr
  rw [isRef_withSpace]
  split <;> rfl

theorem update_mapAttrSpace (sr : StyleRenamer) (g : String → String) (t : Node) :
    sr.updateStyleReferences (t.mapAttrSpace g) =
      ((sr.updateStyleReferences t).1.mapAttrSpace g, (sr.updateStyleReferences t).2) := by
  induction t using Node.induct with
  | step t ih =>
    obtain ⟨name, attrs, content, children⟩ := t
    simp only at ih
    apply Prod.ext
    · rw [update_fst, update_fst]
      simp only [Node.mapAttrSpace, mapAttrSpaceList_eq, List.map_map, Node.mk.injEq, true_and]
      refine ⟨?_, ?_⟩
      · apply List.map_congr_left
        intro a _
        exact renameAttr_withSpace sr g a
      · apply List.map_congr_left
        intro c hc
        simp [ih c hc]
    · rw [update_snd, update_snd]
      simp only [Node.mapAttrSpace, mapAttrSpaceList_eq, List.any_map]
      congr 1
      rw [List.any_eq, List.any_eq]
      apply decide_eq_decide.mpr
      constructor
      · rintro ⟨c, hc, h⟩
        exact ⟨c, hc, by simpa [ih c hc] using h⟩
      · rintro ⟨c, hc, h⟩
        exact ⟨c, hc, by simpa [ih c hc] using h⟩

/-! ## The claims on the rewrite engine -/

/-- C1: after `updateStyleReferences`, at every node of the tree (any depth,
any element) every attribute whose local name is one of the six catalogued
names and whose value was the old name holds the new name, and every other
attribute keeps its value; names, positions and the number of attributes are
as before, so all matching occurrences change and nothing else does. -/
theorem updateStyleReferences_renames_every_reference (sr : StyleRenamer) (t : Node)
    (p : List Nat) (n : Node) (h : nodeAt t p = some n) :
    ∃ n1, nodeAt (sr.updateStyleReferences t).1 p = some n1 ∧
      n1.Attrs.length = n.Attrs.length ∧
      ∀ (i : Nat) (a : Attr), n.Attrs[i]? = some a →
        ∃ a1 : Attr, n1.Attrs[i]? = some a1 ∧ a1.Name = a.Name ∧
          ((a.Name.Local ∈ ["style-name", "parent-style-name", "next-style-name",
                "master-page-name", "page-layout-name", "name"] ∧
              a.Value = sr.OldStyleName → a1.Value = sr.NewStyleName) ∧
           (¬ (a.Name.Local ∈ ["style-name", "parent-style-name", "next-style-name",
                "master-page-name", "page-layout-name", "name"] ∧
              a.Value = sr.OldStyleName) → a1.Value = a.Value)) := by
  obtain ⟨h1, _, _, h4, _⟩ := attr_after_update sr t p n h
  refine ⟨_, h1, by rw [h4, List.length_map], ?_⟩
  intro i a ha
  refine ⟨sr.renameAttr a, by rw [h4, List.getElem?_map, ha]; rfl, renameAttr_name sr a, ?_, ?_⟩
  · intro hm
    have : sr.isRef a = true := by
      rw [isRef_iff, isStyleAttribute_iff]
      simpa using hm
    simp [StyleRenamer.renameAttr, this]
  · intro hm
    have : sr.isRef a = false := by
      rw [← Bool.not_eq_true, isRef_iff, isStyleAttribute_iff]
      simpa using hm
    simp [StyleRenamer.renameAttr, this]

/-- C1, on `headerDoc`: the cell below the table row is a third occurrence of
`Header 1`; it is renamed and its `value-type` attribute is not. -/
theorem updateStyleReferences_renames_every_reference_witness :
    nodeAt headerDoc [2, 0, 0] = some headerCell ∧
    ∃ n1, nodeAt (headerRenamer.updateStyleReferences headerDoc).1 [2, 0, 0] = some n1 ∧
      n1.Attrs.length = headerCell.Attrs.length ∧
      ∀ (i : Nat) (a : Attr), headerCell.Attrs[i]? = some a →
        ∃ a1 : Attr, n1.Attrs[i]? = some a1 ∧ a1.Name = a.Name ∧
          ((a.Name.Local ∈ ["style-name", "parent-style-name", "next-style-name",
                "master-page-name", "page-layout-name", "name"] ∧
              a.Value = headerRenamer.OldStyleName → a1.Value = headerRenamer.NewStyleName) ∧
           (¬ (a.Name.Local ∈ ["style-name", "parent-style-name", "next-style-name",
                "master-page-name", "page-layout-name", "name"] ∧
              a.Value = headerRenamer.OldStyleName) → a1.Value = a.Value)) :=
  ⟨by decide,
    updateStyleReferences_renames_every_reference headerRenamer headerDoc [2, 0, 0] headerCell
      (by decide)⟩

/-- C2: `updateStyleReferences` returns true exactly when some node of the
tree, the root or a descendant at any depth, has an attribute whose local name
`isStyleAttribute` accepts and whose value is `OldStyleName`. -/
theorem updateStyleReferences_true_iff_match (sr : StyleRenamer) (t : Node) :
    (sr.updateStyleReferences t).2 = true ↔
      ∃ p n a, nodeAt t p = some n ∧ a ∈ n.Attrs ∧
        sr.isStyleAttribute a.Name.Local = true ∧ a.Value = sr.OldStyleName := by
  rw [update_snd_iff]
  simp only [isRef_iff]

/-- C3, as stated, fails: renaming `Old` to `Old` in `oldStyles` returns true
although the tree after the call equals the tree before it. -/
theorem updateStyleReferences_flag_not_iff_changed :
    ¬ (((⟨"Old", "Old"⟩ : StyleRenamer).updateStyleReferences oldStyles).2 = true ↔
        ((⟨"Old", "Old"⟩ : StyleRenamer).updateStyleReferences oldStyles).1 ≠ oldStyles) := by
  decide

/-- C3, amended: when the new name differs from the old name, the flag
returned by `updateStyleReferences` is true if and only if the tree after the
call differs from the tree before it. -/
theorem updateStyleReferences_flag_iff_changed (sr : StyleRenamer) (t : Node)
    (hne : sr.NewStyleName ≠ sr.OldStyleName) :
    (sr.updateStyleReferences t).2 = true ↔ (sr.updateStyleReferences t).1 ≠ t := by
  constructor
  · intro hb heq
    obtain ⟨p, n, a, hp, ha, hr⟩ := (update_snd_iff sr t).mp hb
    obtain ⟨h1, _, _, h4, _⟩ := attr_after_update sr t p n hp
    rw [heq, hp, Option.some.injEq] at h1
    rw [← h1] at h4
    have hfix : sr.renameAttr a = a := by
      obtain ⟨i, hi⟩ := List.mem_iff_getElem?.mp ha
      have h5 := congrArg (fun l : List Attr => l[i]?) h4
      simp only [List.getElem?_map, hi, Option.map_some'] at h5
      exact (Option.some.inj h5).symm
    have hv : (sr.renameAttr a).Value = sr.NewStyleName := by
      simp [StyleRenamer.renameAttr, hr]
    rw [hfix] at hv
    exact hne (hv.symm.trans ((isRef_iff sr a).mp hr).2)
  · intro hd
    by_contra hb
    exact hd (update_fst_of_snd_false sr t (by simpa using hb))

/-- C3, amended, on `headerDoc` with the rename of `Header 1` to `headA`. -/
theorem updateStyleReferences_flag_iff_changed_witness :
    headerRenamer.NewStyleName ≠ headerRenamer.OldStyleName ∧
    ((headerRenamer.updateStyleReferences headerDoc).2 = true ↔
      (headerRenamer.updateStyleReferences headerDoc).1 ≠ headerDoc) :=
  ⟨by decide, updateStyleReferences_flag_iff_changed headerRenamer headerDoc (by decide)⟩

/-- C4: if no attribute of any node of the tree is a style attribute holding
`OldStyleName`, then `updateStyleReferences` returns false and leaves the tree
equal to what it was. -/
theorem updateStyleReferences_absent_style (sr : StyleRenamer) (t : Node)
    (h : ∀ (p : List Nat) (n : Node) (a : Attr), nodeAt t p = some n → a ∈ n.Attrs →
      sr.isStyleAttribute a.Name.Local = true → a.Value ≠ sr.OldStyleName) :
    sr.updateStyleReferences t = (t, false) := by
  have hb : (sr.updateStyleReferences t).2 = false := by
    rw [← Bool.not_eq_true, update_snd_iff]
    rintro ⟨p, n, a, hp, ha, hr⟩
    exact h p n a hp ha ((isRef_iff sr a).mp hr).1 ((isRef_iff sr a).mp hr).2
  exact Prod.ext (update_fst_of_snd_false sr t hb) hb

/-- C4, on `headerDoc`, which has no style named `Footer`. -/
theorem updateStyleReferences_absent_style_witness :
    (⟨"Footer", "Foot"⟩ : StyleRenamer).updateStyleReferences headerDoc = (headerDoc, false) :=
  updateStyleReferences_absent_style ⟨"Footer", "Foot"⟩ headerDoc (by
    intro p n a hp ha hs hv
    have hf : ((⟨"Footer", "Foot"⟩ : StyleRenamer).updateStyleReferences headerDoc).2 = false := by
      decide
    rw [← Bool.not_eq_true, update_snd_iff] at hf
    exact hf ⟨p, n, a, hp, ha, (isRef_iff _ a).mpr ⟨hs, hv⟩⟩)

/-- C5: an attribute whose local name is `display-name` has the same value
after `updateStyleReferences` as before, at every node of the tree and
whatever its value. -/
theorem updateStyleReferences_keeps_display_name (sr : StyleRenamer) (t : Node)
    (p : List Nat) (n : Node) (i : Nat) (a : Attr)
    (h : nodeAt t p = some n) (ha : n.Attrs[i]? = some a)
    (hd : a.Name.Local = "display-name") :
    ∃ n1, nodeAt (sr.updateStyleReferences t).1 p = some n1 ∧ n1.Attrs[i]? = some a := by
  obtain ⟨h1, _, _, h4, _⟩ := attr_after_update sr t p n h
  refine ⟨_, h1, ?_⟩
  have hr : sr.isRef a = false := by
    rw [← Bool.not_eq_true, isRef_iff, isStyleAttribute_iff, hd]
    rintro ⟨hl, _⟩
    revert hl
    decide
  rw [h4, List.getElem?_map, ha, Option.map_some', renameAttr_of_not_isRef sr a hr]

/-- C5, on `oldStyles` with the rename of `Old` to `New`: the `display-name`
attribute keeps the value `Old` while the `name` attribute of the same element
becomes `New`. -/
theorem updateStyleReferences_keeps_display_name_witness :
    (nodeAt ((⟨"Old", "New"⟩ : StyleRenamer).updateStyleReferences oldStyles).1 [0]).map
        (fun n => n.Attrs[0]?) = some (some ⟨⟨styleNS, "name"⟩, "New"⟩) ∧
    ∃ n1, nodeAt ((⟨"Old", "New"⟩ : StyleRenamer).updateStyleReferences oldStyles).1 [0] = some n1 ∧
      n1.Attrs[1]? = some ⟨⟨styleNS, "display-name"⟩, "Old"⟩ :=
  ⟨by decide,
    updateStyleReferences_keeps_display_name ⟨"Old", "New"⟩ oldStyles [0] oldStyleDef 1
      ⟨⟨styleNS, "display-name"⟩, "Old"⟩ (by decide) (by decide) (by decide)⟩

/-- C6, as stated, fails: in `footerDoc` the rename of `Footer` to `Foot`
also rewrites the list-style reference on `text:list`, which does not keep
the value `Footer`. -/
theorem updateStyleReferences_no_family_isolation :
    (nodeAt ((⟨"Footer", "Foot"⟩ : StyleRenamer).updateStyleReferences footerDoc).1 [1]).map
        Node.Attrs = some [⟨⟨textNS, "style-name"⟩, "Foot"⟩] ∧
    (nodeAt ((⟨"Footer", "Foot"⟩ : StyleRenamer).updateStyleReferences footerDoc).1 [1]).map
        Node.Attrs ≠ (nodeAt footerDoc [1]).map Node.Attrs := by
  decide

/-- C6, amended: a rename has no family; every `style-name` attribute that
holds the old name is rewritten to the new name, on whatever element it sits,
paragraph-family and list-family references alike. -/
theorem updateStyleReferences_ignores_family (sr : StyleRenamer) (t : Node)
    (p : List Nat) (n : Node) (i : Nat) (a : Attr)
    (h : nodeAt t p = some n) (ha : n.Attrs[i]? = some a)
    (hl : a.Name.Local = "style-name") (hv : a.Value = sr.OldStyleName) :
    ∃ n1, nodeAt (sr.updateStyleReferences t).1 p = some n1 ∧ n1.XMLName = n.XMLName ∧
      n1.Attrs[i]? = some ⟨a.Name, sr.NewStyleName⟩ := by
  obtain ⟨h1, h2, _, h4, _⟩ := attr_after_update sr t p n h
  refine ⟨_, h1, h2, ?_⟩
  have hr : sr.isRef a = true := by
    rw [isRef_iff, isStyleAttribute_iff, hl]
    exact ⟨Or.inl rfl, hv⟩
  rw [h4, List.getElem?_map, ha, Option.map_some']
  simp [StyleRenamer.renameAttr, hr]

/-- C6, amended, on `footerDoc`: the reference on the `text:list` element. -/
theorem updateStyleReferences_ignores_family_witness :
    ∃ n1, nodeAt ((⟨"Footer", "Foot"⟩ : StyleRenamer).updateStyleReferences footerDoc).1 [1] = some n1 ∧
      n1.XMLName = ⟨textNS, "list"⟩ ∧
      n1.Attrs[0]? = some ⟨⟨textNS, "style-name"⟩, "Foot"⟩ :=
  updateStyleReferences_ignores_family ⟨"Footer", "Foot"⟩ footerDoc [1]
    ⟨⟨textNS, "list"⟩, [⟨⟨textNS, "style-name"⟩, "Footer"⟩], "", []⟩ 0
    ⟨⟨textNS, "style-name"⟩, "Footer"⟩ (by decide) (by decide) (by decide) (by decide)

/-- C7, as stated, fails: the `table:name` attribute of `namedTable`, in the
table namespace, is rewritten from `Old` to `New`. -/
theorem updateStyleReferences_rewrites_table_name :
    (⟨"Old", "New"⟩ : StyleRenamer).updateStyleReferences namedTable =
        (⟨⟨tableNS, "table"⟩, [⟨⟨tableNS, "name"⟩, "New"⟩], "", []⟩, true) ∧
    ((⟨"Old", "New"⟩ : StyleRenamer).updateStyleReferences namedTable).1 ≠ namedTable := by
  decide

/-- C7, amended: the rewrite decides from the local name alone. Replacing the
namespace of every attribute of a tree in any way commutes with
`updateStyleReferences` and gives the same flag, and one attribute whose local
name is in the catalogue and whose value is the old name is rewritten to the
new name whatever its namespace is. -/
theorem updateStyleReferences_ignores_namespace (sr : StyleRenamer) (g : String → String)
    (t : Node) (space : String) (m : Bool) :
    sr.updateStyleReferences (t.mapAttrSpace g) =
        ((sr.updateStyleReferences t).1.mapAttrSpace g, (sr.updateStyleReferences t).2) ∧
    ∀ name ∈ styleAttributes,
      sr.updateAttr ⟨⟨space, name⟩, sr.OldStyleName⟩ m = (⟨⟨space, name⟩, sr.NewStyleName⟩, true) := by
  refine ⟨update_mapAttrSpace sr g t, ?_⟩
  intro name hn
  have hs : sr.isStyleAttribute name = true := by
    rw [isStyleAttribute_iff]
    simpa [styleAttributes] using hn
  simp [StyleRenamer.updateAttr, hs]

/-- C7, amended, on `namedTable` with every attribute namespace erased. -/
theorem updateStyleReferences_ignores_namespace_witness :
    (⟨"Old", "New"⟩ : StyleRenamer).updateStyleReferences (namedTable.mapAttrSpace (fun _ => "")) =
        (((⟨"Old", "New"⟩ : StyleRenamer).updateStyleReferences namedTable).1.mapAttrSpace (fun _ => ""),
          ((⟨"Old", "New"⟩ : StyleRenamer).updateStyleReferences namedTable).2) ∧
    ∀ name ∈ styleAttributes,
      (⟨"Old", "New"⟩ : StyleRenamer).updateAttr ⟨⟨tableNS, name⟩, "Old"⟩ false =
        (⟨⟨tableNS, name⟩, "New"⟩, true) :=
  updateStyleReferences_ignores_namespace ⟨"Old", "New"⟩ (fun _ => "") namedTable tableNS false

/-- C8: `updateStyleReferences` keeps the shape of the tree. The paths that
lead to a node are the same before and after, and the node at a path has the
same tag, the same attribute names in the same order, the same `Content` and
the same number of children as the node at that path before the call. -/
theorem updateStyleReferences_preserves_shape (sr : StyleRenamer) (t : Node) :
    (∀ p, (nodeAt (sr.updateStyleReferences t).1 p).isSome = (nodeAt t p).isSome) ∧
    ∀ p n, nodeAt t p = some n →
      ∃ n1, nodeAt (sr.updateStyleReferences t).1 p = some n1 ∧
        n1.XMLName = n.XMLName ∧
        n1.Attrs.map Attr.Name = n.Attrs.map Attr.Name ∧
        n1.Content = n.Content ∧
        n1.Children.length = n.Children.length := by
  refine ⟨?_, ?_⟩
  · intro p
    rw [nodeAt_update]
    cases nodeAt t p <;> rfl
  · intro p n h
    obtain ⟨h1, h2, h3, h4, h5⟩ := attr_after_update sr t p n h
    refine ⟨_, h1, h2, ?_, h3, h5⟩
    rw [h4, List.map_map]
    apply List.map_congr_left
    intro a _
    exact renameAttr_name sr a

/-- C8, on `headerDoc` and its table cell. -/
theorem updateStyleReferences_preserves_shape_witness :
    nodeAt headerDoc [2, 0, 0] = some headerCell ∧
    ∃ n1, nodeAt (headerRenamer.updateStyleReferences headerDoc).1 [2, 0, 0] = some n1 ∧
      n1.XMLName = headerCell.XMLName ∧
      n1.Attrs.map Attr.Name = headerCell.Attrs.map Attr.Name ∧
      n1.Content = headerCell.Content ∧
      n1.Children.length = headerCell.Children.length :=
  ⟨by decide,
    (updateStyleReferences_preserves_shape headerRenamer headerDoc).2 [2, 0, 0] headerCell
      (by decide)⟩

/-- C9: `isStyleAttribute` is true exactly for the six names `style-name`,
`parent-style-name`, `next-style-name`, `master-page-name`, `page-layout-name`
and `name`, compared exactly (a name in another case is refused), and its
answer is the same for every renamer. -/
theorem isStyleAttribute_exactly_six (sr : StyleRenamer) (s : String) :
    (sr.isStyleAttribute s = true ↔
      s = "style-name" ∨ s = "parent-style-name" ∨ s = "next-style-name" ∨
      s = "master-page-name" ∨ s = "page-layout-name" ∨ s = "name") ∧
    sr.isStyleAttribute "Style-Name" = false ∧
    sr.isStyleAttribute "NAME" = false ∧
    ∀ sr2 : StyleRenamer, sr2.isStyleAttribute s = sr.isStyleAttribute s :=
  ⟨isStyleAttribute_iff sr s,
    by rw [← Bool.not_eq_true, isStyleAttribute_iff]; decide,
    by rw [← Bool.not_eq_true, isStyleAttribute_iff]; decide,
    fun _ => rfl⟩

/-! ## Lemmas on parsing and serializing -/

theorem Node.induct2 {P : Node → Prop} {Q : List Node → Prop}
    (node : ∀ name attrs content children, Q children → P ⟨name, attrs, content, children⟩)
    (nil : Q []) (cons : ∀ c rest, P c → Q rest → Q (c :: rest)) :
    (∀ n, P n) ∧ (∀ l, Q l) := by
  have hP : ∀ n, P n := fun n =>
    Node.rec (motive_1 := P) (motive_2 := Q) node nil cons n
  refine ⟨hP, ?_⟩
  intro l
  induction l with
  | nil => exact nil
  | cons c rest ih => exact cons c rest (hP c) ih

theorem string_eq_empty_of_length (s : String) (h : ¬ s.length > 0) : s = "" := by
  have h0 : s.length = 0 := by omega
  cases s with
  | mk data =>
    have : data = [] := List.length_eq_zero.mp h0
    subst this
    rfl

theorem unmarshalLoop_end (f : Nat) (n : Node) (c : String) (nm : Name) (rest : List Token)
    (ae : XmlError) :
    unmarshalLoop (f + 1) n c ⟨.EndElement nm :: rest, ae⟩ =
      some (.ok ⟨n.XMLName, n.Attrs, c, n.Children⟩, ⟨rest, ae⟩) := by
  simp [unmarshalLoop, Decoder.Token]

theorem unmarshalLoop_charData (f : Nat) (n : Node) (c t : String) (rest : List Token)
    (ae : XmlError) :
    unmarshalLoop (f + 1) n c ⟨.CharData t :: rest, ae⟩ = unmarshalLoop f n (c ++ t) ⟨rest, ae⟩ := by
  simp [unmarshalLoop, Decoder.Token]

theorem unmarshalLoop_start (f : Nat) (n : Node) (c : String) (nm : Name) (at1 : List Attr)
    (rest : List Token) (ae : XmlError) :
    unmarshalLoop (f + 1) n c ⟨.StartElement nm at1 :: rest, ae⟩ =
      match unmarshalLoop f ⟨nm, at1, "", []⟩ "" ⟨rest, ae⟩ with
      | none => none
      | some (.error err, d2) => some (.error err, d2)
      | some (.ok child, d2) =>
        unmarshalLoop f ⟨n.XMLName, n.Attrs, n.Content, n.Children ++ [child]⟩ c d2 := by
  simp [unmarshalLoop, Decoder.Token, Node.zero]

theorem unmarshalLoop_skip (f : Nat) (n : Node) (c : String) (tok : Token) (rest : List Token)
    (ae : XmlError)
    (h : (∃ t, tok = .Comment t) ∨ (∃ t i, tok = .ProcInst t i) ∨ (∃ t, tok = .Directive t)) :
    unmarshalLoop (f + 1) n c ⟨tok :: rest, ae⟩ = unmarshalLoop f n c ⟨rest, ae⟩ := by
  rcases h with ⟨t, rfl⟩ | ⟨t, i, rfl⟩ | ⟨t, rfl⟩ <;> simp [unmarshalLoop, Decoder.Token]

/-- What `MarshalXML` does on a tree whose names are not empty. -/
theorem marshal_tokens :
    (∀ m : Node, m.named = true → ∀ e : Encoder,
      m.MarshalXML e = .ok ⟨e.out ++ m.tokens, e.tags⟩) ∧
    (∀ l : List Node, Node.namedList l = true → ∀ e : Encoder,
      Node.marshalChildren l e = .ok ⟨e.out ++ Node.tokensList l, e.tags⟩) := by
  apply Node.induct2
  · intro name attrs content children ih hn e
    simp only [Node.named, Bool.and_eq_true, decide_eq_true_eq] at hn
    obtain ⟨hname, hch⟩ := hn
    simp only [Node.MarshalXML, Encoder.EncodeToken, hname, if_false]
    by_cases hc : children.length = 0 ∧ content.length > 0
    · simp only [Node.tokens, if_pos hc]
      simp [ih hch, Encoder.EncodeToken, hname]
    · simp only [Node.tokens, if_neg hc]
      simp [ih hch, Encoder.EncodeToken, hname]
  · intro _ e
    simp [Node.marshalChildren, Node.tokensList]
  · intro head tail ih1 ih2 hn e
    simp only [Node.namedList, Bool.and_eq_true] at hn
    simp [Node.marshalChildren, ih1 hn.1, ih2 hn.2, Node.tokensList]

/-- Parsing a well-formed element body up to its end tag succeeds, whatever the
receiver, and appends children and text that depend on the body only. -/
theorem unmarshal_balanced {body : List Token} (hb : Balanced body) :
    ∃ (kids : List Node) (txt : String), Node.namedList kids = true ∧
      ∀ (f : Nat) (n : Node) (c : String) (nm : Name) (rest : List Token) (ae : XmlError),
        (body ++ .EndElement nm :: rest).length < f →
        unmarshalLoop f n c ⟨body ++ .EndElement nm :: rest, ae⟩ =
          some (.ok ⟨n.XMLName, n.Attrs, c ++ txt, n.Children ++ kids⟩, ⟨rest, ae⟩) := by
  induction hb with
  | nil =>
    refine ⟨[], "", by simp [Node.namedList], ?_⟩
    intro f n c nm rest ae hlen
    obtain ⟨f1, rfl⟩ : ∃ f1, f = f1 + 1 := ⟨f - 1, by simp at hlen; omega⟩
    simp [unmarshalLoop_end]
  | charData t _ ih =>
    obtain ⟨kids, txt, hk, h⟩ := ih
    refine ⟨kids, t ++ txt, hk, ?_⟩
    intro f n c nm rest ae hlen
    obtain ⟨f1, rfl⟩ : ∃ f1, f = f1 + 1 := ⟨f - 1, by simp at hlen; omega⟩
    rw [List.cons_append, unmarshalLoop_charData, h f1 n _ nm rest ae (by simp at hlen ⊢; omega)]
    simp [String.append_assoc]
  | comment t _ ih =>
    obtain ⟨kids, txt, hk, h⟩ := ih
    refine ⟨kids, txt, hk, ?_⟩
    intro f n c nm rest ae hlen
    obtain ⟨f1, rfl⟩ : ∃ f1, f = f1 + 1 := ⟨f - 1, by simp at hlen; omega⟩
    rw [List.cons_append, unmarshalLoop_skip _ _ _ _ _ _ (Or.inl ⟨t, rfl⟩),
      h f1 n _ nm rest ae (by simp at hlen ⊢; omega)]
  | procInst t i _ ih =>
    obtain ⟨kids, txt, hk, h⟩ := ih
    refine ⟨kids, txt, hk, ?_⟩
    intro f n c nm rest ae hlen
    obtain ⟨f1, rfl⟩ : ∃ f1, f = f1 + 1 := ⟨f - 1, by simp at hlen; omega⟩
    rw [List.cons_append, unmarshalLoop_skip _ _ _ _ _ _ (Or.inr (Or.inl ⟨t, i, rfl⟩)),
      h f1 n _ nm rest ae (by simp at hlen ⊢; omega)]
  | directive t _ ih =>
    obtain ⟨kids, txt, hk, h⟩ := ih
    refine ⟨kids, txt, hk, ?_⟩
    intro f n c nm rest ae hlen
    obtain ⟨f1, rfl⟩ : ∃ f1, f = f1 + 1 := ⟨f - 1, by simp at hlen; omega⟩
    rw [List.cons_append, unmarshalLoop_skip _ _ _ _ _ _ (Or.inr (Or.inr ⟨t, rfl⟩)),
      h f1 n _ nm rest ae (by simp at hlen ⊢; omega)]
  | element name attr hname _ _ ih1 ih2 =>
    obtain ⟨kids1, txt1, hk1, h1⟩ := ih1
    obtain ⟨kids2, txt2, hk2, h2⟩ := ih2
    refine ⟨⟨name, attr, txt1, kids1⟩ :: kids2, txt2, ?_, ?_⟩
    · simp [Node.namedList, Node.named, hname, hk1, hk2]
    · intro f n c nm rest ae hlen
      obtain ⟨f1, rfl⟩ : ∃ f1, f = f1 + 1 := ⟨f - 1, by simp at hlen; omega⟩
      simp only [List.cons_append, List.append_assoc, List.length_cons, List.length_append] at hlen ⊢
      rw [unmarshalLoop_start, h1 f1 _ _ name _ ae (by simp; omega)]
      simp only
      rw [h2 f1 _ c nm rest ae (by simp; omega)]
      simp

/-! ## The claim on the round trip -/

/-- C10, evaluated on `<text:p>Hello <text:span>world</text:span></text:p>`, a
well-formed element with mixed text and markup: `UnmarshalXML` gives
`mixedParsed`, `MarshalXML` writes its tags and the text of the span but not
the text `Hello `, and parsing what was written gives `mixedReparsed`, which
is not the first tree. -/
theorem roundtrip_loses_mixed_text :
    Balanced mixedBody ∧
    Node.UnmarshalXML 6 Node.zero ⟨mixedBody ++ [.EndElement ⟨textNS, "p"⟩], .EOF⟩ paragraphStart =
      some (.ok mixedParsed, ⟨[], .EOF⟩) ∧
    mixedParsed.MarshalXML ⟨[], []⟩ =
      .ok ⟨.StartElement ⟨textNS, "p"⟩ [] :: mixedMarshalled, []⟩ ∧
    Node.UnmarshalXML 6 Node.zero ⟨mixedMarshalled, .EOF⟩ paragraphStart =
      some (.ok mixedReparsed, ⟨[], .EOF⟩) ∧
    mixedReparsed ≠ mixedParsed := by
  refine ⟨?_, by decide, by decide, by decide, by decide⟩
  show Balanced (.CharData "Hello " ::
    .StartElement ⟨textNS, "span"⟩ [] :: ([.CharData "world"] ++ .EndElement ⟨textNS, "span"⟩ :: []))
  exact .charData _ (.element _ _ (by decide) (.charData _ .nil) .nil)

/-! ## The claims on parsing and serializing -/

/-- C11, evaluated on `<text:p>Hello <text:s/></text:p>` and
`<text:p><text:s/>Hello </text:p>`: the two bodies are well-formed, have the
same child and the same text and differ in where the text stands, and
`UnmarshalXML` builds the same Node from both. -/
theorem unmarshal_forgets_text_position :
    Balanced textFirstBody ∧ Balanced textLastBody ∧ textFirstBody ≠ textLastBody ∧
    Node.UnmarshalXML 5 Node.zero ⟨textFirstBody ++ [.EndElement ⟨textNS, "p"⟩], .EOF⟩
        paragraphStart = some (.ok textAndChild, ⟨[], .EOF⟩) ∧
    Node.UnmarshalXML 5 Node.zero ⟨textLastBody ++ [.EndElement ⟨textNS, "p"⟩], .EOF⟩
        paragraphStart = some (.ok textAndChild, ⟨[], .EOF⟩) := by
  refine ⟨?_, ?_, by decide, by decide, by decide⟩
  · show Balanced (.CharData "Hello " ::
      .StartElement ⟨textNS, "s"⟩ [] :: ([] ++ .EndElement ⟨textNS, "s"⟩ :: []))
    exact .charData _ (.element _ _ (by decide) .nil .nil)
  · show Balanced (.StartElement ⟨textNS, "s"⟩ [] ::
      ([] ++ .EndElement ⟨textNS, "s"⟩ :: [.CharData "Hello "]))
    exact .element _ _ (by decide) .nil (.charData _ .nil)

theorem unmarshalLoop_nil (f : Nat) (n : Node) (c : String) (ae : XmlError) :
    unmarshalLoop (f + 1) n c ⟨[], ae⟩ =
      if ae = XmlError.EOF then some (.ok ⟨n.XMLName, n.Attrs, c, n.Children⟩, ⟨[], ae⟩)
      else some (.error ae, ⟨[], ae⟩) := by
  simp [unmarshalLoop, Decoder.Token]

/-- The loop on a truncated body, when the decoder ends it with an error other
than `io.EOF`: that error comes back. -/
theorem unmarshalLoop_truncated {body : List Token} (hb : Truncated body) (ae : XmlError)
    (hae : ae ≠ .EOF) :
    ∀ (f : Nat) (n : Node) (c : String), body.length < f →
      unmarshalLoop f n c ⟨body, ae⟩ = some (.error ae, ⟨[], ae⟩) := by
  induction hb with
  | nil =>
    intro f n c hlen
    obtain ⟨f1, rfl⟩ : ∃ f1, f = f1 + 1 := ⟨f - 1, by simp at hlen; omega⟩
    rw [unmarshalLoop_nil]
    simp [hae]
  | charData t _ ih =>
    intro f n c hlen
    obtain ⟨f1, rfl⟩ : ∃ f1, f = f1 + 1 := ⟨f - 1, by simp at hlen; omega⟩
    rw [unmarshalLoop_charData]
    exact ih f1 n _ (by simp at hlen ⊢; omega)
  | comment t _ ih =>
    intro f n c hlen
    obtain ⟨f1, rfl⟩ : ∃ f1, f = f1 + 1 := ⟨f - 1, by simp at hlen; omega⟩
    rw [unmarshalLoop_skip _ _ _ _ _ _ (Or.inl ⟨t, rfl⟩)]
    exact ih f1 n _ (by simp at hlen ⊢; omega)
  | procInst t i _ ih =>
    intro f n c hlen
    obtain ⟨f1, rfl⟩ : ∃ f1, f = f1 + 1 := ⟨f - 1, by simp at hlen; omega⟩
    rw [unmarshalLoop_skip _ _ _ _ _ _ (Or.inr (Or.inl ⟨t, i, rfl⟩))]
    exact ih f1 n _ (by simp at hlen ⊢; omega)
  | directive t _ ih =>
    intro f n c hlen
    obtain ⟨f1, rfl⟩ : ∃ f1, f = f1 + 1 := ⟨f - 1, by simp at hlen; omega⟩
    rw [unmarshalLoop_skip _ _ _ _ _ _ (Or.inr (Or.inr ⟨t, rfl⟩))]
    exact ih f1 n _ (by simp at hlen ⊢; omega)
  | closedChild name attr _ hbal _ ih =>
    intro f n c hlen
    obtain ⟨f1, rfl⟩ : ∃ f1, f = f1 + 1 := ⟨f - 1, by simp at hlen; omega⟩
    obtain ⟨kids, txt, _, h⟩ := unmarshal_balanced hbal
    simp only [List.length_cons, List.length_append] at hlen
    rw [unmarshalLoop_start, h f1 _ _ name _ ae (by simp; omega)]
    exact ih f1 _ c (by omega)
  | openChild name attr _ ih =>
    intro f n c hlen
    obtain ⟨f1, rfl⟩ : ∃ f1, f = f1 + 1 := ⟨f - 1, by simp at hlen; omega⟩
    simp only [List.length_cons] at hlen
    rw [unmarshalLoop_start, ih f1 ⟨name, attr, "", []⟩ "" (by omega)]

theorem unexpectedEnd_ne (inputEnd : XmlError) : unexpectedEnd inputEnd ≠ .EOF := by
  unfold unexpectedEnd
  split
  · simp
  · assumption

/-- A well-formed stretch of the input is delivered as it stands, whatever is open. -/
theorem deliverTokens_balanced {body : List Token} (hb : Balanced body) :
    ∀ (inputEnd : XmlError) (stack : List Name) (rest : List Token),
      deliverTokens inputEnd stack (body ++ rest) =
        (body ++ (deliverTokens inputEnd stack rest).1, (deliverTokens inputEnd stack rest).2) := by
  induction hb with
  | nil => intro ie stack rest; simp
  | charData t _ ih => intro ie stack rest; cases stack <;> simp [deliverTokens, ih]
  | comment t _ ih => intro ie stack rest; cases stack <;> simp [deliverTokens, ih]
  | procInst t i _ ih => intro ie stack rest; cases stack <;> simp [deliverTokens, ih]
  | directive t _ ih => intro ie stack rest; cases stack <;> simp [deliverTokens, ih]
  | element name attr _ _ _ ih1 ih2 =>
    intro ie stack rest
    simp only [List.cons_append, List.append_assoc]
    cases stack <;> simp [deliverTokens, ih1, ih2]

/-- An input that ends while an element is open is delivered as it stands, and
after it `Token` returns the error for the unexpected end. -/
theorem deliverTokens_truncated {body : List Token} (hb : Truncated body) :
    ∀ (inputEnd : XmlError) (top : Name) (stack : List Name),
      deliverTokens inputEnd (top :: stack) body = (body, unexpectedEnd inputEnd) := by
  induction hb with
  | nil => intro ie top stack; simp [deliverTokens]
  | charData t _ ih => intro ie top stack; simp [deliverTokens, ih]
  | comment t _ ih => intro ie top stack; simp [deliverTokens, ih]
  | procInst t i _ ih => intro ie top stack; simp [deliverTokens, ih]
  | directive t _ ih => intro ie top stack; simp [deliverTokens, ih]
  | closedChild name attr _ hbal _ ih =>
    intro ie top stack
    simp [deliverTokens, deliverTokens_balanced hbal, ih]
  | openChild name attr _ ih =>
    intro ie top stack
    simp [deliverTokens, ih]

/-- Before the first tag the decoder delivers what it finds. -/
theorem deliverTokens_prologue (inputEnd : XmlError) (prologue rest : List Token)
    (h : ∀ t ∈ prologue, t.isTag = false) :
    deliverTokens inputEnd [] (prologue ++ rest) =
      (prologue ++ (deliverTokens inputEnd [] rest).1, (deliverTokens inputEnd [] rest).2) := by
  induction prologue with
  | nil => simp
  | cons t more ih =>
    have ih2 := ih (fun x hx => h x (by simp [hx]))
    have ht := h t (by simp)
    cases t <;> simp [Token.isTag] at ht <;> simp [deliverTokens, ih2]

theorem skipToStart_prologue (prologue rest : List Token) (name : Name) (attr : List Attr)
    (h : ∀ t ∈ prologue, t.isTag = false) :
    skipToStart (prologue ++ .StartElement name attr :: rest) = some (⟨name, attr⟩, rest) := by
  induction prologue with
  | nil => simp [skipToStart]
  | cons t more ih =>
    have ih2 := ih (fun x hx => h x (by simp [hx]))
    have ht := h t (by simp)
    cases t <;> simp [Token.isTag] at ht <;> simp [skipToStart, ih2]

/-- A well-formed document is delivered whole and ends with what ends the input. -/
theorem newDecoder_balanced {doc : List Token} (hb : Balanced doc) (inputEnd : XmlError) :
    NewDecoder doc inputEnd = ⟨doc, inputEnd⟩ := by
  have := deliverTokens_balanced hb inputEnd [] []
  simp only [List.append_nil] at this
  simp [NewDecoder, decoderInside, this, deliverTokens]

/-- The branch of `UnmarshalXML` for `io.EOF` is taken when no element is open
in the decoder, as when the caller passes a start tag that the decoder did not
deliver: on the input `Hello ` the call returns the Node with that text. With
the element open in the decoder the end of the same input is an error. -/
theorem unmarshal_eof_outside_elements :
    Node.UnmarshalXML 2 Node.zero (NewDecoder [.CharData "Hello "] .EOF) paragraphStart =
      some (.ok ⟨⟨textNS, "p"⟩, [], "Hello ", []⟩, ⟨[], .EOF⟩) ∧
    Node.UnmarshalXML 2 Node.zero (decoderInside [⟨textNS, "p"⟩] [.CharData "Hello "] .EOF)
        paragraphStart =
      some (.error (.Syntax "unexpected EOF"), ⟨[], .Syntax "unexpected EOF"⟩) := by
  decide

/-- A complete document is parsed: the decoder of the file with the XML
declaration and the tokens of `footerDoc` delivers them all and ends with
`io.EOF`, and `Decode` returns the tree. -/
theorem decode_complete_document :
    NewDecoder (xmlDeclaration ++ footerDoc.tokens) .EOF =
      ⟨xmlDeclaration ++ footerDoc.tokens, .EOF⟩ ∧
    (NewDecoder (xmlDeclaration ++ footerDoc.tokens) .EOF).Decode Node.zero =
      (.ok footerDoc, ⟨[], .EOF⟩) := by
  decide

/-- C12: if the input ends before the end tag of an opened element, that is,
the decoder has delivered the start tag of the element, what is left of the
input is a well-formed body cut off before that end tag, possibly inside a
child, and then the input ends with `io.EOF` or breaks off with another
error, then `UnmarshalXML` returns an error and no Node: the error `Token`
returns there, which for the end of the input is the syntax error
`unexpected EOF` and never `io.EOF`. `decoder.Decode` on the file with such an
element returns this error, and `RenameStyleInFile` returns it as a failure to
parse and leaves the files as they were. -/
theorem unmarshal_truncated_input (n : Node) (start : StartElement) (outer : List Name)
    (body : List Token) (inputEnd : XmlError) (hb : Truncated body) :
    (∀ fuel, body.length < fuel →
      Node.UnmarshalXML fuel n (decoderInside (start.Name :: outer) body inputEnd) start =
        some (.error (unexpectedEnd inputEnd), ⟨[], unexpectedEnd inputEnd⟩)) ∧
    unexpectedEnd inputEnd ≠ .EOF ∧
    (inputEnd = .EOF → unexpectedEnd inputEnd = .Syntax "unexpected EOF") ∧
    (∀ (prologue : List Token) (root : Node), (∀ t ∈ prologue, t.isTag = false) →
      (NewDecoder (prologue ++ .StartElement start.Name start.Attr :: body) inputEnd).Decode root =
        (.error (unexpectedEnd inputEnd), ⟨[], unexpectedEnd inputEnd⟩)) ∧
    (∀ (sr : StyleRenamer) (fs : FileSystem) (inputPath outputPath : String)
        (prologue : List Token), (∀ t ∈ prologue, t.isTag = false) →
      fs.files inputPath =
        some (.xml (prologue ++ .StartElement start.Name start.Attr :: body) inputEnd) →
      sr.RenameStyleInFile fs inputPath outputPath =
        (some (.failedToParse (unexpectedEnd inputEnd)), fs)) := by
  have hne := unexpectedEnd_ne inputEnd
  have hloop : ∀ (m : Node) (fuel : Nat), body.length < fuel →
      unmarshalLoop fuel m "" ⟨body, unexpectedEnd inputEnd⟩ =
        some (.error (unexpectedEnd inputEnd), ⟨[], unexpectedEnd inputEnd⟩) :=
    fun m fuel hlen => unmarshalLoop_truncated hb _ hne fuel m "" hlen
  have hdecode : ∀ (prologue : List Token) (root : Node), (∀ t ∈ prologue, t.isTag = false) →
      (NewDecoder (prologue ++ .StartElement start.Name start.Attr :: body) inputEnd).Decode root =
        (.error (unexpectedEnd inputEnd), ⟨[], unexpectedEnd inputEnd⟩) := by
    intro prologue root hp
    have hd : NewDecoder (prologue ++ .StartElement start.Name start.Attr :: body) inputEnd =
        ⟨prologue ++ .StartElement start.Name start.Attr :: body, unexpectedEnd inputEnd⟩ := by
      simp [NewDecoder, decoderInside, deliverTokens_prologue _ _ _ hp, deliverTokens,
        deliverTokens_truncated hb]
    rw [hd]
    simp only [Decoder.Decode, skipToStart_prologue _ _ _ _ hp, Node.UnmarshalXML]
    rw [hloop _ _ (Nat.lt_succ_self _)]
  refine ⟨?_, hne, ?_, hdecode, ?_⟩
  · intro fuel hlen
    simp only [Node.UnmarshalXML, decoderInside, deliverTokens_truncated hb]
    exact hloop _ fuel hlen
  · intro h
    simp [unexpectedEnd, h]
  · intro sr fs inputPath outputPath prologue hp hfile
    simp [StyleRenamer.RenameStyleInFile, hfile, FileData.decoder, hdecode prologue Node.zero hp]

/-- C12, on `<text:p>Hello <text:span>wor`, cut off inside the span: the call
for the paragraph returns the syntax error for the unexpected end. -/
theorem unmarshal_truncated_input_witness :
    Node.UnmarshalXML 4 Node.zero (decoderInside [⟨textNS, "p"⟩] truncatedBody .EOF)
        paragraphStart =
      some (.error (.Syntax "unexpected EOF"), ⟨[], .Syntax "unexpected EOF"⟩) :=
  (unmarshal_truncated_input Node.zero paragraphStart [] truncatedBody .EOF
    (.charData _ (.openChild _ _ (.charData _ .nil)))).1 4 (by decide)

theorem tokensList_eq_flatten (l : List Node) :
    Node.tokensList l = (l.map Node.tokens).flatten := by
  induction l with
  | nil => simp [Node.tokensList]
  | cons c rest ih => simp [Node.tokensList, ih]

theorem tokens_form (m : Node) :
    m.tokens = .StartElement m.XMLName (writtenAttrs m.Attrs) ::
      (m.textTokens ++ ((m.Children.map Node.tokens).flatten ++ [.EndElement m.XMLName])) := by
  cases m
  simp [Node.tokens, Node.textTokens, tokensList_eq_flatten]

theorem namedList_iff (l : List Node) :
    Node.namedList l = true ↔ ∀ c ∈ l, c.named = true := by
  induction l with
  | nil => simp [Node.namedList]
  | cons c rest ih => simp [Node.namedList, ih]

/-- A tree with an empty element name somewhere is refused by `MarshalXML`. -/
theorem marshal_unnamed :
    (∀ m : Node, m.named = false → ∀ e : Encoder, ∃ err, m.MarshalXML e = .error err) ∧
    (∀ l : List Node, Node.namedList l = false → ∀ e : Encoder,
      ∃ err, Node.marshalChildren l e = .error err) := by
  apply Node.induct2
  · intro name attrs content children ih hn e
    by_cases hname : name.Local = ""
    · exact ⟨.Encode "xml: start tag with no name",
        by simp [Node.MarshalXML, Encoder.EncodeToken, hname]⟩
    · have hch : Node.namedList children = false := by
        simpa [Node.named, hname] using hn
      simp only [Node.MarshalXML, Encoder.EncodeToken, hname, if_false]
      by_cases hc : children.length = 0 ∧ content.length > 0
      · obtain ⟨err, herr⟩ := ih hch
          ⟨e.out ++ [.StartElement name (writtenAttrs attrs)] ++ [.CharData content], name :: e.tags⟩
        exact ⟨err, by simp only [if_pos hc, herr]⟩
      · obtain ⟨err, herr⟩ :=
          ih hch ⟨e.out ++ [.StartElement name (writtenAttrs attrs)], name :: e.tags⟩
        exact ⟨err, by simp only [if_neg hc, herr]⟩
  · intro h
    simp [Node.namedList] at h
  · intro head tail ih1 ih2 hn e
    by_cases hh : head.named = true
    · have ht : Node.namedList tail = false := by
        simpa [Node.namedList, hh] using hn
      obtain ⟨err, herr⟩ := ih2 ht ⟨e.out ++ head.tokens, e.tags⟩
      exact ⟨err, by simp [Node.marshalChildren, marshal_tokens.1 head hh, herr]⟩
    · obtain ⟨err, herr⟩ := ih1 (by simpa using hh) ⟨e.out, ⟨"", ""⟩ :: e.tags⟩
      exact ⟨err, by simp [Node.marshalChildren, herr]⟩

/-- C13, as stated, fails: for the Node with the empty name the encoder refuses
the start tag, and `MarshalXML` returns its error and has written nothing; so
it does for a Node with such a child. For a Node with an attribute that has no
local name the start tag is written without that attribute. -/
theorem marshalXML_refuses_empty_name :
    Node.zero.MarshalXML ⟨[], []⟩ = .error (.Encode "xml: start tag with no name") ∧
    (⟨⟨textNS, "p"⟩, [], "", [Node.zero]⟩ : Node).MarshalXML ⟨[], []⟩ =
      .error (.Encode "xml: start tag with no name") ∧
    namelessAttrNode.MarshalXML ⟨[], []⟩ =
      .ok ⟨[.StartElement ⟨"", "p"⟩ [⟨⟨"", "a"⟩, "1"⟩], .EndElement ⟨"", "p"⟩], []⟩ := by
  decide

/-- C13, amended: for every Node in which every element name, its own and
those of its descendants, is not empty, `MarshalXML` succeeds and adds to the
output a start tag with the name of the node and, in their stored order, the
attributes of the node that have a local name, then the text if the node has
no children, then what `MarshalXML` writes for each child in stored order,
then the end tag of the same name, and every child is written in the same
form. An attribute without a local name is left out and no other is: when all
attributes have a local name the start tag carries them all. For a Node with
an empty element name somewhere `MarshalXML` returns the error of the
encoder. -/
theorem marshalXML_emits_in_order (n : Node) (e : Encoder) :
    (n.named = true →
      n.MarshalXML e = .ok ⟨e.out ++
        (.StartElement n.XMLName (n.Attrs.filter (fun a => decide (a.Name.Local ≠ ""))) ::
          (n.textTokens ++ ((n.Children.map Node.tokens).flatten ++ [.EndElement n.XMLName]))),
        e.tags⟩ ∧
      ∀ c ∈ n.Children, ∀ e2 : Encoder,
        c.MarshalXML e2 = .ok ⟨e2.out ++ c.tokens, e2.tags⟩ ∧
        c.tokens =
          .StartElement c.XMLName (c.Attrs.filter (fun a => decide (a.Name.Local ≠ ""))) ::
            (c.textTokens ++ ((c.Children.map Node.tokens).flatten ++ [.EndElement c.XMLName]))) ∧
    ((∀ a ∈ n.Attrs, a.Name.Local ≠ "") →
      n.Attrs.filter (fun a => decide (a.Name.Local ≠ "")) = n.Attrs) ∧
    (n.named = false → ∃ err, n.MarshalXML e = .error err) := by
  refine ⟨?_, ?_, fun h => marshal_unnamed.1 n h e⟩
  · intro h
    refine ⟨by rw [marshal_tokens.1 n h, tokens_form]; rfl, ?_⟩
    intro c hc e2
    have hcn : c.named = true := by
      cases n with
      | mk name attrs content children =>
        simp only [Node.named, Bool.and_eq_true] at h
        exact (namedList_iff children).mp h.2 c hc
    exact ⟨marshal_tokens.1 c hcn e2, tokens_form c⟩
  · intro h
    rw [List.filter_eq_self]
    intro a ha
    simpa using h a ha

/-- C13, amended, on `headerDoc`: the start tag with its attribute, the three
children in their order, the end tag. -/
theorem marshalXML_emits_in_order_witness :
    headerDoc.MarshalXML ⟨[], []⟩ = .ok ⟨[] ++
        (.StartElement headerDoc.XMLName
            (headerDoc.Attrs.filter (fun a => decide (a.Name.Local ≠ ""))) ::
          (headerDoc.textTokens ++
            ((headerDoc.Children.map Node.tokens).flatten ++ [.EndElement headerDoc.XMLName]))),
        []⟩ ∧
      ∀ c ∈ headerDoc.Children, ∀ e2 : Encoder,
        c.MarshalXML e2 = .ok ⟨e2.out ++ c.tokens, e2.tags⟩ ∧
        c.tokens =
          .StartElement c.XMLName (c.Attrs.filter (fun a => decide (a.Name.Local ≠ ""))) ::
            (c.textTokens ++ ((c.Children.map Node.tokens).flatten ++ [.EndElement c.XMLName])) :=
  (marshalXML_emits_in_order headerDoc ⟨[], []⟩).1 (by decide)

/-! ## The claim on the traversal order -/

theorem updateChildren_eq (sr : StyleRenamer) (l : List Node) (m : Bool) :
    sr.updateChildren l m =
      (l.map (fun c => (sr.updateStyleReferences c).1),
        m || l.any (fun c => (sr.updateStyleReferences c).2)) :=
  Prod.ext (updateChildren_fst sr l m) (updateChildren_snd sr l m)

theorem updateAttrs_eq (sr : StyleRenamer) (l : List Attr) (m : Bool) :
    sr.updateAttrs l m = (l.map sr.renameAttr, m || l.any sr.isRef) :=
  Prod.ext (updateAttrs_fst sr l m) (updateAttrs_snd sr l m)

theorem updatePostOrder_eq (sr : StyleRenamer) :
    (∀ t : Node, sr.updatePostOrder t = sr.updateStyleReferences t) ∧
    (∀ l : List Node, ∀ m : Bool, sr.updateChildrenPostOrder l m = sr.updateChildren l m) := by
  apply Node.induct2
  · intro name attrs content children ih
    simp only [StyleRenamer.updatePostOrder, StyleRenamer.updateStyleReferences, ih,
      updateChildren_eq, updateAttrs_eq, Bool.false_or]
    rw [Bool.or_comm]
  · intro m
    simp [StyleRenamer.updateChildrenPostOrder, StyleRenamer.updateChildren]
  · intro head tail ih1 ih2 m
    simp only [StyleRenamer.updateChildrenPostOrder, StyleRenamer.updateChildren, ih1, ih2]

theorem updateRightToLeft_eq (sr : StyleRenamer) :
    (∀ t : Node, sr.updateRightToLeft t = sr.updateStyleReferences t) ∧
    (∀ l : List Node, ∀ m : Bool, sr.updateChildrenRightToLeft l m = sr.updateChildren l m) := by
  apply Node.induct2
  · intro name attrs content children ih
    simp only [StyleRenamer.updateRightToLeft, StyleRenamer.updateStyleReferences, ih]
  · intro m
    simp [StyleRenamer.updateChildrenRightToLeft, StyleRenamer.updateChildren]
  · intro head tail ih1 ih2 m
    simp only [StyleRenamer.updateChildrenRightToLeft, StyleRenamer.updateChildren, ih1, ih2,
      updateChildren_eq]
    cases (sr.updateStyleReferences head).2 <;> simp

/-- C20: the traversal order does not affect the rewrite. The traversal that
processes the children of a node before its own attributes and the traversal
that processes the children from right to left give, for every tree and every
rename, the same tree and the same flag as `updateStyleReferences`. -/
theorem updateStyleReferences_traversal_order (sr : StyleRenamer) (t : Node) :
    sr.updatePostOrder t = sr.updateStyleReferences t ∧
    sr.updateRightToLeft t = sr.updateStyleReferences t :=
  ⟨(updatePostOrder_eq sr).1 t, (updateRightToLeft_eq sr).1 t⟩

/-! ## The claims on packages -/

theorem content_eq_some (f : ZipFile) (data : String) (h : f.content = some data) :
    f.Open = some ⟨data, false⟩ := by
  unfold ZipFile.content at h
  cases ho : f.Open with
  | none => simp [ho] at h
  | some rc =>
    obtain ⟨d, b⟩ := rc
    cases b with
    | false =>
      simp only [ho, Option.some.injEq] at h
      rw [h]
    | true => simp [ho] at h

theorem extractLoop_eq (reader : List ZipFile) (filename : String) :
    ODTEditor.extractLoop reader filename = extractFileFromZip reader filename := by
  induction reader with
  | nil => rfl
  | cons f rest ih => simp [ODTEditor.extractLoop, extractFileFromZip, ih]

/-- C16: in an archive whose entries are all readable, `extractFileFromZip`
returns the bytes of the first entry whose name equals the requested name; it
fails if and only if no entry has that name, and then with the error that the
file was not found in the archive. The method of `ODTEditor` does the same on
the entries of its reader. -/
theorem extractFileFromZip_first_match (reader : List ZipFile) (filename : String)
    (h : ∀ f ∈ reader, f.content ≠ none) :
    (∀ pre f post, reader = pre ++ f :: post → (∀ g ∈ pre, g.Name ≠ filename) →
      f.Name = filename →
      ∃ data, f.content = some data ∧ extractFileFromZip reader filename = .ok data) ∧
    ((∃ err, extractFileFromZip reader filename = .error err) ↔
      ∀ f ∈ reader, f.Name ≠ filename) ∧
    (∀ err, extractFileFromZip reader filename = .error err → err = .notFound filename) ∧
    (∀ e : ODTEditor, e.reader = reader →
      e.extractFileFromZip filename = extractFileFromZip reader filename) := by
  refine ⟨?_, ?_, ?_, ?_⟩
  · intro pre f post hsplit hpre hname
    subst hsplit
    obtain ⟨data, hdata⟩ := Option.ne_none_iff_exists'.mp (h f (by simp))
    refine ⟨data, hdata, ?_⟩
    clear h
    induction pre with
    | nil => simp [extractFileFromZip, hname, content_eq_some f data hdata]
    | cons g rest ih =>
      have hg : g.Name ≠ filename := hpre g (by simp)
      simp only [List.cons_append, extractFileFromZip, hg, if_false]
      exact ih (fun x hx => hpre x (by simp [hx]))
  · induction reader with
    | nil => simp [extractFileFromZip]
    | cons f rest ih =>
      have ih2 := ih (fun x hx => h x (by simp [hx]))
      by_cases hname : f.Name = filename
      · obtain ⟨data, hdata⟩ := Option.ne_none_iff_exists'.mp (h f (by simp))
        simp [extractFileFromZip, hname, content_eq_some f data hdata]
      · simp [extractFileFromZip, hname, ih2]
  · induction reader with
    | nil =>
      intro err herr
      simpa [extractFileFromZip] using herr.symm
    | cons f rest ih =>
      intro err herr
      by_cases hname : f.Name = filename
      · obtain ⟨data, hdata⟩ := Option.ne_none_iff_exists'.mp (h f (by simp))
        simp [extractFileFromZip, hname, content_eq_some f data hdata] at herr
      · simp only [extractFileFromZip, hname, if_false] at herr
        exact ih (fun x hx => h x (by simp [hx])) err herr
  · intro e he
    rw [ODTEditor.extractFileFromZip, he, extractLoop_eq]

/-- C16, on the entries of `sampleEditor`: `content.xml` is the second entry. -/
theorem extractFileFromZip_first_match_witness :
    ∃ data, (⟨"content.xml", some ⟨"<office:document-content>old</office:document-content>", false⟩⟩ :
        ZipFile).content = some data ∧
      extractFileFromZip sampleEditor.reader "content.xml" = .ok data :=
  (extractFileFromZip_first_match sampleEditor.reader "content.xml" (by decide)).1
    [⟨"mimetype", some ⟨"application/vnd.oasis.opendocument.text", false⟩⟩]
    ⟨"content.xml", some ⟨"<office:document-content>old</office:document-content>", false⟩⟩
    [ ⟨"Pictures/img1.png", some ⟨"PNG-bytes", false⟩⟩,
      ⟨"META-INF/manifest.xml", some ⟨"<manifest:manifest/>", false⟩⟩ ]
    (by decide) (by decide) (by decide)

theorem saveLoop_step_ok (e : ODTEditor) (f : ZipFile) (rest : List ZipFile) (zw : ZipWriter)
    (hroom : 2 ≤ zw.room) (hread : f.Name ≠ "content.xml" → f.content ≠ none) :
    e.saveLoop (f :: rest) zw =
      e.saveLoop rest ⟨zw.entries ++ [e.written f], zw.room - 2⟩ := by
  have h0 : zw.room ≠ 0 := by omega
  have h1 : zw.room - 1 ≠ 0 := by omega
  have h2 : zw.room - 1 - 1 = zw.room - 2 := by omega
  by_cases hname : f.Name = "content.xml"
  · simp [ODTEditor.saveLoop, ODTEditor.writeFileToZip, ZipWriter.Create, ZipWriter.Write, hname,
      h0, h1, h2, ODTEditor.written]
  · obtain ⟨data, hdata⟩ := Option.ne_none_iff_exists'.mp (hread hname)
    have hopen := content_eq_some f data hdata
    simp [ODTEditor.saveLoop, ODTEditor.copyFileToZip, ioCopy, ZipWriter.Create, ZipWriter.Write,
      hname, h0, h1, h2, hdata, hopen, ODTEditor.written]

/-- When every entry can be read and the destination takes every call, the
loop of `SaveAs` writes one entry for each source entry, in order. -/
theorem saveLoop_ok (e : ODTEditor) (files : List ZipFile) (zw : ZipWriter)
    (hread : ∀ f ∈ files, f.Name ≠ "content.xml" → f.content ≠ none)
    (hroom : 2 * files.length ≤ zw.room) :
    e.saveLoop files zw =
      (none, ⟨zw.entries ++ files.map e.written, zw.room - 2 * files.length⟩) := by
  induction files generalizing zw with
  | nil => simp [ODTEditor.saveLoop]
  | cons f rest ih =>
    simp only [List.length_cons] at hroom
    rw [saveLoop_step_ok e f rest zw (by omega) (hread f (by simp)),
      ih _ (fun x hx => hread x (by simp [hx])) (by simp; omega)]
    simp only [List.map_cons, List.append_assoc, List.singleton_append, List.length_cons,
      Prod.mk.injEq, ZipWriter.mk.injEq, true_and]
    omega

/-- The loop of `SaveAs` on entries that can be copied followed by others: the
first are written, and the loop goes on with the others. -/
theorem saveLoop_append (e : ODTEditor) (pre rest : List ZipFile) (zw : ZipWriter)
    (hread : ∀ f ∈ pre, f.Name ≠ "content.xml" → f.content ≠ none)
    (hroom : 2 * pre.length ≤ zw.room) :
    e.saveLoop (pre ++ rest) zw =
      e.saveLoop rest ⟨zw.entries ++ pre.map e.written, zw.room - 2 * pre.length⟩ := by
  induction pre generalizing zw with
  | nil => simp
  | cons f more ih =>
    simp only [List.length_cons] at hroom
    rw [List.cons_append, saveLoop_step_ok e f (more ++ rest) zw (by omega) (hread f (by simp)),
      ih _ (fun x hx => hread x (by simp [hx])) (by simp; omega)]
    have h2 : zw.room - 2 - 2 * more.length = zw.room - 2 * (more.length + 1) := by omega
    simp [h2]

theorem saveLoop_cannotOpen (e : ODTEditor) (f : ZipFile) (rest : List ZipFile) (zw : ZipWriter)
    (hname : f.Name ≠ "content.xml") (hopen : f.Open = none) :
    e.saveLoop (f :: rest) zw = (some (.copyingFile f.Name (.cannotOpen f.Name)), zw) := by
  simp [ODTEditor.saveLoop, ODTEditor.copyFileToZip, hname, hopen]

theorem saveLoop_cannotRead (e : ODTEditor) (f : ZipFile) (rest : List ZipFile) (zw : ZipWriter)
    (data : String) (hname : f.Name ≠ "content.xml") (hopen : f.Open = some ⟨data, true⟩)
    (hroom : 2 ≤ zw.room) :
    e.saveLoop (f :: rest) zw =
      (some (.copyingFile f.Name (.cannotRead f.Name)),
        ⟨zw.entries ++ [⟨f.Name, data⟩], zw.room - 2⟩) := by
  have h0 : zw.room ≠ 0 := by omega
  have h1 : zw.room - 1 ≠ 0 := by omega
  have h2 : zw.room - 1 - 1 = zw.room - 2 := by omega
  simp [ODTEditor.saveLoop, ODTEditor.copyFileToZip, ioCopy, ZipWriter.Create, ZipWriter.Write,
    hname, hopen, h0, h1, h2]

theorem saveLoop_cannotCreate (e : ODTEditor) (f : ZipFile) (rest : List ZipFile)
    (zw : ZipWriter) (hroom : zw.room = 0) (hf : f.Name = "content.xml" ∨ f.Open ≠ none) :
    e.saveLoop (f :: rest) zw =
      (some (if f.Name = "content.xml" then .writingContent (.cannotCreate "content.xml")
        else .copyingFile f.Name (.cannotCreate f.Name)), zw) := by
  by_cases hname : f.Name = "content.xml"
  · simp [ODTEditor.saveLoop, ODTEditor.writeFileToZip, ZipWriter.Create, hname, hroom]
  · obtain ⟨rc, hrc⟩ := Option.ne_none_iff_exists'.mp (hf.resolve_left hname)
    simp [ODTEditor.saveLoop, ODTEditor.copyFileToZip, ZipWriter.Create, hname, hroom, hrc]

theorem saveLoop_cannotWrite (e : ODTEditor) (f : ZipFile) (rest : List ZipFile)
    (zw : ZipWriter) (hroom : zw.room = 1) (hf : f.Name = "content.xml" ∨ f.Open ≠ none) :
    (e.saveLoop (f :: rest) zw).1 =
      some (if f.Name = "content.xml" then .writingContent (.cannotWrite "content.xml")
        else .copyingFile f.Name (.cannotWrite f.Name)) ∧
    (e.saveLoop (f :: rest) zw).2.room = 0 := by
  by_cases hname : f.Name = "content.xml"
  · simp [ODTEditor.saveLoop, ODTEditor.writeFileToZip, ZipWriter.Create, ZipWriter.Write, hname,
      hroom]
  · obtain ⟨rc, hrc⟩ := Option.ne_none_iff_exists'.mp (hf.resolve_left hname)
    simp [ODTEditor.saveLoop, ODTEditor.copyFileToZip, ioCopy, ZipWriter.Create, ZipWriter.Write,
      hname, hroom, hrc]

/-- Every failure of the loop of `SaveAs` is at a first entry that cannot be
copied: the entries before it can be read and the destination took them, and
either the destination has no room for the two calls of this entry or the
entry cannot be read to the end. -/
theorem saveLoop_failure (e : ODTEditor) (files : List ZipFile) (zw : ZipWriter)
    (h : (e.saveLoop files zw).1 ≠ none) :
    ∃ pre f post, files = pre ++ f :: post ∧
      (∀ g ∈ pre, g.Name ≠ "content.xml" → g.content ≠ none) ∧
      2 * pre.length ≤ zw.room ∧
      (zw.room < 2 * pre.length + 2 ∨ (f.Name ≠ "content.xml" ∧ f.content = none)) := by
  induction files generalizing zw with
  | nil => simp [ODTEditor.saveLoop] at h
  | cons f rest ih =>
    by_cases hok : 2 ≤ zw.room ∧ (f.Name ≠ "content.xml" → f.content ≠ none)
    · rw [saveLoop_step_ok e f rest zw hok.1 hok.2] at h
      obtain ⟨pre, g, post, hsplit, hpre, hroom, hfail⟩ := ih _ h
      refine ⟨f :: pre, g, post, by simp [hsplit], ?_, ?_, ?_⟩
      · intro x hx
        rcases List.mem_cons.mp hx with rfl | hx
        · exact hok.2
        · exact hpre x hx
      · simp only [List.length_cons] at hroom ⊢
        omega
      · simp only [List.length_cons] at hfail ⊢
        rcases hfail with hfail | hfail
        · left; omega
        · right; exact hfail
    · refine ⟨[], f, rest, rfl, by simp, by simp, ?_⟩
      by_cases hr : 2 ≤ zw.room
      · right
        have : ¬ (f.Name ≠ "content.xml" → f.content ≠ none) := fun hx => hok ⟨hr, hx⟩
        by_cases hname : f.Name = "content.xml"
        · exact absurd (fun hn => absurd hname hn) this
        · refine ⟨hname, ?_⟩
          by_contra hc
          exact this (fun _ => hc)
      · left
        simp only [List.length_nil]
        omega

/-- C14, as stated, fails. Saving `sampleEditor` to `in.odt`, the path of its
own source, empties the source before the first entry is copied: `SaveAs`
returns the error for `mimetype` and leaves a package without entries, where
the source has four. And `brokenEditor`, whose picture cannot be opened,
leaves a package with one entry of its three. -/
theorem saveAs_loses_entries :
    sampleEditor.filename = "in.odt" ∧ sampleEditor.reader.length = 4 ∧
    (sampleEditor.SaveAs sampleFiles "in.odt").1 =
      some (.copyingFile "mimetype" (.cannotOpen "mimetype")) ∧
    (sampleEditor.SaveAs sampleFiles "in.odt").2.files "in.odt" = some (.package []) ∧
    brokenEditor.reader.length = 3 ∧
    (brokenEditor.SaveAs sampleFiles "out.odt").2.files "out.odt" =
      some (.package [⟨"mimetype", "application/vnd.oasis.opendocument.text"⟩]) := by
  decide

/-- C14, amended: when the output path names another file than the source,
the output file can be created, every entry other than `content.xml` can be
opened and read to the end and the destination takes every call on it, the
closing ones included, then `SaveAs` returns no error and the package at the
output path has as many entries as the source, with the same names in the
same order; the entries named `content.xml` hold the `contentXML` of the
editor and every other entry holds the bytes of the source entry. -/
theorem saveAs_container_fidelity (e : ODTEditor) (fs : FileSystem) (outputFilename : String)
    (hpath : outputFilename ≠ e.filename)
    (hcreate : fs.denied outputFilename = false)
    (hread : ∀ f ∈ e.reader, f.Name ≠ "content.xml" → f.content ≠ none)
    (hroom : 2 * e.reader.length < fs.room) :
    (e.SaveAs fs outputFilename).1 = none ∧
    ∃ entries : List ZipEntry,
      (e.SaveAs fs outputFilename).2.files outputFilename = some (.package entries) ∧
      entries.length = e.reader.length ∧
      entries.map ZipEntry.Name = e.reader.map ZipFile.Name ∧
      ∀ (i : Nat) (f : ZipFile), e.reader[i]? = some f →
        ∃ w : ZipEntry, entries[i]? = some w ∧ w.Name = f.Name ∧
          (f.Name = "content.xml" → w.data = e.contentXML) ∧
          (f.Name ≠ "content.xml" → f.content = some w.data) := by
  have hsrc : e.source outputFilename = e.reader := by simp [ODTEditor.source, hpath]
  have hloop := saveLoop_ok e e.reader ⟨[], fs.room⟩ hread (by simp; omega)
  have hclose : fs.room - 2 * e.reader.length ≠ 0 := by omega
  refine ⟨by simp [ODTEditor.SaveAs, hcreate, hsrc, hloop], e.reader.map e.written,
    by simp [ODTEditor.SaveAs, hcreate, hsrc, hloop, ZipWriter.Close, hclose], by simp, ?_, ?_⟩
  · rw [List.map_map]
    rfl
  · intro i f hf
    refine ⟨e.written f, by simp [hf], rfl, ?_, ?_⟩
    · intro hname
      simp [ODTEditor.written, hname]
    · intro hname
      obtain ⟨data, hdata⟩ :=
        Option.ne_none_iff_exists'.mp (hread f (List.getElem?_mem hf) hname)
      simp [ODTEditor.written, hname, hdata]

/-- C14, amended, on `sampleEditor` saved to `out.odt`: the four entries, the
picture as in the source. -/
theorem saveAs_container_fidelity_witness :
    (sampleEditor.SaveAs sampleFiles "out.odt").1 = none ∧
    ∃ entries : List ZipEntry,
      (sampleEditor.SaveAs sampleFiles "out.odt").2.files "out.odt" = some (.package entries) ∧
      entries.length = sampleEditor.reader.length ∧
      entries.map ZipEntry.Name = sampleEditor.reader.map ZipFile.Name ∧
      ∀ (i : Nat) (f : ZipFile), sampleEditor.reader[i]? = some f →
        ∃ w : ZipEntry, entries[i]? = some w ∧ w.Name = f.Name ∧
          (f.Name = "content.xml" → w.data = sampleEditor.contentXML) ∧
          (f.Name ≠ "content.xml" → f.content = some w.data) :=
  saveAs_container_fidelity sampleEditor sampleFiles "out.odt" (by decide) (by decide)
    (by decide) (by decide)

/-- C15, as stated, fails: `brokenEditor` cannot open its picture; `SaveAs`
returns the error, and the output path, which held a package before, now holds
a package with the one entry written before the failure. `damagedEditor` can
open its picture and cannot read it to the end; the output path then holds
the first entry and the picture with the bytes read before the error. -/
theorem saveAs_not_all_or_nothing :
    (brokenEditor.SaveAs sampleFiles "out.odt").1 =
      some (.copyingFile "Pictures/img1.png" (.cannotOpen "Pictures/img1.png")) ∧
    (brokenEditor.SaveAs sampleFiles "out.odt").2.files "out.odt" =
      some (.package [⟨"mimetype", "application/vnd.oasis.opendocument.text"⟩]) ∧
    (brokenEditor.SaveAs sampleFiles "out.odt").2.files "out.odt" ≠ sampleFiles.files "out.odt" ∧
    (damagedEditor.SaveAs sampleFiles "out.odt").1 =
      some (.copyingFile "Pictures/img1.png" (.cannotRead "Pictures/img1.png")) ∧
    (damagedEditor.SaveAs sampleFiles "out.odt").2.files "out.odt" =
      some (.package [⟨"mimetype", "application/vnd.oasis.opendocument.text"⟩,
        ⟨"Pictures/img1.png", "PNG-"⟩]) := by
  decide

/-- C15, amended: the commit is not all-or-nothing. `SaveAs` creates the file
at the output path first and writes the entries into it. Only when the file
cannot be created are all files as before, and the other paths are never
touched. Otherwise, at the first entry that cannot be copied, after entries
that were all copied, `SaveAs` returns the error of the failing call and the
output path holds, in place of what was there: the package of the entries
before it when the entry cannot be opened; that package with the entry itself
and the bytes read of it when the reading of the entry ends with an error; and
an archive left incomplete when a call on the destination failed, also when
that is the closing call. Every failure after the file was created is of one
of these kinds. -/
theorem saveAs_failure_leaves_partial_package (e : ODTEditor) (fs : FileSystem)
    (outputFilename : String) :
    (fs.denied outputFilename = true →
      e.SaveAs fs outputFilename = (some .creatingNewFile, fs)) ∧
    (∀ p, p ≠ outputFilename → (e.SaveAs fs outputFilename).2.files p = fs.files p) ∧
    (fs.denied outputFilename = false → ∀ (pre : List ZipFile) (f : ZipFile) (post : List ZipFile),
      e.source outputFilename = pre ++ f :: post →
      (∀ g ∈ pre, g.Name ≠ "content.xml" → g.content ≠ none) →
      2 * pre.length ≤ fs.room →
      (f.Name ≠ "content.xml" → f.Open = none →
        (e.SaveAs fs outputFilename).1 = some (.copyingFile f.Name (.cannotOpen f.Name)) ∧
        (e.SaveAs fs outputFilename).2.files outputFilename =
          some (if fs.room = 2 * pre.length then .incomplete
            else .package (pre.map e.written))) ∧
      (f.Name ≠ "content.xml" → ∀ data : String, f.Open = some ⟨data, true⟩ →
        2 * pre.length + 2 ≤ fs.room →
        (e.SaveAs fs outputFilename).1 = some (.copyingFile f.Name (.cannotRead f.Name)) ∧
        (e.SaveAs fs outputFilename).2.files outputFilename =
          some (if fs.room = 2 * pre.length + 2 then .incomplete
            else .package (pre.map e.written ++ [⟨f.Name, data⟩]))) ∧
      (fs.room = 2 * pre.length → (f.Name = "content.xml" ∨ f.Open ≠ none) →
        (e.SaveAs fs outputFilename).1 =
          some (if f.Name = "content.xml" then .writingContent (.cannotCreate "content.xml")
            else .copyingFile f.Name (.cannotCreate f.Name)) ∧
        (e.SaveAs fs outputFilename).2.files outputFilename = some .incomplete) ∧
      (fs.room = 2 * pre.length + 1 → (f.Name = "content.xml" ∨ f.Open ≠ none) →
        (e.SaveAs fs outputFilename).1 =
          some (if f.Name = "content.xml" then .writingContent (.cannotWrite "content.xml")
            else .copyingFile f.Name (.cannotWrite f.Name)) ∧
        (e.SaveAs fs outputFilename).2.files outputFilename = some .incomplete)) ∧
    (fs.denied outputFilename = false → (e.SaveAs fs outputFilename).1 ≠ none →
      ∃ (pre : List ZipFile) (f : ZipFile) (post : List ZipFile),
        e.source outputFilename = pre ++ f :: post ∧
        (∀ g ∈ pre, g.Name ≠ "content.xml" → g.content ≠ none) ∧
        2 * pre.length ≤ fs.room ∧
        (fs.room < 2 * pre.length + 2 ∨ (f.Name ≠ "content.xml" ∧ f.content = none))) := by
  refine ⟨?_, ?_, ?_, ?_⟩
  · intro h
    simp [ODTEditor.SaveAs, h]
  · intro p hp
    by_cases h : fs.denied outputFilename = true
    · simp [ODTEditor.SaveAs, h]
    · simp [ODTEditor.SaveAs, h, hp]
  · intro hd pre f post hsplit hpre hroom
    have happ := saveLoop_append e pre (f :: post) ⟨[], fs.room⟩ hpre hroom
    simp only [List.nil_append] at happ
    refine ⟨?_, ?_, ?_, ?_⟩
    · intro hname hopen
      rw [saveLoop_cannotOpen e f post _ hname hopen] at happ
      refine ⟨by simp [ODTEditor.SaveAs, hd, hsplit, happ], ?_⟩
      have hfile : (e.SaveAs fs outputFilename).2.files outputFilename =
          some (ZipWriter.Close ⟨pre.map e.written, fs.room - 2 * pre.length⟩) := by
        simp [ODTEditor.SaveAs, hd, hsplit, happ]
      rw [hfile]
      by_cases hr : fs.room = 2 * pre.length
      · have h0 : fs.room - 2 * pre.length = 0 := by omega
        simp [ZipWriter.Close, h0, hr]
      · have h0 : fs.room - 2 * pre.length ≠ 0 := by omega
        simp [ZipWriter.Close, h0, hr]
    · intro hname data hopen hroom2
      rw [saveLoop_cannotRead e f post _ data hname hopen (by simp; omega)] at happ
      refine ⟨by simp [ODTEditor.SaveAs, hd, hsplit, happ], ?_⟩
      have hfile : (e.SaveAs fs outputFilename).2.files outputFilename =
          some (ZipWriter.Close
            ⟨pre.map e.written ++ [⟨f.Name, data⟩], fs.room - 2 * pre.length - 2⟩) := by
        simp [ODTEditor.SaveAs, hd, hsplit, happ]
      rw [hfile]
      by_cases hr : fs.room = 2 * pre.length + 2
      · have h0 : fs.room - 2 * pre.length - 2 = 0 := by omega
        simp [ZipWriter.Close, h0, hr]
      · have h0 : fs.room - 2 * pre.length - 2 ≠ 0 := by omega
        simp [ZipWriter.Close, h0, hr]
    · intro hr hf
      rw [saveLoop_cannotCreate e f post _ (by simp; omega) hf] at happ
      have h0 : fs.room - 2 * pre.length = 0 := by omega
      simp [ODTEditor.SaveAs, hd, hsplit, happ, ZipWriter.Close, h0]
    · intro hr hf
      obtain ⟨h1, h2⟩ := saveLoop_cannotWrite e f post
        ⟨pre.map e.written, fs.room - 2 * pre.length⟩ (by simp; omega) hf
      rw [← happ] at h1 h2
      simp [ODTEditor.SaveAs, hd, hsplit, h1, h2, ZipWriter.Close]
  · intro hd herr
    have herr2 : (e.saveLoop (e.source outputFilename) ⟨[], fs.room⟩).1 ≠ none := by
      simpa [ODTEditor.SaveAs, hd] using herr
    exact saveLoop_failure e _ _ herr2

/-- C15, amended, on `brokenEditor`: the picture is the first entry that
cannot be copied, and the output path holds the package of the one entry
before it. -/
theorem saveAs_failure_leaves_partial_package_witness :
    (brokenEditor.SaveAs sampleFiles "out.odt").1 =
      some (.copyingFile "Pictures/img1.png" (.cannotOpen "Pictures/img1.png")) ∧
    (brokenEditor.SaveAs sampleFiles "out.odt").2.files "out.odt" =
      some (.package [⟨"mimetype", "application/vnd.oasis.opendocument.text"⟩]) :=
  have h := ((saveAs_failure_leaves_partial_package brokenEditor sampleFiles "out.odt").2.2.1
    (by decide)
    [⟨"mimetype", some ⟨"application/vnd.oasis.opendocument.text", false⟩⟩]
    ⟨"Pictures/img1.png", none⟩
    [⟨"content.xml", some ⟨"<office:document-content>old</office:document-content>", false⟩⟩]
    (by decide) (by decide) (by decide)).1 (by decide) (by decide)
  ⟨h.1, h.2.trans (by decide)⟩

/-! ## The claim on the style inventory -/

theorem skipElement_length (toks : List Token) :
    ∀ (depth : Nat) (rest : List Token), skipElement depth toks = some rest →
      rest.length < toks.length := by
  induction toks with
  | nil => intro depth rest h; simp [skipElement] at h
  | cons tok tail ih =>
    intro depth rest h
    cases tok with
    | StartElement n a =>
      have := ih (depth + 1) rest (by simpa [skipElement] using h)
      simp; omega
    | EndElement n =>
      cases depth with
      | zero =>
        simp only [skipElement, Option.some.injEq] at h
        subst h
        simp
      | succ k =>
        have := ih k rest (by simpa [skipElement] using h)
        simp; omega
    | CharData t =>
      have := ih depth rest (by simpa [skipElement] using h)
      simp; omega
    | Comment t =>
      have := ih depth rest (by simpa [skipElement] using h)
      simp; omega
    | ProcInst t i =>
      have := ih depth rest (by simpa [skipElement] using h)
      simp; omega
    | Directive t =>
      have := ih depth rest (by simpa [skipElement] using h)
      simp; omega

theorem skipElement_balanced {body : List Token} (hb : Balanced body) :
    ∀ (depth : Nat) (rest : List Token),
      skipElement depth (body ++ rest) = skipElement depth rest := by
  induction hb with
  | nil => intro depth rest; rfl
  | charData t _ ih => intro depth rest; simpa [skipElement] using ih depth rest
  | comment t _ ih => intro depth rest; simpa [skipElement] using ih depth rest
  | procInst t i _ ih => intro depth rest; simpa [skipElement] using ih depth rest
  | directive t _ ih => intro depth rest; simpa [skipElement] using ih depth rest
  | element name attr _ _ _ ih1 ih2 =>
    intro depth rest
    simp only [List.cons_append, List.append_assoc, skipElement]
    rw [ih1 (depth + 1)]
    simp only [skipElement]
    exact ih2 depth rest

theorem decodeElement_pending (d : Decoder) (start : StartElement) :
    (d.DecodeElement start).2.pending.length ≤ d.pending.length := by
  unfold Decoder.DecodeElement
  split
  · exact Nat.le_refl _
  · split
    · simp
    · rename_i rest h
      exact Nat.le_of_lt (skipElement_length _ _ _ h)

theorem extractStep_pending (tok : Token) (d : Decoder) (m : List (String × StyleInfo)) :
    (extractStep tok d m).1.pending.length ≤ d.pending.length := by
  cases tok with
  | StartElement n a =>
    simp only [extractStep]
    split
    · have := decodeElement_pending d ⟨n, a⟩
      split <;> simp_all
    · exact Nat.le_refl _
  | _ => exact Nat.le_refl _

theorem extractLoop_cons (f : Nat) (tok : Token) (rest : List Token) (ae : XmlError)
    (m : List (String × StyleInfo)) :
    extractLoop (f + 1) ⟨tok :: rest, ae⟩ m =
      extractLoop f (extractStep tok ⟨rest, ae⟩ m).1 (extractStep tok ⟨rest, ae⟩ m).2 := by
  simp [extractLoop, Decoder.Token]

/-- With fuel for every pending token the loop of `extractFromFile` ends, and
its result does not depend on the fuel. -/
theorem extractLoop_fuel (n : Nat) :
    ∀ (d : Decoder) (m : List (String × StyleInfo)) (f1 f2 : Nat),
      d.pending.length ≤ n → d.pending.length < f1 → d.pending.length < f2 →
      extractLoop f1 d m = extractLoop f2 d m ∧ (extractLoop f1 d m).isSome = true := by
  induction n with
  | zero =>
    intro d m f1 f2 hn h1 h2
    obtain ⟨a, rfl⟩ : ∃ a, f1 = a + 1 := ⟨f1 - 1, by omega⟩
    obtain ⟨b, rfl⟩ : ∃ b, f2 = b + 1 := ⟨f2 - 1, by omega⟩
    obtain ⟨pending, ae⟩ := d
    have : pending = [] := List.length_eq_zero.mp (by simpa using hn)
    subst this
    simp [extractLoop, Decoder.Token]
  | succ k ih =>
    intro d m f1 f2 hn h1 h2
    obtain ⟨a, rfl⟩ : ∃ a, f1 = a + 1 := ⟨f1 - 1, by omega⟩
    obtain ⟨b, rfl⟩ : ∃ b, f2 = b + 1 := ⟨f2 - 1, by omega⟩
    obtain ⟨pending, ae⟩ := d
    cases pending with
    | nil => simp [extractLoop, Decoder.Token]
    | cons tok rest =>
      simp only [List.length_cons] at hn h1 h2
      have hstep := extractStep_pending tok ⟨rest, ae⟩ m
      rw [extractLoop_cons, extractLoop_cons]
      exact ih _ _ a b (by simp at hstep; omega) (by simp at hstep; omega)
        (by simp at hstep; omega)

theorem extractStyles_cons (tok : Token) (rest : List Token) (ae : XmlError)
    (m : List (String × StyleInfo)) :
    extractStyles ⟨tok :: rest, ae⟩ m =
      extractStyles (extractStep tok ⟨rest, ae⟩ m).1 (extractStep tok ⟨rest, ae⟩ m).2 := by
  have hstep := extractStep_pending tok ⟨rest, ae⟩ m
  simp only [extractStyles, List.length_cons]
  rw [extractLoop_cons]
  have h := extractLoop_fuel rest.length (extractStep tok ⟨rest, ae⟩ m).1
    (extractStep tok ⟨rest, ae⟩ m).2 (rest.length + 1)
    ((extractStep tok ⟨rest, ae⟩ m).1.pending.length + 1) (by simpa using hstep)
    (by simp at hstep; omega) (by omega)
  have h2 := h.2
  rw [h.1] at h2 ⊢
  cases hr : extractLoop ((extractStep tok ⟨rest, ae⟩ m).1.pending.length + 1)
      (extractStep tok ⟨rest, ae⟩ m).1 (extractStep tok ⟨rest, ae⟩ m).2 with
  | none => simp [hr] at h2
  | some v => simp

theorem mappingGet_set_same {β : Type} (m : List (String × β)) (key : String) (info : β) :
    mappingGet (mappingSet m key info) key = some info := by
  induction m with
  | nil => simp [mappingSet, mappingGet]
  | cons p rest ih =>
    obtain ⟨k, v⟩ := p
    by_cases h : k = key
    · simp [mappingSet, mappingGet, h]
    · simp [mappingSet, mappingGet, h, ih]

theorem mappingGet_set_other {β : Type} (m : List (String × β)) (key other : String)
    (info : β) (h : other ≠ key) :
    mappingGet (mappingSet m key info) other = mappingGet m other := by
  induction m with
  | nil => simp [mappingSet, mappingGet, Ne.symm h]
  | cons p rest ih =>
    obtain ⟨k, v⟩ := p
    by_cases hk : k = key
    · subst hk
      simp [mappingSet, mappingGet, Ne.symm h]
    · by_cases ho : k = other
      · subst ho
        simp [mappingSet, mappingGet, hk]
      · simp [mappingSet, mappingGet, hk, ho, ih]

theorem decodeStyleAttrs_eq (attrs : List Attr) (s : Style) :
    decodeStyleAttrs attrs s =
      ⟨attrValue attrs "name" s.Name, attrValue attrs "display-name" s.DisplayName,
        attrValue attrs "family" s.Family⟩ := by
  induction attrs generalizing s with
  | nil => rfl
  | cons a rest ih =>
    simp only [decodeStyleAttrs, ih, attrValue, List.foldl_cons]
    by_cases h1 : a.Name.Local = "name"
    · simp [h1]
    · by_cases h2 : a.Name.Local = "display-name"
      · simp [h2]
      · by_cases h3 : a.Name.Local = "family"
        · simp [h3]
        · simp [h1, h2, h3]

theorem extractStyles_nil (ae : XmlError) (m : List (String × StyleInfo)) :
    extractStyles ⟨[], ae⟩ m = m := by
  simp [extractStyles, extractLoop, Decoder.Token]

/-- Tokens among which no namespaced `style` element starts leave the mapping as it is. -/
theorem extractStyles_no_style (post : List Token) (ae : XmlError)
    (m : List (String × StyleInfo))
    (h : ∀ (n : Name) (a : List Attr), Token.StartElement n a ∈ post →
      ¬ (n.Local = "style" ∧ n.Space ≠ "")) :
    extractStyles ⟨post, ae⟩ m = m := by
  induction post with
  | nil => exact extractStyles_nil ae m
  | cons tok rest ih =>
    have hrest : extractStep tok ⟨rest, ae⟩ m = (⟨rest, ae⟩, m) := by
      cases tok with
      | StartElement n a =>
        have := h n a (by simp)
        simp only [extractStep, this, if_false]
      | _ => rfl
    rw [extractStyles_cons, hrest]
    exact ih (fun n a hmem => h n a (by simp [hmem]))

theorem skipElement_suffix (toks : List Token) :
    ∀ (depth : Nat) (rest : List Token), skipElement depth toks = some rest →
      ∀ t ∈ rest, t ∈ toks := by
  induction toks with
  | nil => intro depth rest h; simp [skipElement] at h
  | cons tok tail ih =>
    intro depth rest h t ht
    cases tok with
    | StartElement n a =>
      exact List.mem_cons_of_mem _ (ih (depth + 1) rest (by simpa [skipElement] using h) t ht)
    | EndElement n =>
      cases depth with
      | zero =>
        simp only [skipElement, Option.some.injEq] at h
        subst h
        exact List.mem_cons_of_mem _ ht
      | succ k =>
        exact List.mem_cons_of_mem _ (ih k rest (by simpa [skipElement] using h) t ht)
    | CharData s =>
      exact List.mem_cons_of_mem _ (ih depth rest (by simpa [skipElement] using h) t ht)
    | Comment s =>
      exact List.mem_cons_of_mem _ (ih depth rest (by simpa [skipElement] using h) t ht)
    | ProcInst s i =>
      exact List.mem_cons_of_mem _ (ih depth rest (by simpa [skipElement] using h) t ht)
    | Directive s =>
      exact List.mem_cons_of_mem _ (ih depth rest (by simpa [skipElement] using h) t ht)

theorem decodeElement_suffix (d : Decoder) (start : StartElement) :
    ∀ t ∈ (d.DecodeElement start).2.pending, t ∈ d.pending := by
  unfold Decoder.DecodeElement
  split
  · exact fun t ht => ht
  · split
    · intro t ht
      simp at ht
    · rename_i rest h
      exact skipElement_suffix _ _ _ h

theorem extractStep_suffix (tok : Token) (d : Decoder) (m : List (String × StyleInfo)) :
    ∀ t ∈ (extractStep tok d m).1.pending, t ∈ d.pending := by
  cases tok with
  | StartElement n a =>
    simp only [extractStep]
    split
    · have := decodeElement_suffix d ⟨n, a⟩
      split <;> simp_all
    · exact fun t ht => ht
  | _ => exact fun t ht => ht

theorem recordStyle_other (m : List (String × StyleInfo)) (style : Style) (key : String)
    (h : style.Name ≠ key) : mappingGet (recordStyle m style) key = mappingGet m key := by
  unfold recordStyle
  split
  · exact mappingGet_set_other _ _ _ _ (Ne.symm h)
  · rfl

theorem extractStep_other (tok : Token) (d : Decoder) (m : List (String × StyleInfo))
    (key : String)
    (h : ∀ (n : Name) (a : List Attr), tok = .StartElement n a →
      n.Local = "style" ∧ n.Space ≠ "" → attrValue a "name" "" ≠ key) :
    mappingGet (extractStep tok d m).2 key = mappingGet m key := by
  cases tok with
  | StartElement n a =>
    simp only [extractStep]
    split
    · rename_i hstyle
      have hne := h n a rfl hstyle
      cases hs : skipElement 0 d.pending with
      | none => simp [Decoder.DecodeElement, hstyle.1, hs]
      | some rest =>
        simp only [Decoder.DecodeElement, hstyle.1, hs, ne_eq, not_true_eq_false, if_false]
        apply recordStyle_other
        rw [decodeStyleAttrs_eq]
        exact hne
    · rfl
  | _ => rfl

/-- The loop of `extractFromFile` changes the entry of a name only at a
namespaced `style` element of that name. -/
theorem extractStyles_other (key : String) (n : Nat) :
    ∀ (d : Decoder) (m : List (String × StyleInfo)), d.pending.length ≤ n →
      (∀ (nm : Name) (a : List Attr), Token.StartElement nm a ∈ d.pending →
        nm.Local = "style" ∧ nm.Space ≠ "" → attrValue a "name" "" ≠ key) →
      mappingGet (extractStyles d m) key = mappingGet m key := by
  induction n with
  | zero =>
    intro d m hn _
    obtain ⟨pending, ae⟩ := d
    have : pending = [] := List.length_eq_zero.mp (by simpa using hn)
    subst this
    rw [extractStyles_nil]
  | succ k ih =>
    intro d m hn h
    obtain ⟨pending, ae⟩ := d
    cases pending with
    | nil => rw [extractStyles_nil]
    | cons tok rest =>
      rw [extractStyles_cons]
      have hlen := extractStep_pending tok ⟨rest, ae⟩ m
      have hsuf := extractStep_suffix tok ⟨rest, ae⟩ m
      rw [ih _ _ (by simp at hn hlen; omega)
        (fun nm a hmem => h nm a (List.mem_cons_of_mem _ (hsuf _ hmem)))]
      exact extractStep_other tok ⟨rest, ae⟩ m key
        (fun nm a heq => h nm a (by simp [heq]))

/-- C17: when the loop of `extractFromFile` is at a namespaced `style` element,
it goes on behind the element with a mapping that holds, under the name of the
element if that is not empty, its family and as display name its
`display-name` attribute, or the name when that attribute is absent or empty;
the entries of all other names are as before, and an element with an empty
name leaves the mapping as it was. If no further namespaced `style` element
follows, this mapping is the result, and if none of the same name follows, the
result holds this entry under the name. For an entry that is found and can be
read, `extractFromFile` returns no error and the mapping the loop gives on the
tokens of the entry. -/
theorem extractFromFile_records_style (mapping : List (String × StyleInfo)) (space : String)
    (attrs : List Attr) (body post : List Token) (endName : Name) (ae : XmlError)
    (hspace : space ≠ "") (hbody : Balanced body) :
    extractStyles
        ⟨.StartElement ⟨space, "style"⟩ attrs :: (body ++ .EndElement endName :: post), ae⟩
        mapping =
      extractStyles ⟨post, ae⟩ (recordStyle mapping (decodeStyleAttrs attrs ⟨"", "", ""⟩)) ∧
    ((∀ (n : Name) (a : List Attr), Token.StartElement n a ∈ post →
        ¬ (n.Local = "style" ∧ n.Space ≠ "")) →
      extractStyles
          ⟨.StartElement ⟨space, "style"⟩ attrs :: (body ++ .EndElement endName :: post), ae⟩
          mapping =
        recordStyle mapping (decodeStyleAttrs attrs ⟨"", "", ""⟩)) ∧
    (attrValue attrs "name" "" ≠ "" →
      mappingGet (recordStyle mapping (decodeStyleAttrs attrs ⟨"", "", ""⟩))
          (attrValue attrs "name" "") =
        some ⟨if attrValue attrs "display-name" "" = "" then attrValue attrs "name" ""
              else attrValue attrs "display-name" "",
          attrValue attrs "family" ""⟩ ∧
      ∀ other, other ≠ attrValue attrs "name" "" →
        mappingGet (recordStyle mapping (decodeStyleAttrs attrs ⟨"", "", ""⟩)) other =
          mappingGet mapping other) ∧
    (attrValue attrs "name" "" = "" →
      recordStyle mapping (decodeStyleAttrs attrs ⟨"", "", ""⟩) = mapping) ∧
    (∀ (newDecoder : String → Decoder) (reader : List ZipFile) (filename : String)
        (file : ZipFile) (data : String),
      findFile reader filename = some file → file.content = some data →
      extractFromFile newDecoder reader filename mapping =
        (none, extractStyles (newDecoder data) mapping)) ∧
    (attrValue attrs "name" "" ≠ "" →
      (∀ (n : Name) (a : List Attr), Token.StartElement n a ∈ post →
        n.Local = "style" ∧ n.Space ≠ "" → attrValue a "name" "" ≠ attrValue attrs "name" "") →
      mappingGet
          (extractStyles
            ⟨.StartElement ⟨space, "style"⟩ attrs :: (body ++ .EndElement endName :: post), ae⟩
            mapping)
          (attrValue attrs "name" "") =
        some ⟨if attrValue attrs "display-name" "" = "" then attrValue attrs "name" ""
              else attrValue attrs "display-name" "",
          attrValue attrs "family" ""⟩) := by
  have hskip : skipElement 0 (body ++ .EndElement endName :: post) = some post := by
    rw [skipElement_balanced hbody]
    rfl
  have hrun : extractStyles
        ⟨.StartElement ⟨space, "style"⟩ attrs :: (body ++ .EndElement endName :: post), ae⟩
        mapping =
      extractStyles ⟨post, ae⟩ (recordStyle mapping (decodeStyleAttrs attrs ⟨"", "", ""⟩)) := by
    rw [extractStyles_cons]
    simp [extractStep, Decoder.DecodeElement, hspace, hskip]
  have hget : attrValue attrs "name" "" ≠ "" →
      mappingGet (recordStyle mapping (decodeStyleAttrs attrs ⟨"", "", ""⟩))
          (attrValue attrs "name" "") =
        some ⟨if attrValue attrs "display-name" "" = "" then attrValue attrs "name" ""
              else attrValue attrs "display-name" "",
          attrValue attrs "family" ""⟩ := by
    intro hname
    rw [decodeStyleAttrs_eq]
    simp only [recordStyle, hname, ne_eq, not_false_eq_true, if_true]
    exact mappingGet_set_same _ _ _
  refine ⟨hrun, ?_, ?_, ?_, ?_, ?_⟩
  rotate_left 4
  · intro hname hlater
    rw [hrun, extractStyles_other _ post.length ⟨post, ae⟩ _ (Nat.le_refl _) hlater]
    exact hget hname
  · intro hno
    rw [hrun, extractStyles_no_style post ae _ hno]
  · intro hname
    rw [decodeStyleAttrs_eq]
    simp only [recordStyle, hname, ne_eq, not_false_eq_true, if_true]
    exact ⟨mappingGet_set_same _ _ _, fun other ho => mappingGet_set_other _ _ _ _ ho⟩
  · intro hname
    rw [decodeStyleAttrs_eq]
    simp [recordStyle, hname]
  · intro newDecoder reader filename file data hfind hdata
    simp [extractFromFile, hfind, content_eq_some file data hdata]

/-- C17, on the second style of `stylesTokens`, `Emphasis` of family `text`
without a display name, scanned with `Heading_20_1` in the mapping: the
mapping afterwards has both entries. -/
theorem extractFromFile_records_style_witness :
    extractStyles
        ⟨.StartElement ⟨styleNS, "style"⟩
            [⟨⟨styleNS, "name"⟩, "Emphasis"⟩, ⟨⟨styleNS, "family"⟩, "text"⟩] ::
          ([] ++ .EndElement ⟨styleNS, "style"⟩ ::
            [.EndElement ⟨"urn:oasis:names:tc:opendocument:xmlns:office:1.0", "styles"⟩]), .EOF⟩
        [("Heading_20_1", ⟨"Heading 1", "paragraph"⟩)] =
      [("Heading_20_1", ⟨"Heading 1", "paragraph"⟩), ("Emphasis", ⟨"Emphasis", "text"⟩)] :=
  ((extractFromFile_records_style [("Heading_20_1", ⟨"Heading 1", "paragraph"⟩)] styleNS
    [⟨⟨styleNS, "name"⟩, "Emphasis"⟩, ⟨⟨styleNS, "family"⟩, "text"⟩] []
    [.EndElement ⟨"urn:oasis:names:tc:opendocument:xmlns:office:1.0", "styles"⟩]
    ⟨styleNS, "style"⟩ .EOF (by decide) .nil).2.1 (by
      intro n a hmem
      simp at hmem)).trans (by decide)

/-! ## The claim on the mapping file -/

/-- C18, evaluated: in the file `Bold,Strong Emphasis` / `Italic` /
`Superscript, Raised` the line with one column is not skipped; `Read` refuses
it for its number of fields and `LoadStyleMappings` returns the error for line
2, with only `Bold` in the map. In the file `# character styles` /
`Bold,Strong Emphasis` the comment line fixes the number of fields at one, and
the well-formed line after it ends the load with the error for line 2 and an
empty map. When all lines have two columns, comments and unknown kinds are
skipped and the rest is loaded. -/
theorem loadStyleMappings_short_line_is_fatal :
    NewLibreOfficeConverter.LoadStyleMappings (some shortLineRecords) =
      (some (.readingLine 2), ⟨[("Bold", "Strong Emphasis")], ⟨0, []⟩⟩) ∧
    NewLibreOfficeConverter.LoadStyleMappings (some commentFirstRecords) =
      (some (.readingLine 2), ⟨[], ⟨0, []⟩⟩) ∧
    NewLibreOfficeConverter.LoadStyleMappings (some evenRecords) =
      (none, ⟨[("Bold", "Strong Emphasis"), ("Italic", "Emphasis")], ⟨0, []⟩⟩) := by
  decide

/-- The fuel `LoadStyleMappings` gives its loop is enough. -/
theorem loadLoop_isSome (f : Nat) :
    ∀ (r : CsvReader) (lineCount : Nat) (m : List (String × String)),
      r.records.length < f → (loadLoop f r lineCount m).isSome = true := by
  induction f with
  | zero => intro r lineCount m h; omega
  | succ k ih =>
    intro r lineCount m h
    obtain ⟨records, fpr⟩ := r
    cases records with
    | nil => simp [loadLoop, CsvReader.Read]
    | cons record rest =>
      simp only [List.length_cons] at h
      have hk : rest.length < k := by omega
      by_cases hf : fpr > 0
      · by_cases hl : record.length ≠ fpr
        · simp [loadLoop, CsvReader.Read, hf, hl]
        · simp only [loadLoop, CsvReader.Read, hf, hl, if_true, if_false]
          split_ifs <;> exact ih _ _ _ hk
      · simp only [loadLoop, CsvReader.Read, hf, if_false]
        split_ifs <;> exact ih _ _ _ hk
/-! ## The claim on renaming in a file -/

/-- With fuel for every pending token `UnmarshalXML` returns, and it leaves no
more tokens pending than it found. -/
theorem unmarshalLoop_total (f : Nat) :
    ∀ (n : Node) (c : String) (d : Decoder), d.pending.length < f →
      ∃ (r : Result Node) (d2 : Decoder), unmarshalLoop f n c d = some (r, d2) ∧
        d2.pending.length ≤ d.pending.length := by
  induction f with
  | zero => intro n c d h; omega
  | succ k ih =>
    intro n c d h
    obtain ⟨pending, ae⟩ := d
    cases pending with
    | nil =>
      rw [unmarshalLoop_nil]
      split
      · exact ⟨_, _, rfl, Nat.le_refl _⟩
      · exact ⟨_, _, rfl, Nat.le_refl _⟩
    | cons tok rest =>
      simp only [List.length_cons] at h ⊢
      have hk : rest.length < k := by omega
      cases tok with
      | StartElement name attr =>
        rw [unmarshalLoop_start]
        obtain ⟨r1, d2, h1, hle⟩ := ih ⟨name, attr, "", []⟩ "" ⟨rest, ae⟩ hk
        rw [h1]
        cases r1 with
        | error err => exact ⟨_, _, rfl, by simp at hle ⊢; omega⟩
        | ok child =>
          obtain ⟨r3, d3, h3, hle3⟩ :=
            ih ⟨n.XMLName, n.Attrs, n.Content, n.Children ++ [child]⟩ c d2
              (by simp at hle; omega)
          exact ⟨r3, d3, h3, by simp at hle; omega⟩
      | EndElement name =>
        rw [unmarshalLoop_end]
        exact ⟨_, _, rfl, by simp⟩
      | CharData t =>
        rw [unmarshalLoop_charData]
        obtain ⟨r, d2, h2, hle⟩ := ih n (c ++ t) ⟨rest, ae⟩ hk
        exact ⟨r, d2, h2, by simp at hle; omega⟩
      | Comment t =>
        rw [unmarshalLoop_skip _ _ _ _ _ _ (Or.inl ⟨t, rfl⟩)]
        obtain ⟨r, d2, h2, hle⟩ := ih n c ⟨rest, ae⟩ hk
        exact ⟨r, d2, h2, by simp at hle; omega⟩
      | ProcInst t i =>
        rw [unmarshalLoop_skip _ _ _ _ _ _ (Or.inr (Or.inl ⟨t, i, rfl⟩))]
        obtain ⟨r, d2, h2, hle⟩ := ih n c ⟨rest, ae⟩ hk
        exact ⟨r, d2, h2, by simp at hle; omega⟩
      | Directive t =>
        rw [unmarshalLoop_skip _ _ _ _ _ _ (Or.inr (Or.inr ⟨t, rfl⟩))]
        obtain ⟨r, d2, h2, hle⟩ := ih n c ⟨rest, ae⟩ hk
        exact ⟨r, d2, h2, by simp at hle; omega⟩

/-- C19: when the input file is parsed and no style attribute of the parsed
tree holds the old name, `RenameStyleInFile` returns the error that names the
style as not found, and all files are as before the call: the output path is
not created, truncated or written. -/
theorem renameStyleInFile_style_not_found (sr : StyleRenamer) (fs : FileSystem)
    (inputPath outputPath : String) (file : FileData) (root : Node) (d2 : Decoder)
    (hopen : fs.files inputPath = some file)
    (hparse : file.decoder.Decode Node.zero = (.ok root, d2))
    (habsent : ∀ (p : List Nat) (n : Node) (a : Attr), nodeAt root p = some n → a ∈ n.Attrs →
      sr.isStyleAttribute a.Name.Local = true → a.Value ≠ sr.OldStyleName) :
    sr.RenameStyleInFile fs inputPath outputPath =
        (some (.styleNotFound sr.OldStyleName), fs) ∧
    (sr.RenameStyleInFile fs inputPath outputPath).2.files outputPath = fs.files outputPath := by
  have hb : (sr.updateStyleReferences root).2 = false := by
    rw [← Bool.not_eq_true, update_snd_iff]
    rintro ⟨p, n, a, hp, ha, hr⟩
    exact habsent p n a hp ha ((isRef_iff sr a).mp hr).1 ((isRef_iff sr a).mp hr).2
  have h : sr.RenameStyleInFile fs inputPath outputPath =
      (some (.styleNotFound sr.OldStyleName), fs) := by
    simp [StyleRenamer.RenameStyleInFile, hopen, hparse, hb]
  exact ⟨h, by rw [h]⟩

/-- C19, on `footerFiles`: `content.xml` has no style `Header 1`, and
`content.xml.new` keeps the file it had. -/
theorem renameStyleInFile_style_not_found_witness :
    (⟨"Header 1", "headA"⟩ : StyleRenamer).RenameStyleInFile footerFiles "content.xml"
        "content.xml.new" = (some (.styleNotFound "Header 1"), footerFiles) ∧
    ((⟨"Header 1", "headA"⟩ : StyleRenamer).RenameStyleInFile footerFiles "content.xml"
        "content.xml.new").2.files "content.xml.new" = footerFiles.files "content.xml.new" :=
  renameStyleInFile_style_not_found ⟨"Header 1", "headA"⟩ footerFiles "content.xml"
    "content.xml.new" (.xml footerDoc.tokens .EOF) footerDoc ⟨[], .EOF⟩ (by decide) (by decide)
    (by
      intro p n a hp ha hs hv
      have hf : ((⟨"Header 1", "headA"⟩ : StyleRenamer).updateStyleReferences footerDoc).2 =
          false := by decide
      rw [← Bool.not_eq_true, update_snd_iff] at hf
      exact hf ⟨p, n, a, hp, ha, (isRef_iff _ a).mpr ⟨hs, hv⟩⟩)

/-! ## Idempotence of the rewrite and the text written by the serializer -/

/-- C21: when the old name differs from the new name, after one call of
`updateStyleReferences` no style attribute at any node of the tree holds the
old name, and a second call with the same renamer returns false and leaves
the tree exactly as the first call left it. -/
theorem updateStyleReferences_idempotent (sr : StyleRenamer) (t : Node)
    (hne : sr.OldStyleName ≠ sr.NewStyleName) :
    (∀ (p : List Nat) (n : Node) (a : Attr),
      nodeAt (sr.updateStyleReferences t).1 p = some n → a ∈ n.Attrs →
      sr.isStyleAttribute a.Name.Local = true → a.Value ≠ sr.OldStyleName) ∧
    sr.updateStyleReferences (sr.updateStyleReferences t).1 =
      ((sr.updateStyleReferences t).1, false) := by
  have hclean : ∀ (p : List Nat) (n : Node) (a : Attr),
      nodeAt (sr.updateStyleReferences t).1 p = some n → a ∈ n.Attrs →
      sr.isStyleAttribute a.Name.Local = true → a.Value ≠ sr.OldStyleName := by
    intro p n a hp ha hs
    rw [nodeAt_update] at hp
    cases h0 : nodeAt t p with
    | none => simp [h0] at hp
    | some n0 =>
      simp only [h0, Option.map_some', Option.some.injEq] at hp
      subst hp
      rw [update_fst] at ha
      simp only [List.mem_map] at ha
      obtain ⟨a0, _, rfl⟩ := ha
      by_cases hr : sr.isRef a0 = true
      · simp only [StyleRenamer.renameAttr, hr, if_true]
        exact fun h => hne h.symm
      · have hr2 : sr.isRef a0 = false := by simpa using hr
        rw [renameAttr_of_not_isRef sr a0 hr2] at hs ⊢
        intro hv
        exact hr ((isRef_iff sr a0).mpr ⟨hs, hv⟩)
  refine ⟨hclean, ?_⟩
  have hb : (sr.updateStyleReferences (sr.updateStyleReferences t).1).2 = false := by
    rw [← Bool.not_eq_true, update_snd_iff]
    rintro ⟨p, n, a, hp, ha, hr⟩
    exact hclean p n a hp ha ((isRef_iff sr a).mp hr).1 ((isRef_iff sr a).mp hr).2
  exact Prod.ext (update_fst_of_snd_false sr _ hb) hb

/-- C21, on `headerDoc` with the rename of `Header 1` to `headA`. -/
theorem updateStyleReferences_idempotent_witness :
    (∀ (p : List Nat) (n : Node) (a : Attr),
      nodeAt (headerRenamer.updateStyleReferences headerDoc).1 p = some n → a ∈ n.Attrs →
      headerRenamer.isStyleAttribute a.Name.Local = true →
      a.Value ≠ headerRenamer.OldStyleName) ∧
    headerRenamer.updateStyleReferences (headerRenamer.updateStyleReferences headerDoc).1 =
      ((headerRenamer.updateStyleReferences headerDoc).1, false) :=
  updateStyleReferences_idempotent headerRenamer headerDoc (by decide)

/-- C22, as stated, fails: `unnamedLeaf` has no children and a `Content` that
is not empty, and `MarshalXML` writes no text for it: the encoder refuses its
start tag and `MarshalXML` returns the error. -/
theorem marshalXML_unnamed_leaf_writes_nothing :
    unnamedLeaf.Children = [] ∧ unnamedLeaf.Content ≠ "" ∧
    unnamedLeaf.MarshalXML ⟨[], []⟩ = .error (.Encode "xml: start tag with no name") := by
  decide

/-- C22, amended: for a Node whose element names, its own and those of its
descendants, are not empty, `MarshalXML` writes the `Content` of the node as
one character-data token directly after the start tag, which carries the
attributes that have a local name, exactly when the node has no children and
its `Content` is not empty; for a node without children and with empty
`Content` the start tag is followed by the end tag, and for a node with at
least one child the start tag is followed by what is written for the children
and nothing of its `Content` is written. -/
theorem marshalXML_text_only_for_leaf (n : Node) (e : Encoder) (hn : n.named = true) :
    (n.Children = [] → n.Content ≠ "" →
      n.MarshalXML e = .ok ⟨e.out ++
        [.StartElement n.XMLName (writtenAttrs n.Attrs), .CharData n.Content, .EndElement n.XMLName],
        e.tags⟩) ∧
    (n.Children = [] → n.Content = "" →
      n.MarshalXML e = .ok ⟨e.out ++
        [.StartElement n.XMLName (writtenAttrs n.Attrs), .EndElement n.XMLName], e.tags⟩) ∧
    (n.Children ≠ [] →
      n.MarshalXML e = .ok ⟨e.out ++ (.StartElement n.XMLName (writtenAttrs n.Attrs) ::
        ((n.Children.map Node.tokens).flatten ++ [.EndElement n.XMLName])), e.tags⟩) := by
  rw [marshal_tokens.1 n hn, tokens_form]
  refine ⟨?_, ?_, ?_⟩
  · intro hc ht
    have hlen : n.Content.length > 0 := by
      rcases Nat.eq_zero_or_pos n.Content.length with h | h
      · exact absurd (string_eq_empty_of_length n.Content (by omega)) ht
      · exact h
    simp [Node.textTokens, hc, hlen]
  · intro hc ht
    simp [Node.textTokens, hc, ht]
  · intro hc
    have : n.Children.length ≠ 0 := fun h => hc (List.length_eq_zero.mp h)
    simp [Node.textTokens, this]

/-- C22, amended, on `headerCell`, a leaf with the text `x`. -/
theorem marshalXML_text_only_for_leaf_witness :
    headerCell.MarshalXML ⟨[], []⟩ = .ok ⟨[] ++
      [.StartElement headerCell.XMLName (writtenAttrs headerCell.Attrs), .CharData headerCell.Content,
        .EndElement headerCell.XMLName], []⟩ :=
  (marshalXML_text_only_for_leaf headerCell ⟨[], []⟩ (by decide)).1 (by decide) (by decide)

/-! ## The claims on direct formatting -/

theorem characterStyleExists_iff (l : List ODTStyle) (styleName : String) :
    characterStyleExists l styleName = true ↔
      ∃ s ∈ l, s.Name = styleName ∧ s.Family = "text" := by
  induction l with
  | nil => simp [characterStyleExists]
  | cons s rest ih =>
    by_cases h : s.Name = styleName ∧ s.Family = "text"
    · simp [characterStyleExists, h]
    · simp only [characterStyleExists, h, if_false, ih, List.mem_cons, exists_eq_or_imp,
        false_or]

/-- C23: after `ensureCharacterStyleExists` the automatic styles hold a style
with the given name and family `text`. If such a style was there before, the
list is unchanged; otherwise the earlier styles are unchanged and in their
order and exactly one style is appended, with the name, family `text` and the
text properties of the formatting type: `font-weight` bold for Bold,
`font-style` italic for Italic, both for Bold Italic, `text-position`
`super 58%` for Superscript and `sub 58%` for Subscript. A second call with
the same arguments changes nothing. -/
theorem ensureCharacterStyleExists_once (loc : LibreOfficeConverter)
    (styles : ODTAutomaticStyles) (styleName formattingType : String) :
    (∃ s ∈ (loc.ensureCharacterStyleExists styles styleName formattingType).Styles,
      s.Name = styleName ∧ s.Family = "text") ∧
    ((∃ s ∈ styles.Styles, s.Name = styleName ∧ s.Family = "text") →
      loc.ensureCharacterStyleExists styles styleName formattingType = styles) ∧
    ((¬ ∃ s ∈ styles.Styles, s.Name = styleName ∧ s.Family = "text") →
      (loc.ensureCharacterStyleExists styles styleName formattingType).Styles =
        styles.Styles ++ [⟨styleName, "text", some (textPropsFor formattingType)⟩]) ∧
    (textPropsFor "Bold" = ⟨"bold", "", ""⟩ ∧ textPropsFor "Italic" = ⟨"", "italic", ""⟩ ∧
      textPropsFor "Bold Italic" = ⟨"bold", "italic", ""⟩ ∧
      textPropsFor "Superscript" = ⟨"", "", "super 58%"⟩ ∧
      textPropsFor "Subscript" = ⟨"", "", "sub 58%"⟩) ∧
    loc.ensureCharacterStyleExists
        (loc.ensureCharacterStyleExists styles styleName formattingType) styleName
        formattingType =
      loc.ensureCharacterStyleExists styles styleName formattingType := by
  have hpresent : (∃ s ∈ styles.Styles, s.Name = styleName ∧ s.Family = "text") →
      loc.ensureCharacterStyleExists styles styleName formattingType = styles := by
    intro h
    simp [LibreOfficeConverter.ensureCharacterStyleExists,
      (characterStyleExists_iff _ _).mpr h]
  have habsent : (¬ ∃ s ∈ styles.Styles, s.Name = styleName ∧ s.Family = "text") →
      (loc.ensureCharacterStyleExists styles styleName formattingType).Styles =
        styles.Styles ++ [⟨styleName, "text", some (textPropsFor formattingType)⟩] := by
    intro h
    have hf : characterStyleExists styles.Styles styleName = false := by
      rw [← Bool.not_eq_true, characterStyleExists_iff]
      exact h
    simp [LibreOfficeConverter.ensureCharacterStyleExists, hf]
  have hafter : ∃ s ∈ (loc.ensureCharacterStyleExists styles styleName formattingType).Styles,
      s.Name = styleName ∧ s.Family = "text" := by
    by_cases h : ∃ s ∈ styles.Styles, s.Name = styleName ∧ s.Family = "text"
    · rw [hpresent h]
      exact h
    · rw [habsent h]
      exact ⟨⟨styleName, "text", some (textPropsFor formattingType)⟩, by simp, rfl, rfl⟩
  refine ⟨hafter, hpresent, habsent, by decide, ?_⟩
  generalize loc.ensureCharacterStyleExists styles styleName formattingType = after at hafter ⊢
  simp [LibreOfficeConverter.ensureCharacterStyleExists, (characterStyleExists_iff _ _).mpr hafter]

/-- C23, on `sampleStyles`: `Strong` is there and nothing changes; `Raised`
for Superscript is absent and is appended. -/
theorem ensureCharacterStyleExists_once_witness :
    NewLibreOfficeConverter.ensureCharacterStyleExists sampleStyles "Strong" "Bold" =
      sampleStyles ∧
    (NewLibreOfficeConverter.ensureCharacterStyleExists sampleStyles "Raised"
        "Superscript").Styles =
      sampleStyles.Styles ++ [⟨"Raised", "text", some (textPropsFor "Superscript")⟩] :=
  ⟨(ensureCharacterStyleExists_once NewLibreOfficeConverter sampleStyles "Strong" "Bold").2.1
      ⟨⟨"Strong", "text", some ⟨"bold", "", ""⟩⟩, by decide, rfl, rfl⟩,
    (ensureCharacterStyleExists_once NewLibreOfficeConverter sampleStyles "Raised"
      "Superscript").2.2.1 (by
        rintro ⟨s, hs, h1, h2⟩
        simp [sampleStyles] at hs
        rcases hs with rfl | rfl
        · simp at h2
        · simp at h1)⟩

/-- C24, evaluated on a span with `style:text-position="super 33%"` and on one
with `style:text-position="sub"`: `processParagraph` classifies them as
Superscript and Subscript, and `replaceDirectFormattingWithStyle`, which
removes the two texts `text-position="super 58%"` and `text-position="sub 58%"`
only, returns them with their text-position attributes, the first with the
style name replaced. -/
theorem replaceDirectFormatting_keeps_text_position :
    classifyFormatting raisedSpan = some "Superscript" ∧
    positionConverter.replaceDirectFormattingWithStyle raisedSpan "Raised" "Superscript" =
      "<text:span text:style-name=\"Raised\" style:text-position=\"super 33%\">2</text:span>" ∧
    stringsContains
      (positionConverter.replaceDirectFormattingWithStyle raisedSpan "Raised" "Superscript")
      "text-position=\"super" = true ∧
    classifyFormatting loweredSpan = some "Subscript" ∧
    positionConverter.replaceDirectFormattingWithStyle loweredSpan "Lowered" "Subscript" =
      loweredSpan ∧
    stringsContains loweredSpan "text-position=\"sub" = true ∧
    (positionConverter.processParagraph ⟨"P1", raisedSpan⟩ ⟨[]⟩).2.1.Content =
      "<text:span text:style-name=\"Raised\" style:text-position=\"super 33%\">2</text:span>" := by
  decide

/-! ## The claim on text extraction -/

theorem stripTags_mem (s : List Char) :
    ∀ (inTag : Bool) (c : Char), c ∈ stripTags s inTag → c ∈ s ∧ c ≠ '<' ∧ c ≠ '>' := by
  induction s with
  | nil => intro inTag c h; simp [stripTags] at h
  | cons x rest ih =>
    intro inTag c h
    simp only [stripTags] at h
    split at h
    · exact ⟨List.mem_cons_of_mem _ (ih _ c h).1, (ih _ c h).2⟩
    · split at h
      · exact ⟨List.mem_cons_of_mem _ (ih _ c h).1, (ih _ c h).2⟩
      · split at h
        · rcases List.mem_cons.mp h with rfl | h2
          · exact ⟨List.mem_cons_self _ _, by assumption, by assumption⟩
          · exact ⟨List.mem_cons_of_mem _ (ih _ c h2).1, (ih _ c h2).2⟩
        · exact ⟨List.mem_cons_of_mem _ (ih _ c h).1, (ih _ c h).2⟩

theorem replaceAllAux_mem (old new : List Char) (s : List Char) :
    ∀ (k : Nat) (c : Char), c ∈ replaceAllAux old new k s → c ∈ s ∨ c ∈ new := by
  induction s with
  | nil => intro k c h; simp [replaceAllAux] at h
  | cons x rest ih =>
    intro k c h
    cases k with
    | succ j =>
      simp only [replaceAllAux] at h
      rcases ih j c h with h1 | h1
      · exact Or.inl (List.mem_cons_of_mem _ h1)
      · exact Or.inr h1
    | zero =>
      simp only [replaceAllAux] at h
      split at h
      · rcases List.mem_append.mp h with h1 | h1
        · exact Or.inr h1
        · rcases ih _ c h1 with h2 | h2
          · exact Or.inl (List.mem_cons_of_mem _ h2)
          · exact Or.inr h2
      · rcases List.mem_cons.mp h with rfl | h1
        · exact Or.inl (List.mem_cons_self _ _)
        · rcases ih _ c h1 with h2 | h2
          · exact Or.inl (List.mem_cons_of_mem _ h2)
          · exact Or.inr h2

theorem stringsReplaceAll_data (s old new : String) (hold : old ≠ "") :
    (stringsReplaceAll s old new).data = replaceAllAux old.data new.data 0 s.data := by
  simp only [stringsReplaceAll, hold, if_false]

theorem stringsReplaceAll_mem (s old new : String) (hold : old ≠ "") (c : Char)
    (h : c ∈ (stringsReplaceAll s old new).data) : c ∈ s.data ∨ c ∈ new.data := by
  rw [stringsReplaceAll_data s old new hold] at h
  exact replaceAllAux_mem _ _ _ _ _ h

theorem replaceAllAux_single (x : Char) (new : List Char) (hx : x ∉ new) (s : List Char) :
    x ∉ replaceAllAux [x] new 0 s := by
  induction s with
  | nil => simp [replaceAllAux]
  | cons c rest ih =>
    simp only [replaceAllAux]
    split
    · simp only [List.length_singleton, Nat.sub_self, List.mem_append, not_or]
      exact ⟨hx, ih⟩
    · rename_i hp
      simp only [List.mem_cons, not_or]
      refine ⟨?_, ih⟩
      intro hxc
      apply hp
      simp [List.isPrefixOf, hxc]

theorem containsSub_iff (s sub : List Char) : containsSub s sub = true ↔ sub <:+: s := by
  induction s with
  | nil => simp [containsSub, List.isEmpty_iff]
  | cons c rest ih =>
    simp only [containsSub, Bool.or_eq_true, ih, List.infix_cons_iff,
      List.isPrefixOf_iff_prefix]

theorem replaceAllAux_length_le (old new : List Char) (hold : old ≠ [])
    (hlen : new.length ≤ old.length) (s : List Char) :
    ∀ k : Nat, (replaceAllAux old new k s).length ≤ s.length - k := by
  induction s with
  | nil => intro k; simp [replaceAllAux]
  | cons c rest ih =>
    intro k
    cases k with
    | succ j =>
      simp only [replaceAllAux, List.length_cons]
      have := ih j
      omega
    | zero =>
      simp only [replaceAllAux]
      split
      · rename_i hp
        have hpre := (List.isPrefixOf_iff_prefix.mp hp).length_le
        have hpos : 0 < old.length := List.length_pos.mpr hold
        have := ih (old.length - 1)
        simp only [List.length_append, List.length_cons] at hpre ⊢
        omega
      · have := ih 0
        simp only [List.length_cons]
        omega

theorem replaceAllAux_length_lt (old new : List Char) (hold : old ≠ [])
    (hlen : new.length < old.length) (s : List Char) (hc : containsSub s old = true) :
    (replaceAllAux old new 0 s).length < s.length := by
  induction s with
  | nil =>
    simp only [containsSub, List.isEmpty_iff] at hc
    exact absurd hc hold
  | cons c rest ih =>
    simp only [replaceAllAux]
    split
    · rename_i hp
      have hpre := (List.isPrefixOf_iff_prefix.mp hp).length_le
      have hpos : 0 < old.length := List.length_pos.mpr hold
      have := replaceAllAux_length_le old new hold (Nat.le_of_lt hlen) rest (old.length - 1)
      simp only [List.length_append, List.length_cons] at hpre ⊢
      omega
    · rename_i hp
      have hrest : containsSub rest old = true := by
        simpa [containsSub, hp] using hc
      have := ih hrest
      simp only [List.length_cons]
      omega

/-- The loop on double spaces ends with fuel for every character; its result
has no double space and no character that is not in the text or a space. -/
theorem collapseSpaces_total (fuel : Nat) :
    ∀ text : String, text.length < fuel →
      ∃ t : String, collapseSpaces fuel text = some t ∧ stringsContains t "  " = false ∧
        ∀ c ∈ t.data, c ∈ text.data ∨ c = ' ' := by
  induction fuel with
  | zero => intro text h; omega
  | succ k ih =>
    intro text h
    by_cases hc : stringsContains text "  " = true
    · have hlt : (stringsReplaceAll text "  " " ").length < text.length := by
        have := replaceAllAux_length_lt "  ".data " ".data (by decide) (by decide) text.data hc
        rw [← stringsReplaceAll_data text "  " " " (by decide)] at this
        exact this
      obtain ⟨t, ht, hno, hmem⟩ := ih (stringsReplaceAll text "  " " ") (by omega)
      refine ⟨t, by simp [collapseSpaces, hc, ht], hno, ?_⟩
      intro c hct
      rcases hmem c hct with h1 | h1
      · rcases stringsReplaceAll_mem text "  " " " (by decide) c h1 with h2 | h2
        · exact Or.inl h2
        · exact Or.inr (List.mem_singleton.mp h2)
      · exact Or.inr h1
    · refine ⟨text, by simp [collapseSpaces, hc], by simpa using hc, fun c h => Or.inl h⟩

theorem dropWhile_head (p : Char → Bool) (l : List Char) (c : Char)
    (h : (l.dropWhile p).head? = some c) : p c = false := by
  induction l with
  | nil => simp at h
  | cons x rest ih =>
    by_cases hx : p x = true
    · rw [List.dropWhile_cons_of_pos hx] at h
      exact ih h
    · rw [List.dropWhile_cons_of_neg hx] at h
      simp only [List.head?_cons, Option.some.injEq] at h
      subst h
      simpa using hx

theorem trimSpace_within (s : String) : (trimSpace s).data <:+: s.data := by
  have h1 : ((s.data.dropWhile isSpaceChar).reverse.dropWhile isSpaceChar).reverse <+:
      s.data.dropWhile isSpaceChar := by
    have := List.dropWhile_suffix isSpaceChar (l := (s.data.dropWhile isSpaceChar).reverse)
    simpa using List.reverse_prefix.mpr this
  exact h1.isInfix.trans (List.dropWhile_suffix isSpaceChar).isInfix

theorem trimSpace_ends (s : String) :
    (∀ c, (trimSpace s).data.head? = some c → isSpaceChar c = false) ∧
    (∀ c, (trimSpace s).data.getLast? = some c → isSpaceChar c = false) := by
  constructor
  · intro c hc
    have hpre : (trimSpace s).data <+: s.data.dropWhile isSpaceChar := by
      have := List.dropWhile_suffix isSpaceChar (l := (s.data.dropWhile isSpaceChar).reverse)
      simpa [trimSpace] using List.reverse_prefix.mpr this
    obtain ⟨tail, htail⟩ := hpre
    apply dropWhile_head isSpaceChar s.data c
    rw [← htail]
    cases hd : (trimSpace s).data with
    | nil => simp [hd] at hc
    | cons x rest =>
      simp only [hd, List.head?_cons, Option.some.injEq] at hc
      simp [hc]
  · intro c hc
    apply dropWhile_head isSpaceChar (s.data.dropWhile isSpaceChar).reverse c
    simpa [trimSpace, List.getLast?_reverse] using hc

theorem spacedText_mem (content : String) (c : Char) (h : c ∈ (spacedText content).data) :
    c ≠ '<' ∧ c ≠ '>' ∧ c ≠ '\n' ∧ c ≠ '\t' := by
  have hn : '\n' ∉ (stringsReplaceAll ⟨stripTags content.data false⟩ "\n" " ").data := by
    rw [stringsReplaceAll_data _ "\n" " " (by decide)]
    exact replaceAllAux_single '\n' " ".data (by decide) _
  have ht : '\t' ∉ (spacedText content).data := by
    rw [spacedText, stringsReplaceAll_data _ "\t" " " (by decide)]
    exact replaceAllAux_single '\t' " ".data (by decide) _
  have hsrc : c ∈ stripTags content.data false ∨ c = ' ' := by
    rcases stringsReplaceAll_mem _ "\t" " " (by decide) c h with h1 | h1
    · rcases stringsReplaceAll_mem _ "\n" " " (by decide) c h1 with h2 | h2
      · exact Or.inl h2
      · exact Or.inr (List.mem_singleton.mp h2)
    · exact Or.inr (List.mem_singleton.mp h1)
  have hnl : c ≠ '\n' := by
    rintro rfl
    rcases stringsReplaceAll_mem _ "\t" " " (by decide) _ h with h1 | h1
    · exact hn h1
    · exact absurd (List.mem_singleton.mp h1) (by decide)
  have htab : c ≠ '\t' := by
    rintro rfl
    exact ht h
  rcases hsrc with h1 | rfl
  · exact ⟨(stripTags_mem _ _ _ h1).2.1, (stripTags_mem _ _ _ h1).2.2, hnl, htab⟩
  · exact ⟨by decide, by decide, by decide, by decide⟩

/-- C26: the clean-up of `extractAllText` ends for every content: the loop on
double spaces returns with the fuel it is given. The text returned has no `<`
and no `>`, no newline and no tab, no two spaces in a row and no space at its
start or its end. For a package whose `content.xml` is read, `extractAllText`
returns this text and no error. -/
theorem extractAllText_cleanup (content : String) :
    (∃ t : String,
      collapseSpaces ((spacedText content).length + 1) (spacedText content) = some t ∧
      cleanText content = trimSpace t) ∧
    '<' ∉ (cleanText content).data ∧ '>' ∉ (cleanText content).data ∧
    '\n' ∉ (cleanText content).data ∧ '\t' ∉ (cleanText content).data ∧
    stringsContains (cleanText content) "  " = false ∧
    (cleanText content).data.head? ≠ some ' ' ∧
    (cleanText content).data.getLast? ≠ some ' ' ∧
    (∀ reader : List ZipFile, extractFileFromZip reader "content.xml" = .ok content →
      extractAllText (some reader) = (none, cleanText content)) := by
  obtain ⟨t, ht, hno, hmem⟩ :=
    collapseSpaces_total ((spacedText content).length + 1) (spacedText content) (by omega)
  have hclean : cleanText content = trimSpace t := by
    simp [cleanText, ht]
  have hchars : ∀ c ∈ (cleanText content).data, c ≠ '<' ∧ c ≠ '>' ∧ c ≠ '\n' ∧ c ≠ '\t' := by
    intro c hc
    rw [hclean] at hc
    rcases hmem c ((trimSpace_within t).subset hc) with h1 | rfl
    · exact spacedText_mem content c h1
    · exact ⟨by decide, by decide, by decide, by decide⟩
  refine ⟨⟨t, ht, hclean⟩, fun h => (hchars _ h).1 rfl, fun h => (hchars _ h).2.1 rfl,
    fun h => (hchars _ h).2.2.1 rfl, fun h => (hchars _ h).2.2.2 rfl, ?_, ?_, ?_, ?_⟩
  · rw [← Bool.not_eq_true, stringsContains, containsSub_iff, hclean]
    intro hin
    have : containsSub t.data "  ".data = true :=
      (containsSub_iff _ _).mpr (hin.trans (trimSpace_within t))
    rw [stringsContains, this] at hno
    exact Bool.noConfusion hno
  · rw [hclean]
    intro h
    exact absurd ((trimSpace_ends t).1 ' ' h) (by decide)
  · rw [hclean]
    intro h
    exact absurd ((trimSpace_ends t).2 ' ' h) (by decide)
  · intro reader hread
    simp [extractAllText, hread]

/-- C26, on `sampleContent` as the `content.xml` of a package: the text is
`Hello big world`. -/
theorem extractAllText_cleanup_witness :
    cleanText sampleContent = "Hello big world" ∧
    extractAllText (some [ ⟨"mimetype", some ⟨"text", false⟩⟩,
        ⟨"content.xml", some ⟨sampleContent, false⟩⟩ ]) =
      (none, cleanText sampleContent) :=
  ⟨by decide,
    (extractAllText_cleanup sampleContent).2.2.2.2.2.2.2.2
      [⟨"mimetype", some ⟨"text", false⟩⟩, ⟨"content.xml", some ⟨sampleContent, false⟩⟩]
      (by decide)⟩

/-! ## The claim on the style mapping of a document -/

theorem extractStyles_style_step (mapping : List (String × StyleInfo)) (space : String)
    (attrs : List Attr) (body post : List Token) (endName : Name) (ae : XmlError)
    (hspace : space ≠ "") (hbody : Balanced body) :
    extractStyles
        ⟨.StartElement ⟨space, "style"⟩ attrs :: (body ++ .EndElement endName :: post), ae⟩
        mapping =
      extractStyles ⟨post, ae⟩ (recordStyle mapping (decodeStyleAttrs attrs ⟨"", "", ""⟩)) := by
  have hskip : skipElement 0 (body ++ .EndElement endName :: post) = some post := by
    rw [skipElement_balanced hbody]
    rfl
  rw [extractStyles_cons]
  simp [extractStep, Decoder.DecodeElement, hspace, hskip]

/-- The loop of `extractFromFile` passes through a scanned prefix and goes on
behind it with some mapping. -/
theorem extractStyles_scanned_prefix {front : List Token} (hf : ScannedPrefix front) :
    ∀ (m : List (String × StyleInfo)) (rest : List Token) (ae : XmlError),
      ∃ m1, extractStyles ⟨front ++ rest, ae⟩ m = extractStyles ⟨rest, ae⟩ m1 := by
  induction hf with
  | nil => intro m rest ae; exact ⟨m, rfl⟩
  | @other tok front hno _ ih =>
    intro m rest ae
    have hstep : extractStep tok ⟨front ++ rest, ae⟩ m = (⟨front ++ rest, ae⟩, m) := by
      cases tok with
      | StartElement n a =>
        have := hno n a rfl
        simp only [extractStep, this, if_false]
      | _ => rfl
    obtain ⟨m1, h1⟩ := ih m rest ae
    exact ⟨m1, by rw [List.cons_append, extractStyles_cons, hstep]; exact h1⟩
  | @style space attrs endName body front hspace hbody _ ih =>
    intro m rest ae
    obtain ⟨m1, h1⟩ := ih (recordStyle m (decodeStyleAttrs attrs ⟨"", "", ""⟩)) rest ae
    refine ⟨m1, ?_⟩
    rw [List.cons_append, List.append_assoc, List.cons_append,
      extractStyles_style_step m space attrs body _ endName ae hspace hbody]
    exact h1

/-- A property of the mapping that every entered style keeps is kept by the loop. -/
theorem extractStyles_invariant (P : List (String × StyleInfo) → Prop)
    (hP : ∀ m style, P m → P (recordStyle m style)) (n : Nat) :
    ∀ (d : Decoder) (m : List (String × StyleInfo)), d.pending.length ≤ n → P m →
      P (extractStyles d m) := by
  induction n with
  | zero =>
    intro d m hn hm
    obtain ⟨pending, ae⟩ := d
    have : pending = [] := List.length_eq_zero.mp (by simpa using hn)
    subst this
    rw [extractStyles_nil]
    exact hm
  | succ k ih =>
    intro d m hn hm
    obtain ⟨pending, ae⟩ := d
    cases pending with
    | nil => rw [extractStyles_nil]; exact hm
    | cons tok rest =>
      rw [extractStyles_cons]
      have hlen := extractStep_pending tok ⟨rest, ae⟩ m
      apply ih _ _ (by simp at hn hlen; omega)
      cases tok with
      | StartElement nm a =>
        simp only [extractStep]
        split
        · split
          · exact hP _ _ hm
          · exact hm
        · exact hm
      | _ => exact hm

theorem mappingSet_keys {β : Type} (m : List (String × β)) (key : String) (v : β) :
    (mappingSet m key v).map Prod.fst =
      if key ∈ m.map Prod.fst then m.map Prod.fst else m.map Prod.fst ++ [key] := by
  induction m with
  | nil => simp [mappingSet]
  | cons p rest ih =>
    obtain ⟨k, w⟩ := p
    by_cases h : k = key
    · subst h
      simp [mappingSet]
    · have h2 : ¬ key = k := fun e => h e.symm
      simp only [mappingSet, h, if_false, List.map_cons, ih, List.mem_cons, h2, false_or]
      split <;> simp

theorem mappingSet_nodup {β : Type} (m : List (String × β)) (key : String) (v : β)
    (h : (m.map Prod.fst).Nodup) : ((mappingSet m key v).map Prod.fst).Nodup := by
  rw [mappingSet_keys]
  split
  · exact h
  · rename_i hk
    exact List.nodup_append.mpr ⟨h, List.nodup_singleton _, by
      intro a ha hb
      rw [List.mem_singleton] at hb
      subst hb
      exact hk ha⟩

theorem recordStyle_nodup (m : List (String × StyleInfo)) (style : Style)
    (h : (m.map Prod.fst).Nodup) : ((recordStyle m style).map Prod.fst).Nodup := by
  unfold recordStyle
  split
  · exact mappingSet_nodup _ _ _ h
  · exact h

theorem extractFromFile_nodup (newDecoder : String → Decoder) (reader : List ZipFile)
    (filename : String) (m : List (String × StyleInfo)) (h : (m.map Prod.fst).Nodup) :
    ((extractFromFile newDecoder reader filename m).2.map Prod.fst).Nodup := by
  unfold extractFromFile
  split
  · exact h
  · split
    · exact h
    · exact extractStyles_invariant (fun x => (x.map Prod.fst).Nodup) recordStyle_nodup _ _ _
        (Nat.le_refl _) h

theorem mappingGet_count {β : Type} (m : List (String × β)) (key : String) (v : β)
    (hn : (m.map Prod.fst).Nodup) (hg : mappingGet m key = some v) :
    (m.filter (fun p => p.1 = key)).length = 1 := by
  induction m with
  | nil => simp [mappingGet] at hg
  | cons p rest ih =>
    obtain ⟨k, w⟩ := p
    simp only [List.map_cons, List.nodup_cons] at hn
    by_cases h : k = key
    · subst h
      have hrest : rest.filter (fun p => p.1 = k) = [] := by
        rw [List.filter_eq_nil_iff]
        intro q hq hqk
        apply hn.1
        rw [List.mem_map]
        exact ⟨q, hq, by simpa using hqk⟩
      simp [List.filter_cons, hrest]
    · have hg2 : mappingGet rest key = some v := by simpa [mappingGet, h] using hg
      simp [List.filter_cons, h, ih hn.2 hg2]

/-- C25: the mapping of `extractStyleMapping` is keyed by the style name alone.
When a namespaced `style` element with a non-empty name is the last of its
name that is scanned, in `content.xml`, or in `styles.xml` with no element of
the name in what is read of `content.xml`, then whatever elements of the same
name were scanned before it, in another family or in the other file, the
mapping returned has exactly one entry for the name, with the family and the
display name of this last element, and no name has two entries. -/
theorem extractStyleMapping_last_wins (newDecoder : String → Decoder) (reader : List ZipFile)
    (filename : String) (file : ZipFile) (data : String) (front body post : List Token)
    (space : String) (attrs : List Attr) (endName : Name) (ae : XmlError)
    (hfile : filename = "styles.xml" ∨ filename = "content.xml")
    (hfind : findFile reader filename = some file) (hdata : file.content = some data)
    (htokens : newDecoder data =
      ⟨front ++ .StartElement ⟨space, "style"⟩ attrs :: (body ++ .EndElement endName :: post),
        ae⟩)
    (hfront : ScannedPrefix front) (hspace : space ≠ "") (hbody : Balanced body)
    (hname : attrValue attrs "name" "" ≠ "")
    (hlast : ∀ (n : Name) (a : List Attr), Token.StartElement n a ∈ post →
      n.Local = "style" ∧ n.Space ≠ "" → attrValue a "name" "" ≠ attrValue attrs "name" "")
    (hlater : filename = "styles.xml" → ∀ (f2 : ZipFile) (rc : EntryReader),
      findFile reader "content.xml" = some f2 → f2.Open = some rc →
      ∀ (n : Name) (a : List Attr), Token.StartElement n a ∈ (newDecoder rc.data).pending →
        n.Local = "style" ∧ n.Space ≠ "" →
        attrValue a "name" "" ≠ attrValue attrs "name" "") :
    ∃ mapping : List (String × StyleInfo),
      extractStyleMapping newDecoder (some reader) = .ok mapping ∧
      mappingGet mapping (attrValue attrs "name" "") =
        some ⟨if attrValue attrs "display-name" "" = "" then attrValue attrs "name" ""
              else attrValue attrs "display-name" "",
          attrValue attrs "family" ""⟩ ∧
      (mapping.filter (fun p => p.1 = attrValue attrs "name" "")).length = 1 ∧
      (mapping.map Prod.fst).Nodup := by
  have hkey : ∀ m0 : List (String × StyleInfo),
      mappingGet (extractStyles (newDecoder data) m0) (attrValue attrs "name" "") =
        some ⟨if attrValue attrs "display-name" "" = "" then attrValue attrs "name" ""
              else attrValue attrs "display-name" "",
          attrValue attrs "family" ""⟩ := by
    intro m0
    obtain ⟨m1, h1⟩ := extractStyles_scanned_prefix hfront m0
      (.StartElement ⟨space, "style"⟩ attrs :: (body ++ .EndElement endName :: post)) ae
    rw [htokens, h1, extractStyles_style_step m1 space attrs body post endName ae hspace hbody,
      extractStyles_other _ post.length ⟨post, ae⟩ _ (Nat.le_refl _) hlast, decodeStyleAttrs_eq]
    simp only [recordStyle, hname, ne_eq, not_false_eq_true, if_true]
    exact mappingGet_set_same _ _ _
  have hfound : ∀ m0 : List (String × StyleInfo),
      (extractFromFile newDecoder reader filename m0).2 = extractStyles (newDecoder data) m0 := by
    intro m0
    simp [extractFromFile, hfind, content_eq_some file data hdata]
  have hnodup : (((extractFromFile newDecoder reader "content.xml"
      (extractFromFile newDecoder reader "styles.xml" []).2).2).map Prod.fst).Nodup :=
    extractFromFile_nodup _ _ _ _ (extractFromFile_nodup _ _ _ _ (by simp))
  have hget : mappingGet (extractFromFile newDecoder reader "content.xml"
      (extractFromFile newDecoder reader "styles.xml" []).2).2 (attrValue attrs "name" "") =
        some ⟨if attrValue attrs "display-name" "" = "" then attrValue attrs "name" ""
              else attrValue attrs "display-name" "",
          attrValue attrs "family" ""⟩ := by
    rcases hfile with hf | hf
    · subst hf
      have h1 := hkey []
      rw [← hfound] at h1
      generalize (extractFromFile newDecoder reader "styles.xml" []).2 = afterStyles at h1 ⊢
      cases hc : findFile reader "content.xml" with
      | none => simpa [extractFromFile, hc] using h1
      | some f2 =>
        cases hd : f2.Open with
        | none => simpa [extractFromFile, hc, hd] using h1
        | some rc =>
          have h2 := extractStyles_other (attrValue attrs "name" "")
            (newDecoder rc.data).pending.length (newDecoder rc.data) afterStyles (Nat.le_refl _)
            (hlater rfl f2 rc hc hd)
          simp only [extractFromFile, hc, hd]
          rw [h2]
          exact h1
    · subst hf
      rw [hfound]
      exact hkey _
  refine ⟨_, ?_, hget, mappingGet_count _ _ _ hnodup hget, hnodup⟩
  have hne : (extractFromFile newDecoder reader "content.xml"
      (extractFromFile newDecoder reader "styles.xml" []).2).2.length ≠ 0 := by
    intro h0
    rw [List.length_eq_zero.mp h0] at hget
    simp [mappingGet] at hget
  simp [extractStyleMapping, hne]

/-- C25, on `emphasisPackage`: `Emphasis` is a paragraph style in `styles.xml`
and a text style in `content.xml`; the mapping has one entry for it, with
family `text` and the name as display name. -/
theorem extractStyleMapping_last_wins_witness :
    extractStyleMapping emphasisDecoder (some emphasisPackage) =
      .ok [("Emphasis", ⟨"Emphasis", "text"⟩)] ∧
    ∃ mapping : List (String × StyleInfo),
      extractStyleMapping emphasisDecoder (some emphasisPackage) = .ok mapping ∧
      mappingGet mapping "Emphasis" = some ⟨"Emphasis", "text"⟩ ∧
      (mapping.filter (fun p => p.1 = "Emphasis")).length = 1 ∧
      (mapping.map Prod.fst).Nodup :=
  ⟨by decide,
    extractStyleMapping_last_wins emphasisDecoder emphasisPackage "content.xml"
      ⟨"content.xml", some ⟨"content", false⟩⟩ "content"
      [.StartElement ⟨"urn:oasis:names:tc:opendocument:xmlns:office:1.0", "automatic-styles"⟩ []]
      []
      [.EndElement ⟨"urn:oasis:names:tc:opendocument:xmlns:office:1.0", "automatic-styles"⟩]
      styleNS [⟨⟨styleNS, "name"⟩, "Emphasis"⟩, ⟨⟨styleNS, "family"⟩, "text"⟩]
      ⟨styleNS, "style"⟩ .EOF (Or.inr rfl) (by decide) (by decide) (by decide)
      (.other _ (by intro n a h; cases h; decide) .nil) (by decide) .nil (by decide)
      (by intro n a hm; simp at hm)
      (by intro h; exact absurd h (by decide))⟩

end LibreOfficeReformatter
